import Mathlib

/-!
# GPU-Raytracer: the SAH BVH builder

A shallow embedding of `BVHBuilder.h` (`init`, `build_bvh_impl`,
`build_bvh_recursive`, the two `build` overloads) and the statements of the
specification about the tree it produces.

Conventions of the embedding.

* Coordinates (`float`) range over a bounded linear order `α`: the builder only
  compares, minimises and maximises coordinates, which is exact on floats, and
  `⊤`/`⊥` stand for `+∞`/`-∞`. NaN is outside the model.
* C arrays are lists; `int` indices and counts are natural numbers. The only
  32-bit operation whose wrap-around matters, `(split_dimension + 1) << 30`, is
  taken modulo `2^32`. Reads of the index arrays and of the primitive array
  outside their bounds yield `0` and `Primitive.outside`.
* `BVH.h`, `AABB.h` and `BVHPartitions.h` are not among the sources. The node
  record, the box algebra and `calculate_bounds` are modelled from the
  specification; `partition_sah`, `split_indices`, `AABB::surface_area` and
  `std::sort` are parameters (`Collaborators`) constrained by explicit contracts.
  The scratch buffers `sah` and `temp` are only used inside these functions and
  are left out.
* A run ends in a state or in a `Fault`: a store through a node reference outside
  the arena, a recursion that does not end within the given depth, a failing
  `assert`. Faults are undefined behaviour or an abort of the program, not values
  that `build` hands to its caller: `build` returns `void`.
* The state carries a log of control-flow events. It is instrumentation: the
  builder never reads it.
-/

namespace BVHBuilder

/-- Three coordinates (`Vector3`). -/
structure Vector3 (α : Type) where
  x : α
  y : α
  z : α

/-- Component access `v[dimension]`. -/
def Vector3.get {α : Type} (v : Vector3 α) (dimension : Fin 3) : α :=
  if dimension.val = 0 then v.x else if dimension.val = 1 then v.y else v.z

/-- Modelled from the spec: `AABB.h` is missing; an axis-aligned box is a pair of
corner vectors `min`, `max`. -/
structure AABB (α : Type) where
  min : Vector3 α
  max : Vector3 α

/-- Modelled from the spec: the empty box, `min = +∞`, `max = -∞`, the identity
of `union`. -/
def AABB.empty {α : Type} [Top α] [Bot α] : AABB α :=
  { min := ⟨⊤, ⊤, ⊤⟩, max := ⟨⊥, ⊥, ⊥⟩ }

/-- Modelled from the spec: `union(a, b)`, componentwise minimum of the `min`
corners and maximum of the `max` corners. -/
def AABB.union {α : Type} [LinearOrder α] (a b : AABB α) : AABB α :=
  { min := ⟨Min.min a.min.x b.min.x, Min.min a.min.y b.min.y, Min.min a.min.z b.min.z⟩,
    max := ⟨Max.max a.max.x b.max.x, Max.max a.max.y b.max.y, Max.max a.max.z b.max.z⟩ }

/-- Componentwise containment `inner ⊆ outer` of boxes. -/
def AABB.encloses {α : Type} [LinearOrder α] (outer inner : AABB α) : Prop :=
  (outer.min.x ≤ inner.min.x ∧ outer.min.y ≤ inner.min.y ∧ outer.min.z ≤ inner.min.z) ∧
  (inner.max.x ≤ outer.max.x ∧ inner.max.y ≤ outer.max.y ∧ inner.max.z ≤ outer.max.z)

/-- What the builder template asks of a primitive (`Triangle` or `Mesh`): the
values of `get_center()` and of its bounding box. -/
structure Primitive (α : Type) where
  get_center : Vector3 α
  get_aabb : AABB α

/-- The primitive read by an out-of-range access (never reached by a build over
`N ≥ 1` primitives). -/
def Primitive.outside {α : Type} [Top α] [Bot α] : Primitive α :=
  { get_center := ⟨⊥, ⊥, ⊥⟩, get_aabb := AABB.empty }

/-- The read `primitives[i]`. -/
def primitive_at {α : Type} [Top α] [Bot α] (primitives : List (Primitive α)) (i : Nat) :
    Primitive α :=
  primitives.getD i Primitive.outside

/-- Modelled from the spec: `BVH.h` is missing. A node holds its box, the field
shared by `left` (interior) and `first` (leaf), and `count`, whose low 30 bits are
the primitive count and whose high 2 bits are `axis + 1`. -/
structure BVHNode (α : Type) where
  aabb : AABB α
  left : Nat
  count : Nat

/-- The leaf view of the shared field: `first` overlaps `left`. -/
def BVHNode.first {α : Type} (node : BVHNode α) : Nat := node.left

/-- Modelled from the spec: `is_leaf(node)`, the low 30 bits of `count` are
nonzero. -/
def BVHNode.is_leaf {α : Type} (node : BVHNode α) : Bool :=
  node.count % 2 ^ 30 != 0

/-- Modelled from the spec: `split_axis(node) = (count >> 30) - 1`. -/
def BVHNode.split_axis {α : Type} (node : BVHNode α) : Int :=
  ((node.count >>> 30 : Nat) : Int) - 1

/-- The value of `(split_dimension + 1) << 30` in 32-bit arithmetic. -/
def encode_axis (split_dimension : Nat) : Nat :=
  ((split_dimension + 1) <<< 30) % 2 ^ 32

/-- The three results of `partition_sah`: the returned split index and the two
output parameters. -/
structure SplitResult where
  split_index : Nat
  split_dimension : Fin 3
  split_cost : ℚ

/-- The three index arrays `indices[0..2]` (`indices_x`, `indices_y`,
`indices_z`). -/
abbrev Indices := Fin 3 → List Nat

/-- The functions the builder calls whose code is not among the sources.
`partition_sah` and `split_indices` see the primitives, the three index arrays
and the range; costs are rationals, and since both the reported split cost and
`surface_area` are arbitrary every outcome of the float comparison of line 42 is
covered. `sort cmp xs` is `std::sort` with comparator `cmp`. -/
structure Collaborators (α : Type) where
  partition_sah : List (Primitive α) → Indices → Nat → Nat → SplitResult
  split_indices : List (Primitive α) → Indices → Nat → Nat → Fin 3 → Nat → α → Indices
  surface_area : AABB α → ℚ
  sort : (Nat → Nat → Bool) → List Nat → List Nat

/-- The entries `indices[first .. first + count)`. -/
def slice (indices : List Nat) (first count : Nat) : List Nat :=
  (indices.drop first).take count

/-- Modelled from the spec: `calculate_bounds(prims, idx, lo, hi)` is the union
of `prims[idx[k]].aabb()` for `k ∈ [lo, hi)`, folded from the empty box. -/
def calculate_bounds {α : Type} [LinearOrder α] [BoundedOrder α]
    (primitives : List (Primitive α)) (indices : List Nat) (first last : Nat) : AABB α :=
  ((slice indices first (last - first)).map fun i => (primitive_at primitives i).get_aabb).foldl
    AABB.union AABB.empty

/-- What can go wrong in a run of the builder. -/
inductive Fault where
  | out_of_fuel
  | out_of_bounds (node : Nat)
  | assertion_failed
  deriving DecidableEq

/-- Control-flow events recorded while building (instrumentation, never read by
the builder): `reserve node left` when lines 32-33 give `node` the child slots
`left` and `left + 1`; `sah_leaf node` when lines 43-46 turn `node` into a leaf. -/
inductive Event where
  | reserve (node left : Nat)
  | sah_leaf (node : Nat)
  deriving DecidableEq

/-- The memory the builder works on: the node arena `bvh->nodes`, the three index
arrays (`bvh->indices` is `indices 0`), the allocator `node_index`, the two
counters of the BVH, and the event log. -/
structure BuildState (α : Type) where
  nodes : List (BVHNode α)
  indices : Indices
  node_index : Nat
  node_count : Nat
  index_count : Nat
  log : List Event

/-- The guard of lines 39-42: the range fits a leaf and splitting does not pay. -/
def sah_terminates (max_primitives_in_leaf index_count : Nat) (split_cost parent_cost : ℚ) :
    Bool :=
  decide (index_count ≤ max_primitives_in_leaf) && decide (split_cost ≥ parent_cost)

/-- The function `BVHBuilder::build_bvh_recursive`, lines 21-60. `node` is the
arena slot the reference `BVHNode & node` points at, so forming the reference to a
slot outside the arena is the fault `out_of_bounds`; the first argument bounds the
recursion depth. The node is updated in a local copy that is stored back before
every return and before the first recursive call; `node.left` is read again from
the arena for the second call, as in the source. `n_left` and `n_right` use
truncated subtraction, which agrees with `int` subtraction whenever the split
index lies in the range. -/
def build_bvh_recursive {α : Type} [LinearOrder α] [BoundedOrder α]
    (ext : Collaborators α) (primitives : List (Primitive α)) (max_primitives_in_leaf : Nat) :
    Nat → Nat → Nat → Nat → BuildState α → Except Fault (BuildState α)
  | 0, _, _, _, _ => .error .out_of_fuel
  | fuel + 1, node, first_index, index_count, st =>
    match st.nodes[node]? with
    | none => .error (.out_of_bounds node)
    | some nd =>
      let nd := { nd with aabb := calculate_bounds primitives (st.indices 0) first_index
                                    (first_index + index_count) }
      if index_count = 1 then
        .ok { st with nodes := st.nodes.set node { nd with left := first_index, count := index_count } }
      else
        let nd := { nd with left := st.node_index }
        let st := { st with node_index := st.node_index + 2,
                            log := st.log ++ [Event.reserve node st.node_index] }
        let r := ext.partition_sah primitives st.indices first_index index_count
        if sah_terminates max_primitives_in_leaf index_count r.split_cost
            (ext.surface_area nd.aabb * (index_count : ℚ)) then
          .ok { st with nodes := st.nodes.set node { nd with left := first_index, count := index_count },
                        log := st.log ++ [Event.sah_leaf node] }
        else
          let split := ((primitive_at primitives
            ((st.indices r.split_dimension).getD r.split_index 0)).get_center).get r.split_dimension
          let st := { st with indices := ext.split_indices primitives st.indices first_index
                                index_count r.split_dimension r.split_index split }
          let nd := { nd with count := encode_axis r.split_dimension.val }
          let st := { st with nodes := st.nodes.set node nd }
          let n_left := r.split_index - first_index
          let n_right := first_index + index_count - r.split_index
          match build_bvh_recursive ext primitives max_primitives_in_leaf fuel nd.left
              first_index n_left st with
          | .error e => .error e
          | .ok st =>
            match st.nodes[node]? with
            | none => .error (.out_of_bounds node)
            | some nd =>
              build_bvh_recursive ext primitives max_primitives_in_leaf fuel (nd.left + 1)
                (first_index + n_left) n_right st

/-- The comparator of the three `std::sort` calls: centres compared along one
axis. -/
def center_less {α : Type} [LinearOrder α] [BoundedOrder α]
    (primitives : List (Primitive α)) (dimension : Fin 3) (a b : Nat) : Bool :=
  decide (((primitive_at primitives a).get_center).get dimension <
          ((primitive_at primitives b).get_center).get dimension)

/-- Lines 64-66: each index array has its first `primitive_count` entries sorted
by the centres along its own axis. -/
def sort_indices {α : Type} [LinearOrder α] [BoundedOrder α] (ext : Collaborators α)
    (primitives : List (Primitive α)) (primitive_count : Nat) (indices : Indices) : Indices :=
  fun d =>
    ext.sort (center_less primitives d) ((indices d).take primitive_count) ++
      (indices d).drop primitive_count

/-- The function `BVHBuilder::build_bvh_impl`, lines 63-77: sort the index arrays, build from
node 0 with the allocator at 2, check the assertion, store the two counters. -/
def build_bvh_impl {α : Type} [LinearOrder α] [BoundedOrder α]
    (ext : Collaborators α) (primitives : List (Primitive α)) (primitive_count : Nat)
    (max_primitives_in_leaf : Nat) (fuel : Nat) (st : BuildState α) :
    Except Fault (BuildState α) :=
  let st := { st with indices := sort_indices ext primitives primitive_count st.indices,
                      node_index := 2 }
  match build_bvh_recursive ext primitives max_primitives_in_leaf fuel 0 0 primitive_count st with
  | .error e => .error e
  | .ok st =>
    if st.node_index ≤ 2 * primitive_count then
      .ok { st with node_count := st.node_index, index_count := primitive_count }
    else .error .assertion_failed

/-- The function `BVHBuilder::init`, lines 80-98: three identity index arrays of length
`primitive_count` and a fresh arena of `2 * primitive_count` nodes whose content
`fresh` is whatever the allocation holds; the BVH counters keep their old
values. -/
def init {α : Type} (old_node_count old_index_count : Nat) (fresh : Nat → BVHNode α)
    (primitive_count : Nat) : BuildState α :=
  { nodes := (List.range (2 * primitive_count)).map fresh,
    indices := fun _ => List.range primitive_count,
    node_index := 0,
    node_count := old_node_count,
    index_count := old_index_count,
    log := [] }

/-- The value of `INT_MAX`. -/
def INT_MAX : Nat := 2 ^ 31 - 1

/-- The overload `BVHBuilder::build(const Triangle *, int)`, line 109. -/
def build_triangles {α : Type} [LinearOrder α] [BoundedOrder α]
    (ext : Collaborators α) (triangles : List (Primitive α)) (triangle_count : Nat)
    (fuel : Nat) (st : BuildState α) : Except Fault (BuildState α) :=
  build_bvh_impl ext triangles triangle_count INT_MAX fuel st

/-- The overload `BVHBuilder::build(const Mesh *, int)`, line 113. -/
def build_meshes {α : Type} [LinearOrder α] [BoundedOrder α]
    (ext : Collaborators α) (meshes : List (Primitive α)) (mesh_count : Nat)
    (fuel : Nat) (st : BuildState α) : Except Fault (BuildState α) :=
  build_bvh_impl ext meshes mesh_count 1 fuel st

/-- Line 50: the split value, the centre along the chosen axis of the primitive at
the split index of the chosen axis. -/
def split_value {α : Type} [LinearOrder α] [BoundedOrder α] (ext : Collaborators α)
    (primitives : List (Primitive α)) (indices : Indices) (first_index index_count : Nat) : α :=
  ((primitive_at primitives
    ((indices (ext.partition_sah primitives indices first_index index_count).split_dimension).getD
      (ext.partition_sah primitives indices first_index index_count).split_index
      0)).get_center).get
    (ext.partition_sah primitives indices first_index index_count).split_dimension

/-- Lines 50-51: the index arrays after `split_indices` ran for the split that
`partition_sah` chose, with the split value read from the primitive at the split
index of the chosen axis. -/
def split_pass {α : Type} [LinearOrder α] [BoundedOrder α] (ext : Collaborators α)
    (primitives : List (Primitive α)) (indices : Indices) (first_index index_count : Nat) :
    Indices :=
  ext.split_indices primitives indices first_index index_count
    (ext.partition_sah primitives indices first_index index_count).split_dimension
    (ext.partition_sah primitives indices first_index index_count).split_index
    (split_value ext primitives indices first_index index_count)

/-! ## The tree stored in the arena -/

/-- A binary tree of arena slots: a leaf with its slot, range and box, or an
interior node with its slot, range, box, split axis, the split value read at
line 50 (which is not stored in the arena) and two children. -/
inductive Tree (α : Type) where
  | leaf (slot first count : Nat) (aabb : AABB α)
  | interior (slot first count : Nat) (aabb : AABB α) (axis : Fin 3) (split : α)
      (left right : Tree α)

/-- The arena slot of the root of the tree. -/
def Tree.slot {α : Type} : Tree α → Nat
  | .leaf slot _ _ _ => slot
  | .interior slot _ _ _ _ _ _ _ => slot

/-- The start of the range of the root of the tree. -/
def Tree.first {α : Type} : Tree α → Nat
  | .leaf _ first _ _ => first
  | .interior _ first _ _ _ _ _ _ => first

/-- The length of the range of the root of the tree. -/
def Tree.count {α : Type} : Tree α → Nat
  | .leaf _ _ count _ => count
  | .interior _ _ count _ _ _ _ _ => count

/-- The box of the root of the tree. -/
def Tree.aabb {α : Type} : Tree α → AABB α
  | .leaf _ _ _ aabb => aabb
  | .interior _ _ _ aabb _ _ _ _ => aabb

/-- Whether the root of the tree is a leaf. -/
def Tree.is_leaf {α : Type} : Tree α → Bool
  | .leaf _ _ _ _ => true
  | .interior _ _ _ _ _ _ _ _ => false

/-- The arena holds the tree: a leaf's slot holds its box, `first` and `count`;
an interior node's slot holds its box, `left` pointing at the left child and the
encoded axis, the right child sits at `left + 1`, and both children are held. -/
def Tree.Stored {α : Type} (nodes : List (BVHNode α)) : Tree α → Prop
  | .leaf slot first count aabb =>
    nodes[slot]? = some { aabb := aabb, left := first, count := count }
  | .interior slot _ _ aabb axis _ l r =>
    nodes[slot]? = some { aabb := aabb, left := l.slot, count := encode_axis axis.val } ∧
    r.slot = l.slot + 1 ∧ Tree.Stored nodes l ∧ Tree.Stored nodes r

/-- All nodes of the tree, each as the subtree it roots, parents first. -/
def Tree.subtrees {α : Type} : Tree α → List (Tree α)
  | .leaf slot first count aabb => [.leaf slot first count aabb]
  | .interior slot first count aabb axis split l r =>
    .interior slot first count aabb axis split l r :: (Tree.subtrees l ++ Tree.subtrees r)

/-- The leaf ranges `(first, count)` of the tree, left to right. -/
def Tree.leaves {α : Type} : Tree α → List (Nat × Nat)
  | .leaf _ first count _ => [(first, count)]
  | .interior _ _ _ _ _ _ l r => Tree.leaves l ++ Tree.leaves r

/-- The run of `build_bvh_recursive` seen from outside the arena: the tree it
lays out, and the index arrays, allocator and log before and after. One rule per
return statement of the function. -/
inductive Builds {α : Type} [LinearOrder α] [BoundedOrder α] (ext : Collaborators α)
    (primitives : List (Primitive α)) (max_primitives_in_leaf : Nat) :
    Tree α → Indices → Nat → List Event → Indices → Nat → List Event → Prop
  | leaf (node first_index : Nat) (indices : Indices) (node_index : Nat) (log : List Event) :
    Builds ext primitives max_primitives_in_leaf
      (.leaf node first_index 1
        (calculate_bounds primitives (indices 0) first_index (first_index + 1)))
      indices node_index log indices node_index log
  | sah_leaf (node first_index index_count : Nat) (indices : Indices) (node_index : Nat)
      (log : List Event) (hcount : index_count ≠ 1)
      (hstop : sah_terminates max_primitives_in_leaf index_count
        (ext.partition_sah primitives indices first_index index_count).split_cost
        (ext.surface_area (calculate_bounds primitives (indices 0) first_index
          (first_index + index_count)) * (index_count : ℚ)) = true) :
    Builds ext primitives max_primitives_in_leaf
      (.leaf node first_index index_count
        (calculate_bounds primitives (indices 0) first_index (first_index + index_count)))
      indices node_index log indices (node_index + 2)
      (log ++ [Event.reserve node node_index] ++ [Event.sah_leaf node])
  | interior (node first_index index_count : Nat) (indices : Indices) (node_index : Nat)
      (log : List Event) (l r : Tree α) (indices_l indices_r : Indices)
      (node_index_l node_index_r : Nat) (log_l log_r : List Event)
      (hcount : index_count ≠ 1)
      (hgo : sah_terminates max_primitives_in_leaf index_count
        (ext.partition_sah primitives indices first_index index_count).split_cost
        (ext.surface_area (calculate_bounds primitives (indices 0) first_index
          (first_index + index_count)) * (index_count : ℚ)) = false)
      (hl : Builds ext primitives max_primitives_in_leaf l
        (split_pass ext primitives indices first_index index_count)
        (node_index + 2) (log ++ [Event.reserve node node_index])
        indices_l node_index_l log_l)
      (hr : Builds ext primitives max_primitives_in_leaf r indices_l node_index_l log_l
        indices_r node_index_r log_r)
      (hlslot : l.slot = node_index) (hrslot : r.slot = node_index + 1)
      (hlfirst : l.first = first_index)
      (hlcount : l.count =
        (ext.partition_sah primitives indices first_index index_count).split_index - first_index)
      (hrfirst : r.first = first_index +
        ((ext.partition_sah primitives indices first_index index_count).split_index - first_index))
      (hrcount : r.count = first_index + index_count -
        (ext.partition_sah primitives indices first_index index_count).split_index) :
    Builds ext primitives max_primitives_in_leaf
      (.interior node first_index index_count
        (calculate_bounds primitives (indices 0) first_index (first_index + index_count))
        (ext.partition_sah primitives indices first_index index_count).split_dimension
        (split_value ext primitives indices first_index index_count) l r)
      indices node_index log indices_r node_index_r log_r

/-! ## Contracts of the collaborators -/

/-- The contract of `partition_sah`: on a range of at least two entries the split
index is strictly inside the range, so both sides are non-empty. -/
def PartitionInRange {α : Type} (ext : Collaborators α) : Prop :=
  ∀ (primitives : List (Primitive α)) (indices : Indices) (first_index index_count : Nat),
    2 ≤ index_count →
    first_index < (ext.partition_sah primitives indices first_index index_count).split_index ∧
    (ext.partition_sah primitives indices first_index index_count).split_index <
      first_index + index_count

/-- The contract of `split_indices` used for the index permutation: called on a
range that lies inside the three arrays, with the split index inside the range,
it only reorders the entries of `[first, first + count)` of each array. -/
def SplitPermutes {α : Type} (ext : Collaborators α) : Prop :=
  ∀ (primitives : List (Primitive α)) (indices : Indices) (first_index index_count : Nat)
    (split_dimension : Fin 3) (split_index : Nat) (split : α) (d : Fin 3),
    (∀ e : Fin 3, first_index + index_count ≤ (indices e).length) →
    first_index < split_index → split_index < first_index + index_count →
    ((ext.split_indices primitives indices first_index index_count split_dimension split_index
        split d).take first_index = (indices d).take first_index) ∧
    ((ext.split_indices primitives indices first_index index_count split_dimension split_index
        split d).drop (first_index + index_count) = (indices d).drop (first_index + index_count)) ∧
    (slice (ext.split_indices primitives indices first_index index_count split_dimension
        split_index split d) first_index index_count).Perm
      (slice (indices d) first_index index_count)

/-- The contract of `std::sort` used for the index permutation: the result is a
rearrangement of the input. -/
def SortPermutes {α : Type} (ext : Collaborators α) : Prop :=
  ∀ (cmp : Nat → Nat → Bool) (xs : List Nat), (ext.sort cmp xs).Perm xs

/-- The coordinate of the centre of `primitives[i]` along an axis. -/
def center_along {α : Type} [LinearOrder α] [BoundedOrder α]
    (primitives : List (Primitive α)) (dimension : Fin 3) (i : Nat) : α :=
  ((primitive_at primitives i).get_center).get dimension

/-- The primitive indices of the list come in non-decreasing order of their
centres along the axis. -/
def SortedAlong {α : Type} [LinearOrder α] [BoundedOrder α]
    (primitives : List (Primitive α)) (dimension : Fin 3) (xs : List Nat) : Prop :=
  xs.Pairwise (fun a b => center_along primitives dimension a ≤ center_along primitives dimension b)

/-- The state of the three index arrays on a range that every call of
`build_bvh_recursive` relies on: the range lies inside each array, each array is
sorted on the range along its own axis, the three arrays hold the same entries on
the range, and no entry is repeated. -/
def Consistent {α : Type} [LinearOrder α] [BoundedOrder α]
    (primitives : List (Primitive α)) (indices : Indices) (first count : Nat) : Prop :=
  (∀ e : Fin 3, first + count ≤ (indices e).length) ∧
  (∀ e : Fin 3, SortedAlong primitives e (slice (indices e) first count)) ∧
  (∀ e e' : Fin 3, (slice (indices e) first count).Perm (slice (indices e') first count)) ∧
  (slice (indices 0) first count).Nodup

/-- The contract of `std::sort` used for the split order: sorting with the
comparator of an axis leaves the indices in non-decreasing order of their centres
along that axis. -/
def SortSorts {α : Type} [LinearOrder α] [BoundedOrder α] (ext : Collaborators α) : Prop :=
  ∀ (primitives : List (Primitive α)) (d : Fin 3) (xs : List Nat),
    SortedAlong primitives d (ext.sort (center_less primitives d) xs)

/-- The contract of `split_indices` used for the split order: called on a range
in the state `Consistent`, with the split index inside the range and the split
value read at the split index of the chosen axis, it partitions the range of each
array stably into the same left and right sets: after the call the entries
before the split index are, in their old relative order, the entries that the
chosen axis held before the split index, and likewise behind it. -/
def SplitStable {α : Type} [LinearOrder α] [BoundedOrder α] (ext : Collaborators α) : Prop :=
  ∀ (primitives : List (Primitive α)) (indices : Indices) (first_index index_count : Nat)
    (split_dimension : Fin 3) (split_index : Nat) (d : Fin 3),
    Consistent primitives indices first_index index_count →
    first_index < split_index → split_index < first_index + index_count →
    (slice (ext.split_indices primitives indices first_index index_count split_dimension
        split_index (center_along primitives split_dimension
          ((indices split_dimension).getD split_index 0)) d)
        first_index (split_index - first_index)).Sublist
      (slice (indices d) first_index index_count) ∧
    (slice (ext.split_indices primitives indices first_index index_count split_dimension
        split_index (center_along primitives split_dimension
          ((indices split_dimension).getD split_index 0)) d)
        split_index (first_index + index_count - split_index)).Sublist
      (slice (indices d) first_index index_count) ∧
    (slice (ext.split_indices primitives indices first_index index_count split_dimension
        split_index (center_along primitives split_dimension
          ((indices split_dimension).getD split_index 0)) d)
        first_index (split_index - first_index)).Perm
      (slice (indices split_dimension) first_index (split_index - first_index)) ∧
    (slice (ext.split_indices primitives indices first_index index_count split_dimension
        split_index (center_along primitives split_dimension
          ((indices split_dimension).getD split_index 0)) d)
        split_index (first_index + index_count - split_index)).Perm
      (slice (indices split_dimension) split_index (first_index + index_count - split_index))

/-- The value `v` separates the two children of an interior node along `axis`:
every primitive whose index the array `final` holds in the range of the left
child has its centre at or below `v`, every one in the range of the right child at
or above `v`, and `v` is the coordinate of one of the latter. -/
def Separates {α : Type} [LinearOrder α] [BoundedOrder α]
    (primitives : List (Primitive α)) (final : List Nat) (axis : Fin 3) (l r : Tree α) (v : α) :
    Prop :=
  (∀ k, l.first ≤ k → k < l.first + l.count →
    center_along primitives axis (final.getD k 0) ≤ v) ∧
  (∀ k, r.first ≤ k → k < r.first + r.count →
    v ≤ center_along primitives axis (final.getD k 0)) ∧
  (∃ k, r.first ≤ k ∧ k < r.first + r.count ∧
    center_along primitives axis (final.getD k 0) = v)

/-! ## A concrete set of collaborators -/

/-- A `partition_sah` that splits every range in the middle along x, at cost
zero. -/
def middle_split {α : Type} (_primitives : List (Primitive α)) (_indices : Indices)
    (first_index index_count : Nat) : SplitResult :=
  { split_index := first_index + index_count / 2, split_dimension := 0, split_cost := 0 }

/-- Modelled from the spec: `split_indices` leaves the chosen axis alone and, on
each other axis, streams the members of the left set – the entries of the chosen
axis before the split index – to the front of the range and the others behind
them, both in their existing order. -/
def stable_split_indices {α : Type} (_primitives : List (Primitive α)) (indices : Indices)
    (first_index index_count : Nat) (split_dimension : Fin 3) (split_index : Nat) (_split : α) :
    Indices :=
  fun d =>
    if d = split_dimension then indices d
    else
      let left := slice (indices split_dimension) first_index (split_index - first_index)
      let range := slice (indices d) first_index index_count
      (indices d).take first_index ++
        (range.filter (fun i => decide (i ∈ left)) ++ range.filter (fun i => !decide (i ∈ left))) ++
        (indices d).drop (first_index + index_count)

/-- Insertion sort with the strict comparator `cmp`, a `std::sort`. -/
def insertion_sort (cmp : Nat → Nat → Bool) (xs : List Nat) : List Nat :=
  List.insertionSort (fun a b => cmp b a = false) xs

/-- Collaborators used to exercise the builder on concrete inputs. -/
def reference_collaborators (α : Type) : Collaborators α :=
  { partition_sah := middle_split,
    split_indices := stable_split_indices,
    surface_area := fun _ => 1,
    sort := insertion_sort }

/-- The state after lines 22-29 or 43-46: `node` holds a leaf. -/
def leaf_state {α : Type} (st : BuildState α) (node first_index index_count : Nat)
    (aabb : AABB α) : BuildState α :=
  { st with nodes := st.nodes.set node { aabb := aabb, left := first_index, count := index_count } }

/-- The state in which line 58 makes the first recursive call: children reserved,
index arrays split, `node` encoded as an interior node. -/
def split_state {α : Type} [LinearOrder α] [BoundedOrder α] (ext : Collaborators α)
    (primitives : List (Primitive α)) (st : BuildState α) (node first_index index_count : Nat) :
    BuildState α :=
  { st with
    nodes := st.nodes.set node
      { aabb := calculate_bounds primitives (st.indices 0) first_index (first_index + index_count),
        left := st.node_index,
        count := encode_axis
          (ext.partition_sah primitives st.indices first_index index_count).split_dimension.val },
    indices := split_pass ext primitives st.indices first_index index_count,
    node_index := st.node_index + 2,
    log := st.log ++ [Event.reserve node st.node_index] }

/-- The ranges `(first, count)` of the list follow one another from `start` to
`stop`, none of them empty. -/
def Tiles : List (Nat × Nat) → Nat → Nat → Prop
  | [], start, stop => start = stop
  | lf :: rest, start, stop => lf.1 = start ∧ 1 ≤ lf.2 ∧ Tiles rest (start + lf.2) stop

/-- The ranges of the tree are consistent: no range is empty and the two children
of an interior node split its range in two. -/
def Tree.Ranged {α : Type} : Tree α → Prop
  | .leaf _ _ count _ => 1 ≤ count
  | .interior _ first count _ _ _ l r =>
    l.first = first ∧ r.first = first + l.count ∧ l.count + r.count = count ∧
    Tree.Ranged l ∧ Tree.Ranged r

/-- The child slots handed out by lines 32-33, in the order of the log. -/
def reserved : List Event → List Nat
  | [] => []
  | .reserve _ left :: rest => left :: reserved rest
  | .sah_leaf _ :: rest => reserved rest

/-- The number of times lines 43-46 ran, according to the log. -/
def sah_leaves : List Event → Nat
  | [] => 0
  | .reserve _ _ :: rest => sah_leaves rest
  | .sah_leaf _ :: rest => sah_leaves rest + 1

/-- The tree `t` is the one that the build from `st0` to `st` over the given
primitives laid out: it is the tree of the run of `build_bvh_recursive` on node 0 and the
whole range, and the final arena holds it. -/
def Layout {α : Type} [LinearOrder α] [BoundedOrder α] (ext : Collaborators α)
    (primitives : List (Primitive α)) (max_primitives_in_leaf : Nat) (st0 st : BuildState α)
    (t : Tree α) : Prop :=
  Builds ext primitives max_primitives_in_leaf t
    (sort_indices ext primitives primitives.length st0.indices) 2 st0.log
    st.indices st.node_index st.log ∧
  t.Stored st.nodes ∧ t.slot = 0 ∧ t.first = 0 ∧ t.count = primitives.length

/-- The arena slots that a traversal from the root visits: node 0, and the slots
`left` and `left + 1` of every visited node that `is_leaf` reports as interior. -/
inductive Reachable {α : Type} (nodes : List (BVHNode α)) : Nat → Prop
  | root : Reachable nodes 0
  | left (i : Nat) (nd : BVHNode α) (hi : Reachable nodes i) (hnd : nodes[i]? = some nd)
      (hint : nd.is_leaf = false) : Reachable nodes nd.left
  | right (i : Nat) (nd : BVHNode α) (hi : Reachable nodes i) (hnd : nodes[i]? = some nd)
      (hint : nd.is_leaf = false) : Reachable nodes (nd.left + 1)

/-- The list `b` is `a` with the entries of `[first, first + count)` reordered:
the same entries before and after the range, a permutation inside it. -/
def Rearranged (a b : List Nat) (first count : Nat) : Prop :=
  b.take first = a.take first ∧ b.drop (first + count) = a.drop (first + count) ∧
  (slice b first count).Perm (slice a first count)

/-- Collaborators whose split never pays: the surface area is zero, so the cost
reported by `middle_split` is never below the parent cost and every range that
fits a leaf becomes one after its child slots were reserved. -/
def stopping_collaborators (α : Type) : Collaborators α :=
  { partition_sah := middle_split,
    split_indices := stable_split_indices,
    surface_area := fun _ => 0,
    sort := insertion_sort }

/-! ## Concrete inputs -/

/-- Rationals with `-∞` and `+∞`: the coordinates of the concrete inputs. -/
abbrev ExtRat := WithBot (WithTop ℚ)

/-- A primitive centred at `(x, y, z)` whose box reaches one unit further on each
axis. -/
def box_at (x y z : ℚ) : Primitive ExtRat :=
  { get_center := ⟨(x : ℚ), (y : ℚ), (z : ℚ)⟩,
    get_aabb := ⟨⟨(x : ℚ), (y : ℚ), (z : ℚ)⟩, ⟨((x + 1 : ℚ) : ℚ), ((y + 1 : ℚ) : ℚ), ((z + 1 : ℚ) : ℚ)⟩⟩ }

/-- The triangle `{(0,0,0), (1,0,0), (0,1,0)}` of the seed scenarios: centre
`(1/3, 1/3, 0)`, box `{(0,0,0), (1,1,0)}`. -/
def unit_triangle : Primitive ExtRat :=
  { get_center := ⟨((1 / 3 : ℚ) : ℚ), ((1 / 3 : ℚ) : ℚ), ((0 : ℚ) : ℚ)⟩,
    get_aabb := ⟨⟨((0 : ℚ) : ℚ), ((0 : ℚ) : ℚ), ((0 : ℚ) : ℚ)⟩,
                 ⟨((1 : ℚ) : ℚ), ((1 : ℚ) : ℚ), ((0 : ℚ) : ℚ)⟩⟩ }

/-- Three primitives, out of order on every axis. -/
def three_boxes : List (Primitive ExtRat) :=
  [box_at 3 0 1, box_at 1 2 0, box_at 2 1 5]

/-- Three primitives whose centres coincide. -/
def coincident_boxes : List (Primitive ExtRat) :=
  [box_at 0 0 0, box_at 0 0 0, box_at 0 0 0]

/-- What a freshly allocated node holds in the concrete runs. -/
def stale_node : BVHNode ExtRat :=
  { aabb := AABB.empty, left := 777, count := 888 }

/-- The state in which `build_bvh_impl` calls `build_bvh_recursive` over three
primitives, before sorting: a fresh arena of six nodes and the allocator at 2. -/
def root_call_state : BuildState ExtRat :=
  { init 0 0 (fun _ => stale_node) 3 with node_index := 2 }

end BVHBuilder

/-! # Triangles (`Src/Renderer/Triangle.h`)

Triangles carry rational coordinates, so that `get_center` is computed in exact
arithmetic; their boxes live in the rationals extended by `-∞` and `+∞`, where the
empty box exists. `Math/Vector3.h`, `Math/Vector2.h` and `Math/AABB.h` are not
among the sources: `+`, `-` and `/` on vectors are componentwise, `from_points` is
modelled from the specification, and `dot`, `cross` and `normalize` are
parameters. -/

namespace Renderer

open BVHBuilder

/-- Two coordinates (`Vector2`). -/
structure Vector2 where
  x : ℚ
  y : ℚ

/-- The sum `a + b` of two vectors. -/
def add (a b : Vector3 ℚ) : Vector3 ℚ := ⟨a.x + b.x, a.y + b.y, a.z + b.z⟩

/-- The difference `a - b` of two vectors. -/
def sub (a b : Vector3 ℚ) : Vector3 ℚ := ⟨a.x - b.x, a.y - b.y, a.z - b.z⟩

/-- The quotient `a / s` of a vector by a scalar. -/
def div (a : Vector3 ℚ) (s : ℚ) : Vector3 ℚ := ⟨a.x / s, a.y / s, a.z / s⟩

/-- A rational point seen as a point of the extended rationals. -/
def lift (a : Vector3 ℚ) : Vector3 ExtRat := ⟨(a.x : ℚ), (a.y : ℚ), (a.z : ℚ)⟩

/-- Modelled from the spec: `enclose(a, p)` enlarges the box `a` to include the
point `p`. -/
def enclose {α : Type} [LinearOrder α] (a : AABB α) (p : Vector3 α) : AABB α :=
  { min := ⟨Min.min a.min.x p.x, Min.min a.min.y p.y, Min.min a.min.z p.z⟩,
    max := ⟨Max.max a.max.x p.x, Max.max a.max.y p.y, Max.max a.max.z p.z⟩ }

/-- Modelled from the spec: `AABB::from_points(ps)` is the tight bound of the
points, the empty box enlarged to include each point in turn. -/
def from_points {α : Type} [LinearOrder α] [BoundedOrder α] (points : List (Vector3 α)) :
    AABB α :=
  points.foldl enclose AABB.empty

/-- Modelled from the spec: `aabb.contains(p)`, the point lies between the corners
of the box on every axis. -/
def contains {α : Type} [LinearOrder α] (a : AABB α) (p : Vector3 α) : Prop :=
  (a.min.x ≤ p.x ∧ p.x ≤ a.max.x) ∧ (a.min.y ≤ p.y ∧ p.y ≤ a.max.y) ∧
  (a.min.z ≤ p.z ∧ p.z ≤ a.max.z)

/-- The fields of `Triangle`, lines 12-22. -/
structure Triangle where
  position_0 : Vector3 ℚ
  position_1 : Vector3 ℚ
  position_2 : Vector3 ℚ
  normal_0 : Vector3 ℚ
  normal_1 : Vector3 ℚ
  normal_2 : Vector3 ℚ
  tex_coord_0 : Vector2
  tex_coord_1 : Vector2
  tex_coord_2 : Vector2

/-- The method `Triangle::get_center`, lines 95-97. -/
def Triangle.get_center (t : Triangle) : Vector3 ℚ :=
  div (add (add t.position_0 t.position_1) t.position_2) 3

/-- The method `Triangle::get_aabb`, lines 99-102. -/
def Triangle.get_aabb (t : Triangle) : AABB ExtRat :=
  from_points [lift t.position_0, lift t.position_1, lift t.position_2]

/-- The triangle as the builder sees it: its centre and its box. -/
def Triangle.primitive (t : Triangle) : Primitive ExtRat :=
  { get_center := lift t.get_center, get_aabb := t.get_aabb }

/-- The functions of `Math/Vector3.h` that `fix_winding_order_if_needed` calls.
Their code is not among the sources and their float results are not modelled:
they are arbitrary functions. -/
structure VectorOps where
  dot : Vector3 ℚ → Vector3 ℚ → ℚ
  cross : Vector3 ℚ → Vector3 ℚ → Vector3 ℚ
  normalize : Vector3 ℚ → Vector3 ℚ

/-- Lines 71-74: the geometric normal of the triangle. -/
def geometric_normal (ops : VectorOps) (t : Triangle) : Vector3 ℚ :=
  ops.normalize (ops.cross (sub t.position_1 t.position_0) (sub t.position_2 t.position_0))

/-- The per-vertex test `dot(geometric_normal, normal) < 0.0f`. -/
def opposes (ops : VectorOps) (t : Triangle) (normal : Vector3 ℚ) : Bool :=
  decide (ops.dot (geometric_normal ops t) normal < 0)

/-- Lines 76-79: the flag `all_normals_have_wrong_orientation`. -/
def all_normals_have_wrong_orientation (ops : VectorOps) (t : Triangle) : Bool :=
  opposes ops t t.normal_0 && opposes ops t t.normal_1 && opposes ops t t.normal_2

/-- Lines 80-83: the flag `some_normals_have_wrong_orientation`, written in the
source with `&&` between the same three tests. -/
def some_normals_have_wrong_orientation (ops : VectorOps) (t : Triangle) : Bool :=
  opposes ops t t.normal_0 && opposes ops t t.normal_1 && opposes ops t t.normal_2

/-- The failure of the `ASSERT` of line 91. -/
inductive AssertionFailure where
  | some_normals_have_wrong_orientation
  deriving DecidableEq

/-- The method `Triangle::fix_winding_order_if_needed`, lines 70-93: swap vertices
1 and 2 when all three tests hold, otherwise assert that the second flag is
false. -/
def Triangle.fix_winding_order_if_needed (ops : VectorOps) (t : Triangle) :
    Except AssertionFailure Triangle :=
  if all_normals_have_wrong_orientation ops t then
    .ok { t with position_1 := t.position_2, position_2 := t.position_1,
                 normal_1 := t.normal_2, normal_2 := t.normal_1,
                 tex_coord_1 := t.tex_coord_2, tex_coord_2 := t.tex_coord_1 }
  else if some_normals_have_wrong_orientation ops t then
    .error .some_normals_have_wrong_orientation
  else .ok t

/-- Vector operations with the usual dot and cross product; `normalize` leaves
its argument as it is, which keeps the sign of every dot product. -/
def plain_ops : VectorOps :=
  { dot := fun a b => a.x * b.x + a.y * b.y + a.z * b.z,
    cross := fun a b => ⟨a.y * b.z - a.z * b.y, a.z * b.x - a.x * b.z, a.x * b.y - a.y * b.x⟩,
    normalize := fun a => a }

/-- The triangle `{(0,0,0), (1,0,0), (0,1,0)}`, whose geometric normal points
along `+z`, with one shading normal pointing along `-z` and two along `+z`. -/
def mixed_triangle : Triangle :=
  { position_0 := ⟨0, 0, 0⟩, position_1 := ⟨1, 0, 0⟩, position_2 := ⟨0, 1, 0⟩,
    normal_0 := ⟨0, 0, -1⟩, normal_1 := ⟨0, 0, 1⟩, normal_2 := ⟨0, 0, 1⟩,
    tex_coord_0 := ⟨0, 0⟩, tex_coord_1 := ⟨1, 0⟩, tex_coord_2 := ⟨0, 1⟩ }

end Renderer

/-! # Strings (`Src/Util/String.h`)

A `String` is its `length` and the 16 bytes of the union of `ptr` and `buf`. The
union is kept as raw bytes: `buf` is the bytes themselves and `ptr` is the address
that the first eight bytes encode, least significant byte first, so that
`ptr(nullptr)` zeroes `buf[0..8)`. `String` objects live in a memory next to the
heap blocks that `new char[n]` hands out; objects are named by a number, which
lets `a = a` be told from `a = b`. A `char` is its byte; `size_t` values that
cannot overflow in the modelled code are natural numbers, and the arithmetic of
`StringHash` is taken modulo `2^64`. A read or a store outside a region, through a
dangling pointer, or a loop that runs out of its bound yields `none`. -/

namespace Util

/-- The constant `String::SSO_SIZE`, line 7. -/
def SSO_SIZE : Nat := 16

/-- The fields of `String`, lines 9-13: `buf` holds the bytes of the union. -/
structure String where
  length : Nat
  buf : List Nat

/-- The bytes of an address, least significant first: what the union holds after
a store to `ptr`. -/
def pointer_bytes (address : Nat) : List Nat :=
  (List.range 8).map fun i => address / 256 ^ i % 256

/-- The address that the first eight bytes encode. -/
def bytes_pointer (bytes : List Nat) : Nat :=
  (bytes.take 8).foldr (fun b acc => b + 256 * acc) 0

/-- The member `ptr` of the union: the first eight bytes read as an address, `0`
being `nullptr`. -/
def String.ptr (s : String) : Nat := bytes_pointer s.buf

/-- A `char *`: the start of the `buf` of a `String` object or of a heap block. -/
inductive Pointer where
  | buf (object : Nat)
  | heap (address : Nat)
  deriving DecidableEq

/-- The memory: the `String` objects, the live heap blocks, the address that the
next `new char[n]` returns, and the bytes that freshly allocated memory holds. -/
structure Memory where
  objects : Nat → String
  heap : Nat → Option (List Nat)
  next : Nat
  stale : Nat → Nat

/-- The array a pointer points at, when it points at one. -/
def content (m : Memory) : Pointer → Option (List Nat)
  | .buf object => some (m.objects object).buf
  | .heap address => m.heap address

/-- The memory in which the array behind a pointer has been replaced. -/
def store (m : Memory) (p : Pointer) (bytes : List Nat) : Memory :=
  match p with
  | .buf object =>
    { m with objects := fun o => if o = object then { m.objects object with buf := bytes }
                                 else m.objects o }
  | .heap address =>
    { m with heap := fun a => if a = address then some bytes else m.heap a }

/-- The read `p[i]`. -/
def read (m : Memory) (p : Pointer) (i : Nat) : Option Nat :=
  match content m p with
  | none => none
  | some bytes => bytes[i]?

/-- The store `p[i] = c`. -/
def write (m : Memory) (p : Pointer) (i c : Nat) : Option Memory :=
  match content m p with
  | none => none
  | some bytes => if i < bytes.length then some (store m p (bytes.set i c)) else none

/-- The store `length = n` to the object. -/
def set_length (m : Memory) (object n : Nat) : Memory :=
  { m with objects := fun o => if o = object then { m.objects object with length := n }
                               else m.objects o }

/-- The store `ptr = address` to the object: it overwrites the first eight bytes
of the union. -/
def set_ptr (m : Memory) (object address : Nat) : Memory :=
  store m (.buf object) (pointer_bytes address ++ (m.objects object).buf.drop 8)

/-- The expression `new char[n]`: a block of `n` stale bytes at the next address. -/
def new_array (m : Memory) (n : Nat) : Nat × Memory :=
  (m.next,
   { m with heap := fun a => if a = m.next then some ((List.range n).map m.stale) else m.heap a,
            next := m.next + 1 })

/-- The statement `delete [] p`: nothing for `nullptr`, otherwise the block must be
live and is released. -/
def delete_array (m : Memory) (p : Nat) : Option Memory :=
  if p = 0 then some m
  else
    match m.heap p with
    | none => none
    | some _ => some { m with heap := fun a => if a = p then none else m.heap a }

/-- The method `String::size`, line 99. -/
def size (m : Memory) (object : Nat) : Nat := (m.objects object).length

/-- The method `String::data`, lines 101-102. -/
def data (m : Memory) (object : Nat) : Pointer :=
  if (m.objects object).length < SSO_SIZE then .buf object else .heap (m.objects object).ptr

/-- The operator `String::operator[]`, lines 106-107. -/
def index (m : Memory) (object i : Nat) : Option Nat := read m (data m object) i

/-- The loop of `String::memcpy`, lines 120-122, with `remaining` iterations to go
from index `i`. -/
def memcpy_loop (dst src : Pointer) : Nat → Nat → Memory → Option Memory
  | 0, _, m => some m
  | remaining + 1, i, m =>
    match read m src i with
    | none => none
    | some c =>
      match write m dst i c with
      | none => none
      | some m' => memcpy_loop dst src remaining (i + 1) m'

/-- The function `String::memcpy`, lines 119-123. -/
def memcpy (m : Memory) (dst src : Pointer) (len : Nat) : Option Memory :=
  memcpy_loop dst src len 0 m

/-- Lines 18-20, 25-27 and 64-66: allocate `length + 1` bytes for `this` when
`length` does not fit the inline buffer. -/
def allocate_if_long (m : Memory) (this length : Nat) : Memory :=
  if SSO_SIZE ≤ length then set_ptr (new_array m (length + 1)).2 this (new_array m (length + 1)).1
  else m

/-- The move constructor `String(String && str)`, lines 74-81: a long source keeps
its `length` and is left with `ptr == nullptr`. -/
def String_move (m : Memory) (this str : Nat) : Option Memory :=
  let m1 := set_ptr (set_length m this (size m str)) this 0
  if size m1 this < SSO_SIZE then memcpy m1 (.buf this) (.buf str) (size m1 this + 1)
  else
    let m2 := set_ptr m1 this (m1.objects str).ptr
    some (set_ptr m2 str 0)

/-- Lines 64-71 of `operator=`: allocate if the source is long, take its length,
copy its characters and the terminator. -/
def assign_copy (m : Memory) (this str : Nat) : Option Memory :=
  let m1 := allocate_if_long m this (size m str)
  let m2 := set_length m1 this (size m1 str)
  memcpy m2 (data m2 this) (data m2 str) (size m2 this + 1)

/-- The operator `String::operator=(const String & str)`, lines 55-72, on the
objects `this` and `str`, which may be the same object. -/
def assign (m : Memory) (this str : Nat) : Option Memory :=
  if SSO_SIZE ≤ size m this then
    if size m this = size m str then
      memcpy m (data m this) (data m str) (size m this + 1)
    else
      match delete_array m (m.objects this).ptr with
      | none => none
      | some m1 => assign_copy m1 this str
  else assign_copy m this str

/-- The loop of `operator==`, lines 129-131, with `remaining` iterations to go
from index `i`. -/
def equals_loop (m : Memory) (a b : Nat) : Nat → Nat → Option Bool
  | 0, _ => some true
  | remaining + 1, i =>
    match index m a i, index m b i with
    | some x, some y => if x ≠ y then some false else equals_loop m a b remaining (i + 1)
    | _, _ => none

/-- The operator `operator==(const String &, const String &)`, lines 126-134. -/
def equals (m : Memory) (a b : Nat) : Option Bool :=
  if size m a ≠ size m b then some false else equals_loop m a b (size m a) 0

/-- The value of a `char` holding the byte `c` after promotion to `int`, for a
signed or an unsigned `char` type. -/
def promote (char_is_signed : Bool) (c : Nat) : Int :=
  if char_is_signed ∧ 128 ≤ c then (c : Int) - 256 else (c : Int)

/-- The conversion of an `int` to `size_t`. -/
def to_size_t (x : Int) : Nat := (x % 2 ^ 64).toNat

/-- The constant `M` of `StringHash`, line 150. -/
def M : Nat := 1000000009

/-- The constant `P` of `StringHash`, line 149. -/
def P : Nat := 31

/-- The loop of `StringHash::operator()`, lines 155-158, with `remaining`
iterations to go from index `i`; the sum, the products and the conversion of
`str[i] - 'a' + 1` wrap modulo `2^64`. -/
def hash_loop (char_is_signed : Bool) (m : Memory) (str : Nat) :
    Nat → Nat → Nat → Nat → Option Nat
  | 0, _, hash, _ => some hash
  | remaining + 1, i, hash, pow_p =>
    match index m str i with
    | none => none
    | some c =>
      hash_loop char_is_signed m str remaining (i + 1)
        ((hash + to_size_t (promote char_is_signed c - 97 + 1) * pow_p % 2 ^ 64) % 2 ^ 64 % M)
        (pow_p * P % 2 ^ 64 % M)

/-- The operator `StringHash::operator()`, lines 148-161. -/
def StringHash (char_is_signed : Bool) (m : Memory) (str : Nat) : Option Nat :=
  hash_loop char_is_signed m str (size m str) 0 0 1

/-- The object holds the character sequence `chars`: its `length` is the number of
characters, its union has 16 bytes, and the characters followed by a NUL sit at
the start of `buf` when fewer than 16, in a live heap block of `length + 1` bytes
at `ptr` otherwise. -/
def Represents (m : Memory) (object : Nat) (chars : List Nat) : Prop :=
  (m.objects object).length = chars.length ∧ (m.objects object).buf.length = 16 ∧
  (chars.length < SSO_SIZE → (m.objects object).buf.take (chars.length + 1) = chars ++ [0]) ∧
  (SSO_SIZE ≤ chars.length → m.heap (m.objects object).ptr = some (chars ++ [0]))

/-- The allocator is sound: addresses fit eight bytes and no block is live at or
beyond the next address. -/
def Memory.Sound (m : Memory) : Prop :=
  m.next < 2 ^ 64 ∧ ∀ a, m.next ≤ a → m.heap a = none

/-- The integer sum of `(code - 'a' + 1) * 31^i` over the first `n` codes. -/
def polynomial_sum (codes : List Int) (n : Nat) : Int :=
  ((List.range n).map fun i => (codes.getD i 0 - 97 + 1) * 31 ^ i).sum

/-- The polynomial rolling hash of a sequence of character codes: the non-negative
residue modulo 1000000009 of the integer sum of `(code - 'a' + 1) * 31^i`. -/
def polynomial_hash (codes : List Int) : Int :=
  polynomial_sum codes codes.length % 1000000009

/-- The characters of `sixteen letters!`, a string of length 16. -/
def sixteen_letters : List Nat :=
  [115, 105, 120, 116, 101, 101, 110, 32, 108, 101, 116, 116, 101, 114, 115, 33]

/-- A memory with two strings: object 0 holds `sixteen letters!` in the heap block
at address 1, every other object holds `hi` inline. -/
def two_strings : Memory :=
  { objects := fun o =>
      if o = 0 then { length := 16, buf := pointer_bytes 1 ++ List.replicate 8 0 }
      else { length := 2, buf := [104, 105, 0] ++ List.replicate 13 0 },
    heap := fun a => if a = 1 then some (sixteen_letters ++ [0]) else none,
    next := 2,
    stale := fun _ => 0 }

/-- A memory in which every object holds `A` inline. -/
def capital_A : Memory :=
  { objects := fun _ => { length := 1, buf := [65, 0] ++ List.replicate 14 0 },
    heap := fun _ => none,
    next := 1,
    stale := fun _ => 0 }

/-- A memory with no heap block, whose objects have the union zeroed. -/
def blank_memory : Memory :=
  { objects := fun _ => { length := 0, buf := List.replicate 16 0 },
    heap := fun _ => none,
    next := 1,
    stale := fun _ => 0 }

end Util

/-! # Properties

## The run relation: allocator, footprint, ranges -/

namespace BVHBuilder

/-- The allocator only grows, by at most two slots per primitive beyond the
first. -/
theorem builds_node_index {α : Type} [LinearOrder α] [BoundedOrder α] {ext : Collaborators α}
    {primitives : List (Primitive α)} {m : Nat} (hpart : PartitionInRange ext)
    {t : Tree α} {i i' : Indices} {n n' : Nat} {g g' : List Event}
    (h : Builds ext primitives m t i n g i' n' g') (hpos : 1 ≤ t.count) :
    n ≤ n' ∧ n' + 2 ≤ n + 2 * t.count := by
  induction h with
  | leaf node first_index indices node_index log =>
    simp only [Tree.count] at *
    omega
  | sah_leaf node first_index index_count indices node_index log hcount hstop =>
    simp only [Tree.count] at *
    omega
  | interior node first_index index_count indices node_index log l r il ir nl nr gl gr hcount hgo
      hl hr hls hrs hlf hlc hrf hrc ihl ihr =>
    simp only [Tree.count] at *
    have hs := hpart primitives indices first_index index_count (by omega)
    have h1 := ihl (by omega)
    have h2 := ihr (by omega)
    omega

/-- Every slot of the tree other than its root was handed out by the allocator
during the run. -/
theorem builds_slots {α : Type} [LinearOrder α] [BoundedOrder α] {ext : Collaborators α}
    {primitives : List (Primitive α)} {m : Nat} (hpart : PartitionInRange ext)
    {t : Tree α} {i i' : Indices} {n n' : Nat} {g g' : List Event}
    (h : Builds ext primitives m t i n g i' n' g') (hpos : 1 ≤ t.count) :
    ∀ s ∈ t.subtrees, s.slot = t.slot ∨ (n ≤ s.slot ∧ s.slot < n') := by
  induction h with
  | leaf node first_index indices node_index log =>
    intro s hs
    simp only [Tree.subtrees, List.mem_singleton] at hs
    subst hs
    exact Or.inl rfl
  | sah_leaf node first_index index_count indices node_index log hcount hstop =>
    intro s hs
    simp only [Tree.subtrees, List.mem_singleton] at hs
    subst hs
    exact Or.inl rfl
  | interior node first_index index_count indices node_index log l r il ir nl nr gl gr hcount hgo
      hl hr hls hrs hlf hlc hrf hrc ihl ihr =>
    simp only [Tree.count] at hpos
    have hs := hpart primitives indices first_index index_count (by omega)
    have hnl := builds_node_index hpart hl (by omega)
    have hnr := builds_node_index hpart hr (by omega)
    intro s hmem
    simp only [Tree.subtrees, List.mem_cons, List.mem_append] at hmem
    rcases hmem with hroot | hleft | hright
    · subst hroot
      exact Or.inl rfl
    · right
      rcases ihl (by omega) s hleft with h1 | h1 <;> omega
    · right
      rcases ihr (by omega) s hright with h1 | h1 <;> omega

/-- A tree held by an arena is held by every arena that agrees with it on the
slots of the tree. -/
theorem stored_of_agree {α : Type} {nodes nodes' : List (BVHNode α)} (t : Tree α)
    (hagree : ∀ s ∈ t.subtrees, nodes'[s.slot]? = nodes[s.slot]?) (h : t.Stored nodes) :
    t.Stored nodes' := by
  induction t with
  | leaf slot first count aabb =>
    have h0 := hagree (.leaf slot first count aabb) (by simp [Tree.subtrees])
    simp only [Tree.Stored, Tree.slot] at *
    rw [h0]
    exact h
  | interior slot first count aabb axis split l r ihl ihr =>
    have h0 := hagree (.interior slot first count aabb axis split l r) (by simp [Tree.subtrees])
    simp only [Tree.Stored, Tree.slot] at h h0 ⊢
    refine ⟨by rw [h0]; exact h.1, h.2.1, ?_, ?_⟩
    · exact ihl (fun s hs => hagree s (by simp [Tree.subtrees, hs])) h.2.2.1
    · exact ihr (fun s hs => hagree s (by simp [Tree.subtrees, hs])) h.2.2.2

theorem recursive_leaf {α : Type} [LinearOrder α] [BoundedOrder α] (ext : Collaborators α)
    (primitives : List (Primitive α)) (m fuel node first_index : Nat) (st : BuildState α)
    (nd : BVHNode α) (hnd : st.nodes[node]? = some nd) :
    build_bvh_recursive ext primitives m (fuel + 1) node first_index 1 st =
      .ok (leaf_state st node first_index 1
        (calculate_bounds primitives (st.indices 0) first_index (first_index + 1))) := by
  simp only [build_bvh_recursive, hnd, if_true, leaf_state]

theorem recursive_sah_leaf {α : Type} [LinearOrder α] [BoundedOrder α] (ext : Collaborators α)
    (primitives : List (Primitive α)) (m fuel node first_index index_count : Nat)
    (st : BuildState α) (nd : BVHNode α) (hnd : st.nodes[node]? = some nd)
    (hcount : index_count ≠ 1)
    (hstop : sah_terminates m index_count
      (ext.partition_sah primitives st.indices first_index index_count).split_cost
      (ext.surface_area (calculate_bounds primitives (st.indices 0) first_index
        (first_index + index_count)) * (index_count : ℚ)) = true) :
    build_bvh_recursive ext primitives m (fuel + 1) node first_index index_count st =
      .ok (leaf_state
        { st with node_index := st.node_index + 2,
                  log := st.log ++ [Event.reserve node st.node_index] ++ [Event.sah_leaf node] }
        node first_index index_count
        (calculate_bounds primitives (st.indices 0) first_index (first_index + index_count))) := by
  simp only [build_bvh_recursive, hnd, hcount, if_false, hstop, if_true, leaf_state]

theorem recursive_interior {α : Type} [LinearOrder α] [BoundedOrder α] (ext : Collaborators α)
    (primitives : List (Primitive α)) (m fuel node first_index index_count : Nat)
    (st : BuildState α) (nd : BVHNode α) (hnd : st.nodes[node]? = some nd)
    (hcount : index_count ≠ 1)
    (hgo : sah_terminates m index_count
      (ext.partition_sah primitives st.indices first_index index_count).split_cost
      (ext.surface_area (calculate_bounds primitives (st.indices 0) first_index
        (first_index + index_count)) * (index_count : ℚ)) = false) :
    build_bvh_recursive ext primitives m (fuel + 1) node first_index index_count st =
      match build_bvh_recursive ext primitives m fuel st.node_index first_index
          ((ext.partition_sah primitives st.indices first_index index_count).split_index -
            first_index)
          (split_state ext primitives st node first_index index_count) with
      | .error e => .error e
      | .ok st1 =>
        match st1.nodes[node]? with
        | none => .error (.out_of_bounds node)
        | some nd1 =>
          build_bvh_recursive ext primitives m fuel (nd1.left + 1)
            (first_index +
              ((ext.partition_sah primitives st.indices first_index index_count).split_index -
                first_index))
            (first_index + index_count -
              (ext.partition_sah primitives st.indices first_index index_count).split_index)
            st1 := by
  simp only [build_bvh_recursive, hnd, hcount, if_false, hgo, split_state, split_pass,
    split_value]
  rfl

/-- The recursion returns, and its run is described by `Builds`: under the
contract of `partition_sah`, with enough fuel, the node reference inside the arena
and below the allocator, and room for two slots per primitive beyond the first,
`build_bvh_recursive` ends without a fault, lays out a tree for its range that
the arena holds, and changes no slot other than its own node and the slots it
allocated. -/
theorem run_builds {α : Type} [LinearOrder α] [BoundedOrder α] (ext : Collaborators α)
    (primitives : List (Primitive α)) (m : Nat) (hpart : PartitionInRange ext) :
    ∀ (fuel node first_index index_count : Nat) (st : BuildState α),
      1 ≤ index_count → index_count ≤ fuel → node < st.nodes.length → node < st.node_index →
      st.node_index + 2 * index_count ≤ st.nodes.length + 2 →
      ∃ (st' : BuildState α) (t : Tree α),
        build_bvh_recursive ext primitives m fuel node first_index index_count st = .ok st' ∧
        Builds ext primitives m t st.indices st.node_index st.log
          st'.indices st'.node_index st'.log ∧
        t.slot = node ∧ t.first = first_index ∧ t.count = index_count ∧
        t.Stored st'.nodes ∧ st'.nodes.length = st.nodes.length ∧
        (∀ i, i ≠ node → (i < st.node_index ∨ st'.node_index ≤ i) →
          st'.nodes[i]? = st.nodes[i]?) ∧
        st'.node_count = st.node_count ∧ st'.index_count = st.index_count := by
  intro fuel
  induction fuel with
  | zero =>
    intro node first_index index_count st h1 h2
    omega
  | succ fuel ih =>
    intro node first_index index_count st hpos hfuel hnode hbelow hroom
    obtain ⟨nd, hnd⟩ : ∃ nd, st.nodes[node]? = some nd :=
      ⟨st.nodes[node], List.getElem?_eq_getElem hnode⟩
    by_cases hone : index_count = 1
    · subst hone
      refine ⟨_, .leaf node first_index 1
        (calculate_bounds primitives (st.indices 0) first_index (first_index + 1)),
        recursive_leaf ext primitives m fuel node first_index st nd hnd, ?_⟩
      · refine ⟨Builds.leaf node first_index st.indices st.node_index st.log, rfl, rfl, rfl,
          ?_, ?_, ?_, rfl, rfl⟩
        · simp [Tree.Stored, hnode, leaf_state]
        · simp [leaf_state]
        · intro i hi _
          simp [List.getElem?_set, Ne.symm hi, leaf_state]
    · have hs := hpart primitives st.indices first_index index_count (by omega)
      by_cases hstop : sah_terminates m index_count
          (ext.partition_sah primitives st.indices first_index index_count).split_cost
          (ext.surface_area (calculate_bounds primitives (st.indices 0) first_index
            (first_index + index_count)) * (index_count : ℚ)) = true
      · refine ⟨_, .leaf node first_index index_count
          (calculate_bounds primitives (st.indices 0) first_index (first_index + index_count)),
          recursive_sah_leaf ext primitives m fuel node first_index index_count st nd hnd hone
            hstop, ?_⟩
        · refine ⟨Builds.sah_leaf node first_index index_count st.indices st.node_index st.log
            hone hstop, rfl, rfl, rfl, ?_, ?_, ?_, rfl, rfl⟩
          · simp [Tree.Stored, hnode, leaf_state]
          · simp [leaf_state]
          · intro i hi _
            simp [List.getElem?_set, Ne.symm hi, leaf_state]
      · have hgo := Bool.eq_false_iff.mpr hstop
        have hlen0 : (split_state ext primitives st node first_index index_count).nodes.length =
            st.nodes.length := by simp [split_state]
        obtain ⟨st1, tl, hrun1, hb1, hslot1, hfirst1, hcount1, hstored1, hlen1, hframe1, hnc1,
            hic1⟩ := ih st.node_index first_index
          ((ext.partition_sah primitives st.indices first_index index_count).split_index -
            first_index)
          (split_state ext primitives st node first_index index_count)
          (by omega) (by omega) (by rw [hlen0]; omega) (by simp [split_state])
          (by rw [hlen0]; simp only [split_state]; omega)
        have hni1 := builds_node_index hpart hb1 (by omega)
        have hnode1 : st1.nodes[node]? = some
            { aabb := calculate_bounds primitives (st.indices 0) first_index
                (first_index + index_count),
              left := st.node_index,
              count := encode_axis (ext.partition_sah primitives st.indices first_index
                index_count).split_dimension.val } := by
          rw [hframe1 node (by omega) (Or.inl (by simp only [split_state]; omega))]
          simp [split_state, hnode]
        rw [hlen0] at hlen1
        simp only [split_state] at hni1
        obtain ⟨st2, tr, hrun2, hb2, hslot2, hfirst2, hcount2, hstored2, hlen2, hframe2, hnc2,
            hic2⟩ := ih (st.node_index + 1)
          (first_index +
            ((ext.partition_sah primitives st.indices first_index index_count).split_index -
              first_index))
          (first_index + index_count -
            (ext.partition_sah primitives st.indices first_index index_count).split_index)
          st1 (by omega) (by omega) (by omega) (by omega) (by omega)
        have hni2 := builds_node_index hpart hb2 (by omega)
        have hslots1 := builds_slots hpart hb1 (by omega)
        simp only [split_state] at hslots1
        refine ⟨st2, .interior node first_index index_count
          (calculate_bounds primitives (st.indices 0) first_index (first_index + index_count))
          (ext.partition_sah primitives st.indices first_index index_count).split_dimension
          (split_value ext primitives st.indices first_index index_count) tl tr,
          ?_, ?_, rfl, rfl, rfl, ?_, ?_, ?_, ?_, ?_⟩
        · rw [recursive_interior ext primitives m fuel node first_index index_count st nd hnd
            hone hgo, hrun1]
          simp only [hnode1]
          exact hrun2
        · exact Builds.interior node first_index index_count st.indices st.node_index st.log
            tl tr st1.indices st2.indices st1.node_index st2.node_index st1.log st2.log hone hgo
            hb1 hb2 hslot1 hslot2 hfirst1 hcount1 hfirst2 hcount2
        · simp only [Tree.Stored]
          refine ⟨?_, by omega, ?_, hstored2⟩
          · rw [hframe2 node (by omega) (Or.inl (by omega)), hnode1, hslot1]
          · refine stored_of_agree tl (fun s hs => ?_) hstored1
            refine hframe2 s.slot ?_ (Or.inl ?_)
            · rcases hslots1 s hs with h | h <;> omega
            · rcases hslots1 s hs with h | h <;> omega
        · omega
        · intro i hi hout
          rw [hframe2 i (by omega) (by omega), hframe1 i (by omega)
            (by simp only [split_state]; omega)]
          simp [split_state, List.getElem?_set, Ne.symm hi]
        · rw [hnc2, hnc1]
          rfl
        · rw [hic2, hic1]
          rfl

/-- The build returns: over `N ≥ 1` primitives, with an arena of `2N` nodes,
`build_bvh_impl` ends without a fault (in particular its assertion holds), and
the tree of the run is held by the final arena. -/
theorem impl_layout {α : Type} [LinearOrder α] [BoundedOrder α] (ext : Collaborators α)
    (hpart : PartitionInRange ext) (primitives : List (Primitive α)) (m fuel : Nat)
    (st0 : BuildState α) (hN : 1 ≤ primitives.length) (hfuel : primitives.length ≤ fuel)
    (hlen : st0.nodes.length = 2 * primitives.length) :
    ∃ (st : BuildState α) (t : Tree α),
      build_bvh_impl ext primitives primitives.length m fuel st0 = .ok st ∧
      Layout ext primitives m st0 st t ∧
      st.node_count = st.node_index ∧ st.index_count = primitives.length ∧
      st.nodes.length = st0.nodes.length ∧
      (∀ i, i ≠ 0 → (i < 2 ∨ st.node_index ≤ i) → st.nodes[i]? = st0.nodes[i]?) := by
  obtain ⟨st1, t, hrun, hb, hslot, hfirst, hcount, hstored, hlen1, hframe, -, -⟩ :=
    run_builds ext primitives m hpart fuel 0 0 primitives.length
      { st0 with indices := sort_indices ext primitives primitives.length st0.indices,
                 node_index := 2 }
      hN hfuel (by simp only []; omega) (by simp only []; omega) (by simp only []; omega)
  have hni := builds_node_index hpart hb (by omega)
  simp only [] at hni hlen1 hframe
  refine ⟨{ st1 with node_count := st1.node_index, index_count := primitives.length }, t,
    ?_, ⟨hb, hstored, hslot, hfirst, hcount⟩, rfl, rfl, hlen1, hframe⟩
  simp only [build_bvh_impl, hrun]
  rw [if_pos (by omega)]

theorem init_nodes_length {α : Type} (c1 c2 : Nat) (fresh : Nat → BVHNode α) (n : Nat) :
    (init c1 c2 fresh n).nodes.length = 2 * n := by
  simp [init]

/-! ## Leaf ranges -/

theorem builds_ranged {α : Type} [LinearOrder α] [BoundedOrder α] {ext : Collaborators α}
    {primitives : List (Primitive α)} {m : Nat} (hpart : PartitionInRange ext)
    {t : Tree α} {i i' : Indices} {n n' : Nat} {g g' : List Event}
    (h : Builds ext primitives m t i n g i' n' g') (hpos : 1 ≤ t.count) : t.Ranged := by
  induction h with
  | leaf node first_index indices node_index log => simp [Tree.Ranged]
  | sah_leaf node first_index index_count indices node_index log hcount hstop =>
    simpa [Tree.Ranged, Tree.count] using hpos
  | interior node first_index index_count indices node_index log l r il ir nl nr gl gr hcount hgo
      hl hr hls hrs hlf hlc hrf hrc ihl ihr =>
    simp only [Tree.count] at hpos
    have hs := hpart primitives indices first_index index_count (by omega)
    simp only [Tree.Ranged]
    exact ⟨hlf, by omega, by omega, ihl (by omega), ihr (by omega)⟩

theorem ranged_count_pos {α : Type} (t : Tree α) (h : t.Ranged) : 1 ≤ t.count := by
  induction t with
  | leaf slot first count aabb => simpa [Tree.Ranged, Tree.count] using h
  | interior slot first count aabb axis split l r ihl ihr =>
    simp only [Tree.Ranged] at h
    have := ihl h.2.2.2.1
    simp only [Tree.count]
    omega

theorem tiles_append (l1 l2 : List (Nat × Nat)) (a b c : Nat) (h1 : Tiles l1 a b)
    (h2 : Tiles l2 b c) : Tiles (l1 ++ l2) a c := by
  induction l1 generalizing a with
  | nil =>
    simp only [Tiles] at h1
    subst h1
    simpa using h2
  | cons lf rest ih =>
    simp only [Tiles, List.cons_append] at h1 ⊢
    exact ⟨h1.1, h1.2.1, ih _ h1.2.2⟩

theorem tiles_of_ranged {α : Type} (t : Tree α) (h : t.Ranged) :
    Tiles t.leaves t.first (t.first + t.count) := by
  induction t with
  | leaf slot first count aabb =>
    simp only [Tree.Ranged] at h
    simp [Tree.leaves, Tiles, Tree.first, Tree.count, h]
  | interior slot first count aabb axis split l r ihl ihr =>
    simp only [Tree.Ranged] at h
    obtain ⟨h1, h2, h3, h4, h5⟩ := h
    simp only [Tree.leaves, Tree.first, Tree.count]
    refine tiles_append _ _ _ (first + l.count) _ ?_ ?_
    · rw [← h1]
      exact ihl h4
    · have := ihr h5
      rw [h2] at this
      rw [← h3, ← Nat.add_assoc]
      exact this

theorem tiles_bounds (l : List (Nat × Nat)) (a b : Nat) (h : Tiles l a b) :
    a ≤ b ∧ ∀ lf ∈ l, a ≤ lf.1 ∧ 1 ≤ lf.2 ∧ lf.1 + lf.2 ≤ b := by
  induction l generalizing a with
  | nil =>
    simp only [Tiles] at h
    simp [h]
  | cons x rest ih =>
    simp only [Tiles] at h
    obtain ⟨h1, h2, h3⟩ := h
    have := ih _ h3
    refine ⟨by omega, ?_⟩
    intro lf hlf
    simp only [List.mem_cons] at hlf
    rcases hlf with rfl | hlf
    · omega
    · have := this.2 lf hlf
      omega

theorem tiles_pairwise (l : List (Nat × Nat)) (a b : Nat) (h : Tiles l a b) :
    l.Pairwise (fun x y => x.1 + x.2 ≤ y.1) := by
  induction l generalizing a with
  | nil => exact List.Pairwise.nil
  | cons x rest ih =>
    simp only [Tiles] at h
    obtain ⟨h1, h2, h3⟩ := h
    refine List.Pairwise.cons ?_ (ih _ h3)
    intro y hy
    have := (tiles_bounds rest _ b h3).2 y hy
    omega

theorem tiles_count (l : List (Nat × Nat)) (a b : Nat) (h : Tiles l a b) (p : Nat) :
    l.countP (fun lf => decide (lf.1 ≤ p ∧ p < lf.1 + lf.2)) =
      if a ≤ p ∧ p < b then 1 else 0 := by
  induction l generalizing a with
  | nil =>
    simp only [Tiles] at h
    subst h
    have : ¬ (a ≤ p ∧ p < a) := by omega
    simp [this]
  | cons x rest ih =>
    simp only [Tiles] at h
    obtain ⟨h1, h2, h3⟩ := h
    have hb := (tiles_bounds rest _ b h3).1
    rw [List.countP_cons, ih _ h3]
    by_cases hx : x.1 ≤ p ∧ p < x.1 + x.2
    · have h4 : ¬ (a + x.2 ≤ p ∧ p < b) := by omega
      have h5 : a ≤ p ∧ p < b := by omega
      rw [if_neg h4, if_pos h5]
      simp [hx]
    · by_cases h6 : a ≤ p ∧ p < b
      · have h4 : a + x.2 ≤ p ∧ p < b := by omega
        rw [if_pos h4, if_pos h6]
        simp [hx]
      · have h4 : ¬ (a + x.2 ≤ p ∧ p < b) := by omega
        rw [if_neg h4, if_neg h6]
        simp [hx]

theorem stored_leaves {α : Type} (nodes : List (BVHNode α)) (t : Tree α) (h : t.Stored nodes) :
    ∀ lf ∈ t.leaves, ∃ (slot : Nat) (nd : BVHNode α),
      nodes[slot]? = some nd ∧ nd.first = lf.1 ∧ nd.count = lf.2 := by
  induction t with
  | leaf slot first count aabb =>
    intro lf hlf
    simp only [Tree.leaves, List.mem_singleton] at hlf
    subst hlf
    exact ⟨slot, _, h, rfl, rfl⟩
  | interior slot first count aabb axis split l r ihl ihr =>
    intro lf hlf
    simp only [Tree.Stored] at h
    simp only [Tree.leaves, List.mem_append] at hlf
    rcases hlf with hlf | hlf
    · exact ihl h.2.2.1 lf hlf
    · exact ihr h.2.2.2 lf hlf

theorem middle_split_in_range (α : Type) : PartitionInRange (reference_collaborators α) := by
  intro primitives indices first_index index_count h
  simp only [reference_collaborators, middle_split]
  omega

/-- C1: for every `N ≥ 1` and every primitive array, if `partition_sah` returns a
split index strictly inside its range, the build returns and the leaves of the
tree it lays out (each held by an arena node with these `first` and `count`) have
ranges `[first, first + count)` with `count ≥ 1` that lie inside `[0, N)`, are
pairwise disjoint, and cover every position of `[0, N)` exactly once. -/
theorem leaf_ranges_partition {α : Type} [LinearOrder α] [BoundedOrder α]
    (ext : Collaborators α) (primitives : List (Primitive α))
    (max_primitives_in_leaf fuel c1 c2 : Nat) (fresh : Nat → BVHNode α)
    (hpart : PartitionInRange ext) (hN : 1 ≤ primitives.length)
    (hfuel : primitives.length ≤ fuel) :
    ∃ (st : BuildState α) (t : Tree α),
      build_bvh_impl ext primitives primitives.length max_primitives_in_leaf fuel
        (init c1 c2 fresh primitives.length) = .ok st ∧
      Layout ext primitives max_primitives_in_leaf (init c1 c2 fresh primitives.length) st t ∧
      (∀ lf ∈ t.leaves, ∃ (slot : Nat) (nd : BVHNode α),
        st.nodes[slot]? = some nd ∧ nd.first = lf.1 ∧ nd.count = lf.2) ∧
      (∀ lf ∈ t.leaves, 1 ≤ lf.2 ∧ lf.1 + lf.2 ≤ primitives.length) ∧
      t.leaves.Pairwise (fun a b => a.1 + a.2 ≤ b.1) ∧
      (∀ p, p < primitives.length →
        t.leaves.countP (fun lf => decide (lf.1 ≤ p ∧ p < lf.1 + lf.2)) = 1) := by
  obtain ⟨st, t, hrun, hlay, -, -, -, -⟩ := impl_layout ext hpart primitives
    max_primitives_in_leaf fuel (init c1 c2 fresh primitives.length) hN hfuel
    (init_nodes_length c1 c2 fresh primitives.length)
  obtain ⟨hb, hstored, hslot, hfirst, hcount⟩ := hlay
  have htiles := tiles_of_ranged t (builds_ranged hpart hb (by omega))
  rw [hfirst, hcount, Nat.zero_add] at htiles
  refine ⟨st, t, hrun, ⟨hb, hstored, hslot, hfirst, hcount⟩, stored_leaves st.nodes t hstored,
    ?_, tiles_pairwise _ _ _ htiles, ?_⟩
  · intro lf hlf
    have := (tiles_bounds _ _ _ htiles).2 lf hlf
    omega
  · intro p hp
    rw [tiles_count _ _ _ htiles p, if_pos ⟨Nat.zero_le p, hp⟩]

theorem leaf_ranges_partition_witness :
    PartitionInRange (reference_collaborators ExtRat) ∧ 1 ≤ three_boxes.length ∧
    three_boxes.length ≤ 3 ∧
    ∃ (st : BuildState ExtRat) (t : Tree ExtRat),
      build_bvh_impl (reference_collaborators ExtRat) three_boxes three_boxes.length INT_MAX 3
        (init 0 0 (fun _ => stale_node) three_boxes.length) = .ok st ∧
      Layout (reference_collaborators ExtRat) three_boxes INT_MAX
        (init 0 0 (fun _ => stale_node) three_boxes.length) st t ∧
      (∀ lf ∈ t.leaves, ∃ (slot : Nat) (nd : BVHNode ExtRat),
        st.nodes[slot]? = some nd ∧ nd.first = lf.1 ∧ nd.count = lf.2) ∧
      (∀ lf ∈ t.leaves, 1 ≤ lf.2 ∧ lf.1 + lf.2 ≤ three_boxes.length) ∧
      t.leaves.Pairwise (fun a b => a.1 + a.2 ≤ b.1) ∧
      (∀ p, p < three_boxes.length →
        t.leaves.countP (fun lf => decide (lf.1 ≤ p ∧ p < lf.1 + lf.2)) = 1) :=
  ⟨middle_split_in_range ExtRat, by decide, by decide,
    leaf_ranges_partition (reference_collaborators ExtRat) three_boxes INT_MAX 3 0 0
      (fun _ => stale_node) (middle_split_in_range ExtRat) (by decide) (by decide)⟩

/-! ## Allocation -/

theorem reserved_append (a b : List Event) : reserved (a ++ b) = reserved a ++ reserved b := by
  induction a with
  | nil => rfl
  | cons e rest ih =>
    cases e with
    | reserve node left => simp [reserved, ih]
    | sah_leaf node => simp [reserved, ih]

theorem sah_leaves_append (a b : List Event) :
    sah_leaves (a ++ b) = sah_leaves a + sah_leaves b := by
  induction a with
  | nil => simp [sah_leaves]
  | cons e rest ih =>
    cases e with
    | reserve node left => simp [sah_leaves, ih]
    | sah_leaf node =>
      have h2 : sah_leaves (Event.sah_leaf node :: (rest ++ b)) = sah_leaves (rest ++ b) + 1 :=
        rfl
      have h3 : sah_leaves (Event.sah_leaf node :: rest) = sah_leaves rest + 1 := rfl
      rw [List.cons_append, h2, h3, ih]
      omega

theorem sah_leaves_eq_zero (g : List Event) (h : sah_leaves g = 0) (node : Nat) :
    Event.sah_leaf node ∉ g := by
  induction g with
  | nil => simp
  | cons e rest ih =>
    cases e with
    | reserve n l =>
      simp only [sah_leaves] at h
      simp [ih h]
    | sah_leaf n =>
      simp only [sah_leaves] at h
      omega

theorem evens_step (n k : Nat) :
    n :: (List.range k).map (fun j => n + 2 + 2 * j) =
      (List.range (k + 1)).map (fun j => n + 2 * j) := by
  rw [List.range_succ_eq_map]
  simp only [List.map_cons, List.map_map, Nat.mul_zero, Nat.add_zero, List.cons.injEq, true_and]
  apply List.map_congr_left
  intro j _
  simp only [Function.comp]
  omega

theorem evens_append (n k1 k2 : Nat) :
    (List.range k1).map (fun j => n + 2 * j) ++
        (List.range k2).map (fun j => n + 2 * k1 + 2 * j) =
      (List.range (k1 + k2)).map (fun j => n + 2 * j) := by
  induction k2 with
  | zero => simp
  | succ k ih =>
    rw [← Nat.add_assoc, List.range_succ, List.range_succ, List.map_append, List.map_append,
      ← List.append_assoc, ih]
    simp only [List.map_cons, List.map_nil, List.append_cancel_left_eq, List.cons.injEq, and_true]
    omega

/-- The allocator advances by two per reservation: a run that starts with the
allocator at `n` appends to the log reservations of exactly the slots
`n, n + 2, ...` below the final allocator value. -/
theorem builds_reserved {α : Type} [LinearOrder α] [BoundedOrder α] {ext : Collaborators α}
    {primitives : List (Primitive α)} {m : Nat}
    {t : Tree α} {i i' : Indices} {n n' : Nat} {g g' : List Event}
    (h : Builds ext primitives m t i n g i' n' g') :
    ∃ (k : Nat) (added : List Event), n' = n + 2 * k ∧ g' = g ++ added ∧
      reserved added = (List.range k).map (fun j => n + 2 * j) := by
  induction h with
  | leaf node first_index indices node_index log => exact ⟨0, [], by simp, by simp, by simp [reserved]⟩
  | sah_leaf node first_index index_count indices node_index log hcount hstop =>
    exact ⟨1, [Event.reserve node node_index, Event.sah_leaf node], by simp, by simp,
      by simp [reserved, List.range_succ]⟩
  | interior node first_index index_count indices node_index log l r il ir nl nr gl gr hcount hgo
      hl hr hls hrs hlf hlc hrf hrc ihl ihr =>
    obtain ⟨k1, a1, hn1, hg1, hr1⟩ := ihl
    obtain ⟨k2, a2, hn2, hg2, hr2⟩ := ihr
    refine ⟨1 + k1 + k2, Event.reserve node node_index :: (a1 ++ a2), by omega, ?_, ?_⟩
    · rw [hg2, hg1]
      simp
    · simp only [reserved, reserved_append, hr1, hr2, hn1]
      rw [show node_index + 2 + 2 * k1 = node_index + 2 + 2 * k1 from rfl, evens_append,
        evens_step]
      congr 2
      omega

theorem stored_subtrees {α : Type} (nodes : List (BVHNode α)) (t : Tree α) (h : t.Stored nodes) :
    ∀ s ∈ t.subtrees, s.Stored nodes := by
  induction t with
  | leaf slot first count aabb =>
    intro s hs
    simp only [Tree.subtrees, List.mem_singleton] at hs
    subst hs
    exact h
  | interior slot first count aabb axis split l r ihl ihr =>
    intro s hs
    simp only [Tree.subtrees, List.mem_cons, List.mem_append] at hs
    rcases hs with hs | hs | hs
    · subst hs
      exact h
    · exact ihl h.2.2.1 s hs
    · exact ihr h.2.2.2 s hs

theorem ranged_subtrees {α : Type} (t : Tree α) (h : t.Ranged) :
    ∀ s ∈ t.subtrees, s.Ranged ∧ t.first ≤ s.first ∧ s.first + s.count ≤ t.first + t.count := by
  induction t with
  | leaf slot first count aabb =>
    intro s hs
    simp only [Tree.subtrees, List.mem_singleton] at hs
    subst hs
    exact ⟨h, Nat.le_refl _, Nat.le_refl _⟩
  | interior slot first count aabb axis split l r ihl ihr =>
    intro s hs
    simp only [Tree.subtrees, List.mem_cons, List.mem_append] at hs
    rcases hs with hs | hs | hs
    · subst hs
      exact ⟨h, Nat.le_refl _, Nat.le_refl _⟩
    · simp only [Tree.Ranged] at h
      obtain ⟨h1, h2, h3, h4, h5⟩ := h
      have := ihl h4 s hs
      show _ ∧ first ≤ s.first ∧ s.first + s.count ≤ first + count
      exact ⟨this.1, by omega, by omega⟩
    · simp only [Tree.Ranged] at h
      obtain ⟨h1, h2, h3, h4, h5⟩ := h
      have := ihr h5 s hs
      show _ ∧ first ≤ s.first ∧ s.first + s.count ≤ first + count
      exact ⟨this.1, by omega, by omega⟩

/-- The children of every interior node of the run sit in a pair of slots that
the allocator handed out to that node: an even offset from the initial allocator
value, below the final one, and recorded in the log. -/
theorem builds_children {α : Type} [LinearOrder α] [BoundedOrder α] {ext : Collaborators α}
    {primitives : List (Primitive α)} {m : Nat} (hpart : PartitionInRange ext)
    {t : Tree α} {i i' : Indices} {n n' : Nat} {g g' : List Event}
    (h : Builds ext primitives m t i n g i' n' g') (hpos : 1 ≤ t.count) :
    ∀ (slot first count : Nat) (aabb : AABB α) (axis : Fin 3) (split : α) (l r : Tree α),
      Tree.interior slot first count aabb axis split l r ∈ t.subtrees →
      (∃ k, l.slot = n + 2 * k) ∧ l.slot + 1 < n' ∧ r.slot = l.slot + 1 ∧
      Event.reserve slot l.slot ∈ g' := by
  induction h with
  | leaf node first_index indices node_index log =>
    intro slot first count aabb axis split l r hmem
    simp [Tree.subtrees] at hmem
  | sah_leaf node first_index index_count indices node_index log hcount hstop =>
    intro slot first count aabb axis split l r hmem
    simp [Tree.subtrees] at hmem
  | interior node first_index index_count indices node_index log l r il ir nl nr gl gr hcount hgo
      hl hr hls hrs hlf hlc hrf hrc ihl ihr =>
    simp only [Tree.count] at hpos
    have hs := hpart primitives indices first_index index_count (by omega)
    have hnl := builds_node_index hpart hl (by omega)
    have hnr := builds_node_index hpart hr (by omega)
    obtain ⟨k1, a1, hn1, hg1, -⟩ := builds_reserved hl
    obtain ⟨k2, a2, hn2, hg2, -⟩ := builds_reserved hr
    intro slot first count aabb axis split l0 r0 hmem
    simp only [Tree.subtrees, List.mem_cons, List.mem_append] at hmem
    rcases hmem with hroot | hleft | hright
    · simp only [Tree.interior.injEq] at hroot
      obtain ⟨h1, -, -, -, -, -, h6, h7⟩ := hroot
      subst h1 h6 h7
      refine ⟨⟨0, by omega⟩, by omega, by omega, ?_⟩
      rw [hg2, hg1, hls]
      simp
    · obtain ⟨⟨k, hk⟩, h2, h3, h4⟩ := ihl (by omega) slot first count aabb axis split l0 r0 hleft
      refine ⟨⟨k + 1, by omega⟩, by omega, h3, ?_⟩
      rw [hg2]
      exact List.mem_append_left _ h4
    · obtain ⟨⟨k, hk⟩, h2, h3, h4⟩ := ihr (by omega) slot first count aabb axis split l0 r0 hright
      exact ⟨⟨1 + k1 + k, by omega⟩, h2, h3, h4⟩

theorem evens_pairwise (n k : Nat) :
    ((List.range k).map (fun j => n + 2 * j)).Pairwise (fun a b => a + 2 ≤ b) := by
  rw [List.pairwise_map]
  refine List.Pairwise.imp ?_ (List.pairwise_lt_range k)
  intro a b hab
  omega

/-- C5: for every build over `N ≥ 1` primitives (with `partition_sah` splitting
strictly inside its range) the root is node 0; every interior node of the tree
stores in `left` an even slot `2k` with `k ≥ 1` and `left + 1 < node_count`, its
children being the nodes `left` and `left + 1`, reserved for it according to the
log; and the reserved pairs `left, left + 1` of all nodes that reserved children,
late leaves included, start at slot 2 or above and are pairwise disjoint: they
are exactly `2, 4, ...` up to `node_count - 2`, in the order of reservation. -/
theorem child_slots_aligned {α : Type} [LinearOrder α] [BoundedOrder α]
    (ext : Collaborators α) (primitives : List (Primitive α))
    (max_primitives_in_leaf fuel c1 c2 : Nat) (fresh : Nat → BVHNode α)
    (hpart : PartitionInRange ext) (hN : 1 ≤ primitives.length)
    (hfuel : primitives.length ≤ fuel) :
    ∃ (st : BuildState α) (t : Tree α),
      build_bvh_impl ext primitives primitives.length max_primitives_in_leaf fuel
        (init c1 c2 fresh primitives.length) = .ok st ∧
      Layout ext primitives max_primitives_in_leaf (init c1 c2 fresh primitives.length) st t ∧
      t.slot = 0 ∧
      (∀ (slot first count : Nat) (aabb : AABB α) (axis : Fin 3) (split : α) (l r : Tree α),
        Tree.interior slot first count aabb axis split l r ∈ t.subtrees →
        (∃ nd, st.nodes[slot]? = some nd ∧ nd.left = l.slot) ∧
        (∃ k, 1 ≤ k ∧ l.slot = 2 * k) ∧ l.slot + 1 < st.node_count ∧ r.slot = l.slot + 1 ∧
        Event.reserve slot l.slot ∈ st.log) ∧
      (∀ a ∈ reserved st.log, 2 ≤ a ∧ a + 1 < st.node_count) ∧
      (reserved st.log).Pairwise (fun a b => a + 2 ≤ b) ∧
      (∃ k, st.node_count = 2 + 2 * k ∧
        reserved st.log = (List.range k).map (fun j => 2 + 2 * j)) := by
  obtain ⟨st, t, hrun, hlay, hnc, -, -, -⟩ := impl_layout ext hpart primitives
    max_primitives_in_leaf fuel (init c1 c2 fresh primitives.length) hN hfuel
    (init_nodes_length c1 c2 fresh primitives.length)
  obtain ⟨hb, hstored, hslot, hfirst, hcount⟩ := hlay
  obtain ⟨k, added, hk, hg, hres⟩ := builds_reserved hb
  have hlog : reserved st.log = (List.range k).map (fun j => 2 + 2 * j) := by
    rw [hg, reserved_append, hres]
    simp [init, reserved]
  refine ⟨st, t, hrun, ⟨hb, hstored, hslot, hfirst, hcount⟩, hslot, ?_, ?_, ?_, ⟨k, ?_, hlog⟩⟩
  · intro slot first count aabb axis split l r hmem
    obtain ⟨⟨j, hj⟩, h2, h3, h4⟩ :=
      builds_children hpart hb (by omega) slot first count aabb axis split l r hmem
    have hst := stored_subtrees st.nodes t hstored _ hmem
    simp only [Tree.Stored] at hst
    exact ⟨⟨_, hst.1, rfl⟩, ⟨j + 1, by omega, by omega⟩, by omega, h3, h4⟩
  · intro a ha
    rw [hlog] at ha
    simp only [List.mem_map, List.mem_range] at ha
    obtain ⟨j, hj, rfl⟩ := ha
    omega
  · rw [hlog]
    exact evens_pairwise 2 k
  · omega

theorem child_slots_aligned_witness :
    PartitionInRange (reference_collaborators ExtRat) ∧ 1 ≤ three_boxes.length ∧
    three_boxes.length ≤ 3 ∧
    ∃ (st : BuildState ExtRat) (t : Tree ExtRat),
      build_bvh_impl (reference_collaborators ExtRat) three_boxes three_boxes.length 1 3
        (init 0 0 (fun _ => stale_node) three_boxes.length) = .ok st ∧
      Layout (reference_collaborators ExtRat) three_boxes 1
        (init 0 0 (fun _ => stale_node) three_boxes.length) st t ∧
      t.slot = 0 ∧
      (∀ (slot first count : Nat) (aabb : AABB ExtRat) (axis : Fin 3) (split : ExtRat)
        (l r : Tree ExtRat),
        Tree.interior slot first count aabb axis split l r ∈ t.subtrees →
        (∃ nd, st.nodes[slot]? = some nd ∧ nd.left = l.slot) ∧
        (∃ k, 1 ≤ k ∧ l.slot = 2 * k) ∧ l.slot + 1 < st.node_count ∧ r.slot = l.slot + 1 ∧
        Event.reserve slot l.slot ∈ st.log) ∧
      (∀ a ∈ reserved st.log, 2 ≤ a ∧ a + 1 < st.node_count) ∧
      (reserved st.log).Pairwise (fun a b => a + 2 ≤ b) ∧
      (∃ k, st.node_count = 2 + 2 * k ∧
        reserved st.log = (List.range k).map (fun j => 2 + 2 * j)) :=
  ⟨middle_split_in_range ExtRat, by decide, by decide,
    child_slots_aligned (reference_collaborators ExtRat) three_boxes 1 3 0 0
      (fun _ => stale_node) (middle_split_in_range ExtRat) (by decide) (by decide)⟩

/-! ## Node count -/

theorem builds_single {α : Type} [LinearOrder α] [BoundedOrder α] {ext : Collaborators α}
    {primitives : List (Primitive α)} {m : Nat}
    {t : Tree α} {i i' : Indices} {n n' : Nat} {g g' : List Event}
    (h : Builds ext primitives m t i n g i' n' g') (hone : t.count = 1) :
    n' = n ∧ t.is_leaf = true := by
  cases h with
  | leaf node first_index => exact ⟨rfl, rfl⟩
  | sah_leaf node first_index index_count _ _ _ hcount hstop =>
    simp only [Tree.count] at hone
    omega
  | interior node first_index index_count _ _ _ l r _ _ _ _ _ _ hcount =>
    simp only [Tree.count] at hone
    omega

/-- C4, the statement refuted: the build over the single triangle of the seed
scenario stores `node_count = 2`, neither `1` nor at most `2N - 1`. -/
theorem node_count_single_triangle :
    ∃ st : BuildState ExtRat,
      build_triangles (reference_collaborators ExtRat) [unit_triangle] 1 1
        (init 0 0 (fun _ => stale_node) 1) = .ok st ∧
      st.node_count = 2 ∧ ¬ (st.node_count ≤ 2 * 1 - 1) ∧ st.node_count ≠ 1 :=
  ⟨_, rfl, rfl, by decide, by decide⟩

/-- C4, amended: for every `N ≥ 1` and every primitive array (with `partition_sah`
splitting strictly inside its range) the `node_count` that the build stores is the
final allocator value and satisfies `2 ≤ node_count ≤ 2N`; for `N = 1` it is `2`
and the root, node 0, is a leaf with `first = 0` and `count = 1`. -/
theorem node_count_bounds {α : Type} [LinearOrder α] [BoundedOrder α]
    (ext : Collaborators α) (primitives : List (Primitive α))
    (max_primitives_in_leaf fuel c1 c2 : Nat) (fresh : Nat → BVHNode α)
    (hpart : PartitionInRange ext) (hN : 1 ≤ primitives.length)
    (hfuel : primitives.length ≤ fuel) :
    ∃ (st : BuildState α),
      build_bvh_impl ext primitives primitives.length max_primitives_in_leaf fuel
        (init c1 c2 fresh primitives.length) = .ok st ∧
      st.node_count = st.node_index ∧
      2 ≤ st.node_count ∧ st.node_count ≤ 2 * primitives.length ∧
      (primitives.length = 1 → st.node_count = 2 ∧
        ∃ nd, st.nodes[0]? = some nd ∧ nd.is_leaf = true ∧ nd.first = 0 ∧ nd.count = 1) := by
  obtain ⟨st, t, hrun, hlay, hnc, -, -, -⟩ := impl_layout ext hpart primitives
    max_primitives_in_leaf fuel (init c1 c2 fresh primitives.length) hN hfuel
    (init_nodes_length c1 c2 fresh primitives.length)
  obtain ⟨hb, hstored, hslot, hfirst, hcount⟩ := hlay
  have hni := builds_node_index hpart hb (by omega)
  refine ⟨st, hrun, hnc, by omega, by omega, ?_⟩
  intro h1
  obtain ⟨h2, h3⟩ := builds_single hb (by omega)
  refine ⟨by omega, ?_⟩
  cases t with
  | leaf slot first count aabb =>
    simp only [Tree.slot, Tree.first, Tree.count] at hslot hfirst hcount
    simp only [Tree.Stored] at hstored
    subst hslot hfirst
    refine ⟨_, hstored, ?_, rfl, by simp only []; omega⟩
    simp only [BVHNode.is_leaf, hcount, h1]
    decide
  | interior slot first count aabb axis split l r => simp [Tree.is_leaf] at h3

theorem node_count_bounds_witness :
    PartitionInRange (reference_collaborators ExtRat) ∧ 1 ≤ [unit_triangle].length ∧
    [unit_triangle].length ≤ 1 ∧
    ∃ (st : BuildState ExtRat),
      build_bvh_impl (reference_collaborators ExtRat) [unit_triangle] [unit_triangle].length
        INT_MAX 1 (init 0 0 (fun _ => stale_node) [unit_triangle].length) = .ok st ∧
      st.node_count = st.node_index ∧
      2 ≤ st.node_count ∧ st.node_count ≤ 2 * [unit_triangle].length ∧
      ([unit_triangle].length = 1 → st.node_count = 2 ∧
        ∃ nd, st.nodes[0]? = some nd ∧ nd.is_leaf = true ∧ nd.first = 0 ∧ nd.count = 1) :=
  ⟨middle_split_in_range ExtRat, by decide, by decide,
    node_count_bounds (reference_collaborators ExtRat) [unit_triangle] INT_MAX 1 0 0
      (fun _ => stale_node) (middle_split_in_range ExtRat) (by decide) (by decide)⟩

/-! ## The encoding of `count` -/

/-- C7: for every split axis `a ∈ {0, 1, 2}` the value `(a + 1) << 30`, computed
in 32-bit arithmetic and stored in `count`, decodes with
`split_axis = (count >> 30) - 1` to `a`, and `is_leaf` is false for it. -/
theorem axis_encoding_roundtrip {α : Type} (a : Fin 3) (aabb : AABB α) (left : Nat) :
    BVHNode.split_axis { aabb := aabb, left := left, count := encode_axis a.val } = (a.val : Int) ∧
    BVHNode.is_leaf { aabb := aabb, left := left, count := encode_axis a.val } = false := by
  simp only [BVHNode.split_axis, BVHNode.is_leaf]
  fin_cases a <;> decide

theorem split_axis_of_encoded {α : Type} (nd : BVHNode α) (a : Fin 3)
    (h : nd.count = encode_axis a.val) : nd.split_axis = (a.val : Int) := by
  simp only [BVHNode.split_axis, h]
  fin_cases a <;> decide

theorem encode_axis_bits (a : Fin 3) :
    encode_axis a.val % 2 ^ 30 = 0 ∧ encode_axis a.val / 2 ^ 30 = a.val + 1 ∧
    encode_axis a.val < 2 ^ 32 := by
  fin_cases a <;> decide

theorem subtrees_children {α : Type} (t : Tree α) (slot first count : Nat) (aabb : AABB α)
    (axis : Fin 3) (split : α) (l r : Tree α)
    (h : Tree.interior slot first count aabb axis split l r ∈ t.subtrees) :
    l ∈ t.subtrees ∧ r ∈ t.subtrees := by
  have hself : ∀ u : Tree α, u ∈ u.subtrees := by
    intro u
    cases u <;> simp [Tree.subtrees]
  induction t with
  | leaf slot' first' count' aabb' => simp [Tree.subtrees] at h
  | interior slot' first' count' aabb' axis' split' l' r' ihl ihr =>
    simp only [Tree.subtrees, List.mem_cons, List.mem_append] at h ⊢
    rcases h with h | h | h
    · simp only [Tree.interior.injEq] at h
      obtain ⟨-, -, -, -, -, -, h6, h7⟩ := h
      subst h6 h7
      exact ⟨Or.inr (Or.inl (hself l)), Or.inr (Or.inr (hself r))⟩
    · have := ihl h
      exact ⟨Or.inr (Or.inl this.1), Or.inr (Or.inl this.2)⟩
    · have := ihr h
      exact ⟨Or.inr (Or.inr this.1), Or.inr (Or.inr this.2)⟩

theorem subtree_self {α : Type} (t : Tree α) : t ∈ t.subtrees := by
  cases t <;> simp [Tree.subtrees]

/-- When the stored `count` fields decode as the nodes were emitted, the slots a
traversal visits from the root of a stored tree are the slots of its nodes. -/
theorem reachable_iff_subtree {α : Type} (nodes : List (BVHNode α)) (t : Tree α)
    (hstored : t.Stored nodes) (hroot : t.slot = 0)
    (hdecode : ∀ s ∈ t.subtrees, ∀ nd, nodes[s.slot]? = some nd → nd.is_leaf = s.is_leaf)
    (i : Nat) : Reachable nodes i ↔ ∃ s ∈ t.subtrees, s.slot = i := by
  constructor
  · intro h
    induction h with
    | root => exact ⟨t, subtree_self t, hroot⟩
    | left j nd hj hnd hint ih =>
      obtain ⟨s, hs, hslot⟩ := ih
      have hst := stored_subtrees nodes t hstored s hs
      have hdec := hdecode s hs nd (by rw [hslot]; exact hnd)
      cases s with
      | leaf slot first count aabb =>
        rw [hint] at hdec
        simp [Tree.is_leaf] at hdec
      | interior slot first count aabb axis split l r =>
        simp only [Tree.Stored] at hst
        simp only [Tree.slot] at hslot
        rw [hslot, hnd] at hst
        refine ⟨l, (subtrees_children t _ _ _ _ _ _ _ _ hs).1, ?_⟩
        have := Option.some.inj hst.1
        rw [this]
    | right j nd hj hnd hint ih =>
      obtain ⟨s, hs, hslot⟩ := ih
      have hst := stored_subtrees nodes t hstored s hs
      have hdec := hdecode s hs nd (by rw [hslot]; exact hnd)
      cases s with
      | leaf slot first count aabb =>
        rw [hint] at hdec
        simp [Tree.is_leaf] at hdec
      | interior slot first count aabb axis split l r =>
        simp only [Tree.Stored] at hst
        simp only [Tree.slot] at hslot
        rw [hslot, hnd] at hst
        refine ⟨r, (subtrees_children t _ _ _ _ _ _ _ _ hs).2, ?_⟩
        have := Option.some.inj hst.1
        rw [hst.2.1, this]
  · rintro ⟨s, hs, rfl⟩
    have key : ∀ u : Tree α, u.Stored nodes →
        (∀ s ∈ u.subtrees, ∀ nd, nodes[s.slot]? = some nd → nd.is_leaf = s.is_leaf) →
        Reachable nodes u.slot → ∀ s ∈ u.subtrees, Reachable nodes s.slot := by
      intro u
      induction u with
      | leaf slot first count aabb =>
        intro _ _ hreach s hs
        simp only [Tree.subtrees, List.mem_singleton] at hs
        subst hs
        exact hreach
      | interior slot first count aabb axis split l r ihl ihr =>
        intro hst hdec hreach s hs
        have hself := hdec _ (subtree_self _) _ hst.1
        have hleft := Reachable.left slot _ hreach hst.1 hself
        have hright := Reachable.right slot _ hreach hst.1 hself
        simp only [Tree.subtrees, List.mem_cons, List.mem_append] at hs
        rcases hs with hs | hs | hs
        · subst hs
          exact hreach
        · exact ihl hst.2.2.1
            (fun s' hs' => hdec s' (by simp [Tree.subtrees, hs'])) hleft s hs
        · refine ihr hst.2.2.2
            (fun s' hs' => hdec s' (by simp [Tree.subtrees, hs'])) ?_ s hs
          rw [hst.2.1]
          exact hright
    exact key t hstored hdecode (by rw [hroot]; exact Reachable.root) s hs

/-- C6: for every build with `1 ≤ N < 2^30` (and `partition_sah` splitting strictly
inside its range) the slots reachable from the root are the slots of the nodes of
the tree, and every such node is stored either as a leaf, whose `count` has nonzero
low 30 bits, zero high 2 bits and `1 ≤ count ≤ N`, or as an interior node, whose
`count` has all low 30 bits zero and high 2 bits `axis + 1` with
`axis ∈ {0, 1, 2}`; so `is_leaf` holds of the stored node exactly when the node was
emitted as a leaf. -/
theorem count_encoding {α : Type} [LinearOrder α] [BoundedOrder α]
    (ext : Collaborators α) (primitives : List (Primitive α))
    (max_primitives_in_leaf fuel c1 c2 : Nat) (fresh : Nat → BVHNode α)
    (hpart : PartitionInRange ext) (hN : 1 ≤ primitives.length)
    (hbound : primitives.length < 2 ^ 30) (hfuel : primitives.length ≤ fuel) :
    ∃ (st : BuildState α) (t : Tree α),
      build_bvh_impl ext primitives primitives.length max_primitives_in_leaf fuel
        (init c1 c2 fresh primitives.length) = .ok st ∧
      Layout ext primitives max_primitives_in_leaf (init c1 c2 fresh primitives.length) st t ∧
      (∀ i, Reachable st.nodes i ↔ ∃ s ∈ t.subtrees, s.slot = i) ∧
      ∀ s ∈ t.subtrees, ∃ nd, st.nodes[s.slot]? = some nd ∧ nd.is_leaf = s.is_leaf ∧
        (s.is_leaf = true →
          nd.count % 2 ^ 30 ≠ 0 ∧ nd.count / 2 ^ 30 = 0 ∧ 1 ≤ nd.count ∧
          nd.count ≤ primitives.length) ∧
        (s.is_leaf = false →
          ∃ axis : Fin 3, nd.count % 2 ^ 30 = 0 ∧ nd.count / 2 ^ 30 = axis.val + 1 ∧
            nd.count < 2 ^ 32) := by
  obtain ⟨st, t, hrun, hlay, -, -, -, -⟩ := impl_layout ext hpart primitives
    max_primitives_in_leaf fuel (init c1 c2 fresh primitives.length) hN hfuel
    (init_nodes_length c1 c2 fresh primitives.length)
  obtain ⟨hb, hstored, hslot, hfirst, hcount⟩ := hlay
  have hranged := builds_ranged hpart hb (by omega)
  have hall : ∀ s ∈ t.subtrees, ∃ nd, st.nodes[s.slot]? = some nd ∧ nd.is_leaf = s.is_leaf ∧
      (s.is_leaf = true →
        nd.count % 2 ^ 30 ≠ 0 ∧ nd.count / 2 ^ 30 = 0 ∧ 1 ≤ nd.count ∧
        nd.count ≤ primitives.length) ∧
      (s.is_leaf = false →
        ∃ axis : Fin 3, nd.count % 2 ^ 30 = 0 ∧ nd.count / 2 ^ 30 = axis.val + 1 ∧
          nd.count < 2 ^ 32) := ?_
  · refine ⟨st, t, hrun, ⟨hb, hstored, hslot, hfirst, hcount⟩, ?_, hall⟩
    intro i
    refine reachable_iff_subtree st.nodes t hstored hslot ?_ i
    intro s hs nd hnd
    obtain ⟨nd', hnd', hleaf, -⟩ := hall s hs
    rw [hnd] at hnd'
    rw [Option.some.inj hnd']
    exact hleaf
  intro s hs
  have hst := stored_subtrees st.nodes t hstored s hs
  obtain ⟨hr, h1, h2⟩ := ranged_subtrees t hranged s hs
  have hpos := ranged_count_pos s hr
  cases s with
  | leaf slot first count aabb =>
    simp only [Tree.Stored] at hst
    have h2 : first + count ≤ t.first + t.count := h2
    have hpos : 1 ≤ count := hpos
    have hlt : count < 2 ^ 30 := by omega
    refine ⟨_, hst, ?_, ?_, ?_⟩
    · simp only [BVHNode.is_leaf, Tree.is_leaf, Nat.mod_eq_of_lt hlt]
      simp only [bne_iff_ne, ne_eq]
      omega
    · intro _
      simp only []
      refine ⟨?_, Nat.div_eq_of_lt hlt, hpos, by omega⟩
      rw [Nat.mod_eq_of_lt hlt]
      omega
    · intro h
      simp [Tree.is_leaf] at h
  | interior slot first count aabb axis split l r =>
    simp only [Tree.Stored] at hst
    have hbits := encode_axis_bits axis
    refine ⟨_, hst.1, ?_, ?_, ?_⟩
    · simp only [BVHNode.is_leaf, Tree.is_leaf, hbits.1]
      decide
    · intro h
      simp [Tree.is_leaf] at h
    · intro _
      exact ⟨axis, hbits⟩

theorem count_encoding_witness :
    PartitionInRange (reference_collaborators ExtRat) ∧ 1 ≤ three_boxes.length ∧
    three_boxes.length < 2 ^ 30 ∧ three_boxes.length ≤ 3 ∧
    ∃ (st : BuildState ExtRat) (t : Tree ExtRat),
      build_bvh_impl (reference_collaborators ExtRat) three_boxes three_boxes.length INT_MAX 3
        (init 0 0 (fun _ => stale_node) three_boxes.length) = .ok st ∧
      Layout (reference_collaborators ExtRat) three_boxes INT_MAX
        (init 0 0 (fun _ => stale_node) three_boxes.length) st t ∧
      (∀ i, Reachable st.nodes i ↔ ∃ s ∈ t.subtrees, s.slot = i) ∧
      ∀ s ∈ t.subtrees, ∃ nd, st.nodes[s.slot]? = some nd ∧ nd.is_leaf = s.is_leaf ∧
        (s.is_leaf = true →
          nd.count % 2 ^ 30 ≠ 0 ∧ nd.count / 2 ^ 30 = 0 ∧ 1 ≤ nd.count ∧
          nd.count ≤ three_boxes.length) ∧
        (s.is_leaf = false →
          ∃ axis : Fin 3, nd.count % 2 ^ 30 = 0 ∧ nd.count / 2 ^ 30 = axis.val + 1 ∧
            nd.count < 2 ^ 32) :=
  ⟨middle_split_in_range ExtRat, by decide, by decide, by decide,
    count_encoding (reference_collaborators ExtRat) three_boxes INT_MAX 3 0 0
      (fun _ => stale_node) (middle_split_in_range ExtRat) (by decide) (by decide) (by decide)⟩

/-! ## Mesh mode -/

theorem sah_terminates_fits (m index_count : Nat) (c p : ℚ)
    (h : sah_terminates m index_count c p = true) : index_count ≤ m := by
  simp only [sah_terminates, Bool.and_eq_true, decide_eq_true_eq] at h
  exact h.1

theorem leaves_mem_subtrees {α : Type} (t : Tree α) :
    ∀ lf ∈ t.leaves, ∃ s ∈ t.subtrees, s.is_leaf = true ∧ s.first = lf.1 ∧ s.count = lf.2 := by
  induction t with
  | leaf slot first count aabb =>
    intro lf hlf
    simp only [Tree.leaves, List.mem_singleton] at hlf
    subst hlf
    exact ⟨.leaf slot first count aabb, by simp [Tree.subtrees], rfl, rfl, rfl⟩
  | interior slot first count aabb axis split l r ihl ihr =>
    intro lf hlf
    simp only [Tree.leaves, List.mem_append] at hlf
    rcases hlf with hlf | hlf
    · obtain ⟨s, hs, h⟩ := ihl lf hlf
      exact ⟨s, by simp [Tree.subtrees, hs], h⟩
    · obtain ⟨s, hs, h⟩ := ihr lf hlf
      exact ⟨s, by simp [Tree.subtrees, hs], h⟩

/-- With `max_primitives_in_leaf = 1` no run takes the SAH termination branch and
every leaf it emits has a range of length one. -/
theorem builds_mesh {α : Type} [LinearOrder α] [BoundedOrder α] {ext : Collaborators α}
    {primitives : List (Primitive α)} {m : Nat} (hpart : PartitionInRange ext) (hm : m ≤ 1)
    {t : Tree α} {i i' : Indices} {n n' : Nat} {g g' : List Event}
    (h : Builds ext primitives m t i n g i' n' g') (hpos : 1 ≤ t.count) :
    sah_leaves g' = sah_leaves g ∧ ∀ s ∈ t.subtrees, s.is_leaf = true → s.count = 1 := by
  induction h with
  | leaf node first_index indices node_index log =>
    refine ⟨rfl, ?_⟩
    intro s hs _
    simp only [Tree.subtrees, List.mem_singleton] at hs
    subst hs
    rfl
  | sah_leaf node first_index index_count indices node_index log hcount hstop =>
    have := sah_terminates_fits _ _ _ _ hstop
    simp only [Tree.count] at hpos
    omega
  | interior node first_index index_count indices node_index log l r il ir nl nr gl gr hcount hgo
      hl hr hls hrs hlf hlc hrf hrc ihl ihr =>
    simp only [Tree.count] at hpos
    have hs := hpart primitives indices first_index index_count (by omega)
    obtain ⟨h1, h2⟩ := ihl (by omega)
    obtain ⟨h3, h4⟩ := ihr (by omega)
    refine ⟨?_, ?_⟩
    · rw [h3, h1, sah_leaves_append]
      simp [sah_leaves]
    · intro s hmem hleaf
      simp only [Tree.subtrees, List.mem_cons, List.mem_append] at hmem
      rcases hmem with hroot | hleft | hright
      · subst hroot
        simp [Tree.is_leaf] at hleaf
      · exact h2 s hleft hleaf
      · exact h4 s hright hleaf

/-- C9: in mesh mode (`build` over meshes, `max_primitives_in_leaf = 1`), for
every `N ≥ 1` and whatever costs `partition_sah` reports (its split index being
strictly inside its range), the build returns, the SAH termination branch of lines
43-46 is never taken, and every leaf of the resulting tree is stored with
`count == 1`. -/
theorem mesh_leaves_single {α : Type} [LinearOrder α] [BoundedOrder α]
    (ext : Collaborators α) (meshes : List (Primitive α))
    (fuel c1 c2 : Nat) (fresh : Nat → BVHNode α)
    (hpart : PartitionInRange ext) (hN : 1 ≤ meshes.length) (hfuel : meshes.length ≤ fuel) :
    ∃ (st : BuildState α) (t : Tree α),
      build_meshes ext meshes meshes.length fuel (init c1 c2 fresh meshes.length) = .ok st ∧
      Layout ext meshes 1 (init c1 c2 fresh meshes.length) st t ∧
      sah_leaves st.log = 0 ∧ (∀ node, Event.sah_leaf node ∉ st.log) ∧
      (∀ s ∈ t.subtrees, s.is_leaf = true →
        ∃ nd, st.nodes[s.slot]? = some nd ∧ nd.first = s.first ∧ nd.count = 1) ∧
      (∀ lf ∈ t.leaves, lf.2 = 1) := by
  obtain ⟨st, t, hrun, hlay, -, -, -, -⟩ := impl_layout ext hpart meshes
    1 fuel (init c1 c2 fresh meshes.length) hN hfuel
    (init_nodes_length c1 c2 fresh meshes.length)
  obtain ⟨hb, hstored, hslot, hfirst, hcount⟩ := hlay
  obtain ⟨h1, h2⟩ := builds_mesh hpart (Nat.le_refl 1) hb (by omega)
  have hzero : sah_leaves st.log = 0 := by
    rw [h1]
    rfl
  refine ⟨st, t, hrun, ⟨hb, hstored, hslot, hfirst, hcount⟩, hzero,
    sah_leaves_eq_zero st.log hzero, ?_, ?_⟩
  · intro s hs hleaf
    have hst := stored_subtrees st.nodes t hstored s hs
    have hc := h2 s hs hleaf
    cases s with
    | leaf slot first count aabb =>
      simp only [Tree.Stored] at hst
      exact ⟨_, hst, rfl, hc⟩
    | interior slot first count aabb axis split l r => simp [Tree.is_leaf] at hleaf
  · intro lf hlf
    obtain ⟨s, hs, hleaf, -, hc⟩ := leaves_mem_subtrees t lf hlf
    rw [← hc]
    exact h2 s hs hleaf

theorem mesh_leaves_single_witness :
    PartitionInRange (reference_collaborators ExtRat) ∧ 1 ≤ three_boxes.length ∧
    three_boxes.length ≤ 3 ∧
    ∃ (st : BuildState ExtRat) (t : Tree ExtRat),
      build_meshes (reference_collaborators ExtRat) three_boxes three_boxes.length 3
        (init 0 0 (fun _ => stale_node) three_boxes.length) = .ok st ∧
      Layout (reference_collaborators ExtRat) three_boxes 1
        (init 0 0 (fun _ => stale_node) three_boxes.length) st t ∧
      sah_leaves st.log = 0 ∧ (∀ node, Event.sah_leaf node ∉ st.log) ∧
      (∀ s ∈ t.subtrees, s.is_leaf = true →
        ∃ nd, st.nodes[s.slot]? = some nd ∧ nd.first = s.first ∧ nd.count = 1) ∧
      (∀ lf ∈ t.leaves, lf.2 = 1) :=
  ⟨middle_split_in_range ExtRat, by decide, by decide,
    mesh_leaves_single (reference_collaborators ExtRat) three_boxes 3 0 0
      (fun _ => stale_node) (middle_split_in_range ExtRat) (by decide) (by decide)⟩

/-! ## Empty input -/

/-- C10, the statement refuted: given no primitives, the build over the arena of
`init(0)` does not return an error value for the empty input: its first action is
the store of line 22 to `nodes[0]`, which lies outside the zero-length arena. -/
theorem empty_input_stores_node_zero :
    build_triangles (reference_collaborators ExtRat) [] 0 1
      (init 0 0 (fun _ => stale_node) 0) = .error (Fault.out_of_bounds 0) :=
  rfl

/-- C10, amended: the builder has no check for `N == 0` and no error to report
it with. Whatever the collaborators, the leaf limit and the old BVH counters,
`build_bvh_impl` over zero primitives enters `build_bvh_recursive` on node 0, and
the first statement there stores the box of the empty range to `nodes[0]`,
outside the zero-length arena of `init(0)`. -/
theorem empty_input_unchecked {α : Type} [LinearOrder α] [BoundedOrder α]
    (ext : Collaborators α) (primitives : List (Primitive α))
    (max_primitives_in_leaf fuel c1 c2 : Nat) (fresh : Nat → BVHNode α) :
    build_bvh_impl ext primitives 0 max_primitives_in_leaf (fuel + 1) (init c1 c2 fresh 0) =
      .error (Fault.out_of_bounds 0) := by
  simp [build_bvh_impl, build_bvh_recursive, init]

/-! ## Index arrays: reordering inside a range -/

theorem slice_decompose (x : List Nat) (f c : Nat) :
    x = x.take f ++ slice x f c ++ x.drop (f + c) := by
  have h1 : x.drop (f + c) = (x.drop f).drop c := by
    rw [List.drop_drop]
  rw [h1, slice, List.append_assoc, List.take_append_drop, List.take_append_drop]

theorem slice_length (x : List Nat) (f c : Nat) (h : f + c ≤ x.length) :
    (slice x f c).length = c := by
  simp only [slice, List.length_take, List.length_drop]
  omega

theorem slice_add (x : List Nat) (f c1 c2 : Nat) :
    slice x f (c1 + c2) = slice x f c1 ++ slice x (f + c1) c2 := by
  simp only [slice]
  rw [List.take_add, List.drop_drop]

theorem slice_of_take (x : List Nat) (f c k : Nat) (h : f + c ≤ k) :
    slice (x.take k) f c = slice x f c := by
  simp only [slice]
  rw [List.drop_take, List.take_take, Nat.min_eq_left (by omega)]

theorem slice_of_drop (x : List Nat) (g j k : Nat) :
    slice (x.drop g) j k = slice x (g + j) k := by
  simp only [slice]
  rw [List.drop_drop]

theorem getD_mem_slice (x : List Nat) (f c k : Nat) (h1 : f ≤ k) (h2 : k < f + c)
    (h3 : k < x.length) : x.getD k 0 ∈ slice x f c := by
  have hk : x.getD k 0 = x[k] := by
    simp [List.getD_eq_getElem?_getD, List.getElem?_eq_getElem h3]
  rw [hk, slice, List.mem_take_iff_getElem]
  refine ⟨k - f, ?_, ?_⟩
  · simp only [List.length_drop]
    omega
  · simp only [List.getElem_drop]
    congr 1
    omega

theorem rearranged_refl (a : List Nat) (f c : Nat) : Rearranged a a f c :=
  ⟨rfl, rfl, List.Perm.refl _⟩

theorem rearranged_trans {a b c : List Nat} {f n : Nat} (h1 : Rearranged a b f n)
    (h2 : Rearranged b c f n) : Rearranged a c f n :=
  ⟨h2.1.trans h1.1, h2.2.1.trans h1.2.1, h2.2.2.trans h1.2.2⟩

theorem rearranged_length {a b : List Nat} {f c : Nat} (h : Rearranged a b f c) :
    b.length = a.length := by
  have ha := congrArg List.length (slice_decompose a f c)
  have hb := congrArg List.length (slice_decompose b f c)
  rw [List.length_append, List.length_append] at ha hb
  rw [h.1, h.2.1, h.2.2.length_eq] at hb
  omega

/-- Entries outside the reordered range are untouched. -/
theorem rearranged_slice_outside {a b : List Nat} {f c : Nat} (h : Rearranged a b f c)
    (g k : Nat) (hout : g + k ≤ f ∨ f + c ≤ g) : slice b g k = slice a g k := by
  rcases hout with hout | hout
  · rw [← slice_of_take b g k f hout, ← slice_of_take a g k f hout, h.1]
  · have hg : g = (f + c) + (g - (f + c)) := by omega
    rw [hg, ← slice_of_drop b, ← slice_of_drop a, h.2.1]

/-- A reordering inside a range is a reordering inside every larger range. -/
theorem rearranged_widen {a b : List Nat} {f' c' : Nat} (h : Rearranged a b f' c')
    (f c : Nat) (h1 : f ≤ f') (h2 : f' + c' ≤ f + c) : Rearranged a b f c := by
  refine ⟨?_, ?_, ?_⟩
  · have := congrArg (List.take f) h.1
    rwa [List.take_take, List.take_take, Nat.min_eq_left h1] at this
  · have := congrArg (List.drop (f + c - (f' + c'))) h.2.1
    rw [List.drop_drop, List.drop_drop] at this
    have he : f' + c' + (f + c - (f' + c')) = f + c := by omega
    rw [he] at this
    exact this
  · have hc : c = (f' - f) + (c' + (f + c - (f' + c'))) := by omega
    rw [hc, slice_add, slice_add, slice_add, slice_add]
    have hf : f + (f' - f) = f' := by omega
    rw [hf]
    rw [rearranged_slice_outside h f (f' - f) (Or.inl (by omega)),
      rearranged_slice_outside h (f' + c') (f + c - (f' + c')) (Or.inr (by omega))]
    exact List.Perm.append_left _ (List.Perm.append_right _ h.2.2)

theorem rearranged_getD_mem {a b : List Nat} {f c : Nat} (h : Rearranged a b f c)
    (hlen : f + c ≤ a.length) (k : Nat) (h1 : f ≤ k) (h2 : k < f + c) :
    b.getD k 0 ∈ slice a f c := by
  have hb := rearranged_length h
  exact h.2.2.subset (getD_mem_slice b f c k h1 h2 (by omega))

theorem rearranged_getD_outside {a b : List Nat} {f c : Nat} (h : Rearranged a b f c)
    (k : Nat) (hout : k < f ∨ f + c ≤ k) : b.getD k 0 = a.getD k 0 := by
  have hs := rearranged_slice_outside h k 1 (by omega)
  have hb := rearranged_length h
  simp only [slice] at hs
  by_cases hk : k < a.length
  · have h1 : (List.take 1 (List.drop k b))[0]? = (List.take 1 (List.drop k a))[0]? := by
      rw [hs]
    simp only [List.getElem?_take, List.getElem?_drop, Nat.add_zero] at h1
    simp only [List.getD_eq_getElem?_getD]
    simpa using congrArg (fun o => Option.getD o 0) h1
  · simp only [List.getD_eq_getElem?_getD]
    rw [List.getElem?_eq_none (by omega), List.getElem?_eq_none (by omega)]

/-- A run reorders each index array inside its own range only. -/
theorem builds_rearranged {α : Type} [LinearOrder α] [BoundedOrder α] {ext : Collaborators α}
    {primitives : List (Primitive α)} {m : Nat} (hpart : PartitionInRange ext)
    (hsplit : SplitPermutes ext)
    {t : Tree α} {i i' : Indices} {n n' : Nat} {g g' : List Event}
    (h : Builds ext primitives m t i n g i' n' g') (hpos : 1 ≤ t.count)
    (hlen : ∀ e : Fin 3, t.first + t.count ≤ (i e).length) :
    ∀ d : Fin 3, Rearranged (i d) (i' d) t.first t.count := by
  induction h with
  | leaf node first_index indices node_index log => exact fun d => rearranged_refl _ _ _
  | sah_leaf node first_index index_count indices node_index log hcount hstop =>
    exact fun d => rearranged_refl _ _ _
  | interior node first_index index_count indices node_index log l r il ir nl nr gl gr hcount hgo
      hl hr hls hrs hlf hlc hrf hrc ihl ihr =>
    have hpos : 1 ≤ index_count := hpos
    have hlen : ∀ e : Fin 3, first_index + index_count ≤ (indices e).length := hlen
    have hs := hpart primitives indices first_index index_count (by omega)
    have h0 : ∀ d : Fin 3, Rearranged (indices d)
        (split_pass ext primitives indices first_index index_count d) first_index index_count :=
      fun d => hsplit primitives indices first_index index_count _ _ _ d hlen hs.1 hs.2
    have h1 := ihl (by omega) (fun e => by rw [rearranged_length (h0 e)]; have := hlen e; omega)
    have h2 := ihr (by omega) (fun e => by
      rw [rearranged_length (h1 e), rearranged_length (h0 e)]; have := hlen e; omega)
    intro d
    have h3 := rearranged_widen (h1 d) first_index index_count (by omega) (by omega)
    have h4 := rearranged_widen (h2 d) first_index index_count (by omega) (by omega)
    exact rearranged_trans (h0 d) (rearranged_trans h3 h4)

theorem slice_whole (x : List Nat) : slice x 0 x.length = x := by
  simp [slice]

theorem sort_indices_perm {α : Type} [LinearOrder α] [BoundedOrder α] (ext : Collaborators α)
    (hsort : SortPermutes ext) (primitives : List (Primitive α)) (n : Nat) (indices : Indices)
    (d : Fin 3) : (sort_indices ext primitives n indices d).Perm (indices d) := by
  simp only [sort_indices]
  have h := hsort (center_less primitives d) ((indices d).take n)
  have h2 := List.Perm.append_right ((indices d).drop n) h
  rwa [List.take_append_drop] at h2

/-- C3: for every `N ≥ 1`, after `init(N)` followed by the build, `bvh.indices`
(the x-axis index array, `indices 0`) is a permutation of `[0, N)`: it contains
every integer of `0 .. N-1` exactly once; this assumes that `std::sort` and
`split_indices` only reorder the entries they are given (and that `partition_sah`
splits strictly inside its range). -/
theorem indices_permutation {α : Type} [LinearOrder α] [BoundedOrder α]
    (ext : Collaborators α) (primitives : List (Primitive α))
    (max_primitives_in_leaf fuel c1 c2 : Nat) (fresh : Nat → BVHNode α)
    (hpart : PartitionInRange ext) (hsplit : SplitPermutes ext) (hsort : SortPermutes ext)
    (hN : 1 ≤ primitives.length) (hfuel : primitives.length ≤ fuel) :
    ∃ (st : BuildState α),
      build_bvh_impl ext primitives primitives.length max_primitives_in_leaf fuel
        (init c1 c2 fresh primitives.length) = .ok st ∧
      (st.indices 0).Perm (List.range primitives.length) ∧
      (st.indices 0).length = primitives.length ∧
      (∀ v, v < primitives.length → (st.indices 0).count v = 1) ∧
      (∀ v ∈ st.indices 0, v < primitives.length) := by
  obtain ⟨st, t, hrun, hlay, -, -, -, -⟩ := impl_layout ext hpart primitives
    max_primitives_in_leaf fuel (init c1 c2 fresh primitives.length) hN hfuel
    (init_nodes_length c1 c2 fresh primitives.length)
  obtain ⟨hb, hstored, hslot, hfirst, hcount⟩ := hlay
  have hperm0 : ∀ d : Fin 3, (sort_indices ext primitives primitives.length
      (init c1 c2 fresh primitives.length).indices d).Perm (List.range primitives.length) :=
    fun d => sort_indices_perm ext hsort primitives _ _ d
  have hlen0 : ∀ d : Fin 3, (sort_indices ext primitives primitives.length
      (init c1 c2 fresh primitives.length).indices d).length = primitives.length :=
    fun d => by rw [(hperm0 d).length_eq, List.length_range]
  have hre := builds_rearranged hpart hsplit hb (by omega)
    (fun e => by rw [hfirst, hcount, hlen0 e]; omega) 0
  rw [hfirst, hcount] at hre
  have hlen1 : (st.indices 0).length = primitives.length := by
    rw [rearranged_length hre, hlen0 0]
  have hperm : (st.indices 0).Perm (List.range primitives.length) := by
    have h := hre.2.2
    have e1 := slice_whole (st.indices 0)
    have e2 := slice_whole (sort_indices ext primitives primitives.length
      (init c1 c2 fresh primitives.length).indices 0)
    rw [hlen1] at e1
    rw [hlen0 0] at e2
    rw [e1, e2] at h
    exact h.trans (hperm0 0)
  refine ⟨st, hrun, hperm, hlen1, ?_, ?_⟩
  · intro v hv
    rw [hperm.count_eq]
    exact List.count_eq_one_of_mem (List.nodup_range _) (List.mem_range.mpr hv)
  · intro v hv
    exact List.mem_range.mp (hperm.subset hv)

theorem rearranged_of_middle (x mid : List Nat) (f c : Nat) (hlen : f + c ≤ x.length)
    (hperm : mid.Perm (slice x f c)) :
    Rearranged x (x.take f ++ mid ++ x.drop (f + c)) f c := by
  have h1 : (x.take f).length = f := by
    rw [List.length_take]
    omega
  have h2 : mid.length = c := by rw [hperm.length_eq, slice_length x f c hlen]
  refine ⟨?_, ?_, ?_⟩
  · rw [List.append_assoc, List.take_left' h1]
  · rw [List.drop_left' (by rw [List.length_append, h1, h2])]
  · simp only [slice]
    rw [List.append_assoc, List.drop_left' h1, List.take_left' h2]
    exact hperm

theorem stable_split_permutes (α : Type) : SplitPermutes (reference_collaborators α) := by
  intro primitives indices first_index index_count split_dimension split_index split d hlen h1 h2
  have key : Rearranged (indices d) (stable_split_indices primitives indices first_index
      index_count split_dimension split_index split d) first_index index_count := by
    simp only [stable_split_indices]
    by_cases hd : d = split_dimension
    · rw [if_pos hd]
      exact rearranged_refl _ _ _
    · rw [if_neg hd]
      exact rearranged_of_middle _ _ _ _ (hlen d) (List.filter_append_perm _ _)
  exact key

theorem insertion_sort_permutes (α : Type) : SortPermutes (reference_collaborators α) := by
  intro cmp xs
  exact List.perm_insertionSort _ xs

theorem indices_permutation_witness :
    PartitionInRange (reference_collaborators ExtRat) ∧
    SplitPermutes (reference_collaborators ExtRat) ∧
    SortPermutes (reference_collaborators ExtRat) ∧
    1 ≤ three_boxes.length ∧ three_boxes.length ≤ 3 ∧
    ∃ (st : BuildState ExtRat),
      build_bvh_impl (reference_collaborators ExtRat) three_boxes three_boxes.length INT_MAX 3
        (init 0 0 (fun _ => stale_node) three_boxes.length) = .ok st ∧
      (st.indices 0).Perm (List.range three_boxes.length) ∧
      (st.indices 0).length = three_boxes.length ∧
      (∀ v, v < three_boxes.length → (st.indices 0).count v = 1) ∧
      (∀ v ∈ st.indices 0, v < three_boxes.length) :=
  ⟨middle_split_in_range ExtRat, stable_split_permutes ExtRat, insertion_sort_permutes ExtRat,
    by decide, by decide,
    indices_permutation (reference_collaborators ExtRat) three_boxes INT_MAX 3 0 0
      (fun _ => stale_node) (middle_split_in_range ExtRat) (stable_split_permutes ExtRat)
      (insertion_sort_permutes ExtRat) (by decide) (by decide)⟩

/-! ## Bounding boxes -/

theorem encloses_refl {α : Type} [LinearOrder α] (a : AABB α) : AABB.encloses a a :=
  ⟨⟨le_refl _, le_refl _, le_refl _⟩, ⟨le_refl _, le_refl _, le_refl _⟩⟩

theorem encloses_trans {α : Type} [LinearOrder α] {a b c : AABB α} (h1 : AABB.encloses a b)
    (h2 : AABB.encloses b c) : AABB.encloses a c :=
  ⟨⟨le_trans h1.1.1 h2.1.1, le_trans h1.1.2.1 h2.1.2.1, le_trans h1.1.2.2 h2.1.2.2⟩,
   ⟨le_trans h2.2.1 h1.2.1, le_trans h2.2.2.1 h1.2.2.1, le_trans h2.2.2.2 h1.2.2.2⟩⟩

theorem encloses_union_left {α : Type} [LinearOrder α] (a b : AABB α) :
    AABB.encloses (AABB.union a b) a :=
  ⟨⟨min_le_left _ _, min_le_left _ _, min_le_left _ _⟩,
   ⟨le_max_left _ _, le_max_left _ _, le_max_left _ _⟩⟩

theorem encloses_union_right {α : Type} [LinearOrder α] (a b : AABB α) :
    AABB.encloses (AABB.union a b) b :=
  ⟨⟨min_le_right _ _, min_le_right _ _, min_le_right _ _⟩,
   ⟨le_max_right _ _, le_max_right _ _, le_max_right _ _⟩⟩

theorem encloses_foldl {α : Type} [LinearOrder α] (boxes : List (AABB α)) (acc : AABB α) :
    AABB.encloses (boxes.foldl AABB.union acc) acc ∧
    ∀ b ∈ boxes, AABB.encloses (boxes.foldl AABB.union acc) b := by
  induction boxes generalizing acc with
  | nil => exact ⟨encloses_refl _, fun b hb => by simp at hb⟩
  | cons x rest ih =>
    simp only [List.foldl_cons]
    obtain ⟨h1, h2⟩ := ih (AABB.union acc x)
    refine ⟨encloses_trans h1 (encloses_union_left _ _), ?_⟩
    intro b hb
    simp only [List.mem_cons] at hb
    rcases hb with rfl | hb
    · exact encloses_trans h1 (encloses_union_right _ _)
    · exact h2 b hb

/-- The box computed by `calculate_bounds` encloses the box of every primitive
whose index lies in the range. -/
theorem calculate_bounds_encloses {α : Type} [LinearOrder α] [BoundedOrder α]
    (primitives : List (Primitive α)) (indices : List Nat) (first count : Nat) (x : Nat)
    (hx : x ∈ slice indices first count) :
    AABB.encloses (calculate_bounds primitives indices first (first + count))
      (primitive_at primitives x).get_aabb := by
  simp only [calculate_bounds, Nat.add_sub_cancel_left]
  exact (encloses_foldl _ _).2 _ (List.mem_map_of_mem _ hx)

/-- Every node of a run was given the bounds of a range whose entries include all
the entries that the final x-axis index array holds in the range of the node. -/
theorem builds_bounded {α : Type} [LinearOrder α] [BoundedOrder α] {ext : Collaborators α}
    {primitives : List (Primitive α)} {m : Nat} (hpart : PartitionInRange ext)
    (hsplit : SplitPermutes ext)
    {t : Tree α} {i i' : Indices} {n n' : Nat} {g g' : List Event}
    (h : Builds ext primitives m t i n g i' n' g') (hpos : 1 ≤ t.count)
    (hlen : ∀ e : Fin 3, t.first + t.count ≤ (i e).length) :
    ∀ s ∈ t.subtrees, ∀ k, s.first ≤ k → k < s.first + s.count →
      AABB.encloses s.aabb (primitive_at primitives ((i' 0).getD k 0)).get_aabb := by
  induction h with
  | leaf node first_index indices node_index log =>
    intro s hs k h1 h2
    simp only [Tree.subtrees, List.mem_singleton] at hs
    subst hs
    have hlen0 : first_index + 1 ≤ (indices 0).length := hlen 0
    have h1 : first_index ≤ k := h1
    have h2 : k < first_index + 1 := h2
    exact calculate_bounds_encloses primitives (indices 0) first_index 1 _
      (getD_mem_slice _ _ _ _ h1 h2 (by omega))
  | sah_leaf node first_index index_count indices node_index log hcount hstop =>
    intro s hs k h1 h2
    simp only [Tree.subtrees, List.mem_singleton] at hs
    subst hs
    have hlen0 : first_index + index_count ≤ (indices 0).length := hlen 0
    have h1 : first_index ≤ k := h1
    have h2 : k < first_index + index_count := h2
    exact calculate_bounds_encloses primitives (indices 0) first_index index_count _
      (getD_mem_slice _ _ _ _ h1 h2 (by omega))
  | interior node first_index index_count indices node_index log l r il ir nl nr gl gr hcount hgo
      hl hr hls hrs hlf hlc hrf hrc ihl ihr =>
    have hroot := builds_rearranged hpart hsplit
      (Builds.interior node first_index index_count indices node_index log l r il ir nl nr gl gr
        hcount hgo hl hr hls hrs hlf hlc hrf hrc) hpos hlen 0
    have hpos : 1 ≤ index_count := hpos
    have hlen : ∀ e : Fin 3, first_index + index_count ≤ (indices e).length := hlen
    have hs := hpart primitives indices first_index index_count (by omega)
    have h0 : ∀ d : Fin 3, Rearranged (indices d)
        (split_pass ext primitives indices first_index index_count d) first_index index_count :=
      fun d => hsplit primitives indices first_index index_count _ _ _ d hlen hs.1 hs.2
    have hlenl : ∀ e : Fin 3, l.first + l.count ≤
        (split_pass ext primitives indices first_index index_count e).length :=
      fun e => by rw [rearranged_length (h0 e)]; have := hlen e; omega
    have h1 := builds_rearranged hpart hsplit hl (by omega) hlenl
    have hlenr : ∀ e : Fin 3, r.first + r.count ≤ (il e).length := fun e => by
      rw [rearranged_length (h1 e), rearranged_length (h0 e)]; have := hlen e; omega
    have h2 := builds_rearranged hpart hsplit hr (by omega) hlenr
    intro s hmem k hk1 hk2
    simp only [Tree.subtrees, List.mem_cons, List.mem_append] at hmem
    rcases hmem with hroot' | hleft | hright
    · subst hroot'
      have hk1 : first_index ≤ k := hk1
      have hk2 : k < first_index + index_count := hk2
      exact calculate_bounds_encloses primitives (indices 0) first_index index_count _
        (rearranged_getD_mem hroot (hlen 0) k hk1 hk2)
    · obtain ⟨-, hr1, hr2⟩ := ranged_subtrees l (builds_ranged hpart hl (by omega)) s hleft
      rw [rearranged_getD_outside (h2 0) k (Or.inl (by omega))]
      exact ihl (by omega) hlenl s hleft k hk1 hk2
    · exact ihr (by omega) hlenr s hright k hk1 hk2

theorem stored_aabb {α : Type} (nodes : List (BVHNode α)) (s : Tree α) (h : s.Stored nodes) :
    ∃ nd, nodes[s.slot]? = some nd ∧ nd.aabb = s.aabb := by
  cases s with
  | leaf slot first count aabb => exact ⟨_, h, rfl⟩
  | interior slot first count aabb axis split l r => exact ⟨_, h.1, rfl⟩

/-- C2: after the build, for every node of the tree and every primitive whose
index is stored in `bvh.indices` inside a leaf range of that node's subtree, the
box of the primitive is contained, componentwise, in the box stored in the node,
although that box was computed before `split_indices` and the recursive calls
reordered the range. `calculate_bounds` is the union over the range; `std::sort`,
`split_indices` only permute the entries of the range they are given, and
`partition_sah` splits strictly inside its range. -/
theorem node_boxes_enclose {α : Type} [LinearOrder α] [BoundedOrder α]
    (ext : Collaborators α) (primitives : List (Primitive α))
    (max_primitives_in_leaf fuel c1 c2 : Nat) (fresh : Nat → BVHNode α)
    (hpart : PartitionInRange ext) (hsplit : SplitPermutes ext) (hsort : SortPermutes ext)
    (hN : 1 ≤ primitives.length) (hfuel : primitives.length ≤ fuel) :
    ∃ (st : BuildState α) (t : Tree α),
      build_bvh_impl ext primitives primitives.length max_primitives_in_leaf fuel
        (init c1 c2 fresh primitives.length) = .ok st ∧
      Layout ext primitives max_primitives_in_leaf (init c1 c2 fresh primitives.length) st t ∧
      ∀ s ∈ t.subtrees, ∃ nd, st.nodes[s.slot]? = some nd ∧
        ∀ lf ∈ s.leaves, ∀ k, lf.1 ≤ k → k < lf.1 + lf.2 →
          AABB.encloses nd.aabb (primitive_at primitives ((st.indices 0).getD k 0)).get_aabb := by
  obtain ⟨st, t, hrun, hlay, -, -, -, -⟩ := impl_layout ext hpart primitives
    max_primitives_in_leaf fuel (init c1 c2 fresh primitives.length) hN hfuel
    (init_nodes_length c1 c2 fresh primitives.length)
  obtain ⟨hb, hstored, hslot, hfirst, hcount⟩ := hlay
  have hlen0 : ∀ d : Fin 3, (sort_indices ext primitives primitives.length
      (init c1 c2 fresh primitives.length).indices d).length = primitives.length :=
    fun d => by
      rw [(sort_indices_perm ext hsort primitives _ _ d).length_eq]
      simp [init]
  have hbounded := builds_bounded hpart hsplit hb (by omega)
    (fun e => by rw [hfirst, hcount, hlen0 e]; omega)
  have hranged := builds_ranged hpart hb (by omega)
  refine ⟨st, t, hrun, ⟨hb, hstored, hslot, hfirst, hcount⟩, ?_⟩
  intro s hs
  obtain ⟨nd, hnd, haabb⟩ := stored_aabb st.nodes s (stored_subtrees st.nodes t hstored s hs)
  refine ⟨nd, hnd, ?_⟩
  intro lf hlf k hk1 hk2
  obtain ⟨hsr, -, -⟩ := ranged_subtrees t hranged s hs
  have hb2 := (tiles_bounds _ _ _ (tiles_of_ranged s hsr)).2 lf hlf
  rw [haabb]
  exact hbounded s hs k (by omega) (by omega)

theorem node_boxes_enclose_witness :
    PartitionInRange (reference_collaborators ExtRat) ∧
    SplitPermutes (reference_collaborators ExtRat) ∧
    SortPermutes (reference_collaborators ExtRat) ∧
    1 ≤ three_boxes.length ∧ three_boxes.length ≤ 3 ∧
    ∃ (st : BuildState ExtRat) (t : Tree ExtRat),
      build_bvh_impl (reference_collaborators ExtRat) three_boxes three_boxes.length INT_MAX 3
        (init 0 0 (fun _ => stale_node) three_boxes.length) = .ok st ∧
      Layout (reference_collaborators ExtRat) three_boxes INT_MAX
        (init 0 0 (fun _ => stale_node) three_boxes.length) st t ∧
      ∀ s ∈ t.subtrees, ∃ nd, st.nodes[s.slot]? = some nd ∧
        ∀ lf ∈ s.leaves, ∀ k, lf.1 ≤ k → k < lf.1 + lf.2 →
          AABB.encloses nd.aabb (primitive_at three_boxes ((st.indices 0).getD k 0)).get_aabb :=
  ⟨middle_split_in_range ExtRat, stable_split_permutes ExtRat, insertion_sort_permutes ExtRat,
    by decide, by decide,
    node_boxes_enclose (reference_collaborators ExtRat) three_boxes INT_MAX 3 0 0
      (fun _ => stale_node) (middle_split_in_range ExtRat) (stable_split_permutes ExtRat)
      (insertion_sort_permutes ExtRat) (by decide) (by decide)⟩

/-! ## Split order -/

theorem slice_sublist_left (x : List Nat) (f c1 c2 : Nat) :
    (slice x f c1).Sublist (slice x f (c1 + c2)) := by
  rw [slice_add]
  exact List.sublist_append_left _ _

theorem slice_sublist_right (x : List Nat) (f c1 c2 : Nat) :
    (slice x (f + c1) c2).Sublist (slice x f (c1 + c2)) := by
  rw [slice_add]
  exact List.sublist_append_right _ _

theorem slice_one (x : List Nat) (s : Nat) (h : s < x.length) : slice x s 1 = [x.getD s 0] := by
  have hk : x.getD s 0 = x[s] := by
    simp [List.getD_eq_getElem?_getD, List.getElem?_eq_getElem h]
  simp only [slice]
  rw [hk, List.drop_eq_getElem_cons h]
  rfl

theorem mem_slice_getD (x : List Nat) (g k y : Nat) (h : y ∈ slice x g k) :
    ∃ j, g ≤ j ∧ j < g + k ∧ x.getD j 0 = y := by
  rw [slice, List.mem_take_iff_getElem] at h
  obtain ⟨j, hj, hy⟩ := h
  simp only [List.length_drop] at hj
  refine ⟨g + j, by omega, by omega, ?_⟩
  rw [List.getElem_drop] at hy
  have hlt : g + j < x.length := by omega
  simp [List.getD_eq_getElem?_getD, List.getElem?_eq_getElem hlt, hy]

/-- After `split_indices`, both sides of the split are again in the state that
the recursive calls rely on. -/
theorem split_pass_consistent {α : Type} [LinearOrder α] [BoundedOrder α]
    {ext : Collaborators α} (hsplit : SplitPermutes ext) (hstable : SplitStable ext)
    (primitives : List (Primitive α)) (indices : Indices) (f c : Nat)
    (hcons : Consistent primitives indices f c)
    (h1 : f < (ext.partition_sah primitives indices f c).split_index)
    (h2 : (ext.partition_sah primitives indices f c).split_index < f + c) :
    Consistent primitives (split_pass ext primitives indices f c) f
      ((ext.partition_sah primitives indices f c).split_index - f) ∧
    Consistent primitives (split_pass ext primitives indices f c)
      (ext.partition_sah primitives indices f c).split_index
      (f + c - (ext.partition_sah primitives indices f c).split_index) := by
  have hst : ∀ d : Fin 3, _ := fun d => hstable primitives indices f c
    (ext.partition_sah primitives indices f c).split_dimension
    (ext.partition_sah primitives indices f c).split_index d hcons h1 h2
  have hre : ∀ d : Fin 3, Rearranged (indices d) (split_pass ext primitives indices f c d) f c :=
    fun d => hsplit primitives indices f c _ _ _ d hcons.1 h1 h2
  obtain ⟨hlen, hsorted, hperm, hnodup⟩ := hcons
  refine ⟨⟨?_, ?_, ?_, ?_⟩, ⟨?_, ?_, ?_, ?_⟩⟩
  · intro e
    rw [rearranged_length (hre e)]
    have := hlen e
    omega
  · intro e
    exact List.Pairwise.sublist (hst e).1 (hsorted e)
  · intro e e'
    exact (hst e).2.2.1.trans (hst e').2.2.1.symm
  · exact List.Nodup.sublist (hst 0).1 hnodup
  · intro e
    rw [rearranged_length (hre e)]
    have := hlen e
    omega
  · intro e
    exact List.Pairwise.sublist (hst e).2.1 (hsorted e)
  · intro e e'
    exact (hst e).2.2.2.trans (hst e').2.2.2.symm
  · exact List.Nodup.sublist (hst 0).2.1 hnodup

theorem consistent_of_slices {α : Type} [LinearOrder α] [BoundedOrder α]
    (primitives : List (Primitive α)) (a b : Indices) (f c : Nat)
    (hcons : Consistent primitives a f c) (hlen : ∀ e : Fin 3, (b e).length = (a e).length)
    (hslice : ∀ e : Fin 3, slice (b e) f c = slice (a e) f c) : Consistent primitives b f c := by
  obtain ⟨h1, h2, h3, h4⟩ := hcons
  refine ⟨fun e => by rw [hlen e]; exact h1 e, fun e => by rw [hslice e]; exact h2 e,
    fun e e' => by rw [hslice e, hslice e']; exact h3 e e', by rw [hslice 0]; exact h4⟩

theorem separates_congr {α : Type} [LinearOrder α] [BoundedOrder α]
    (primitives : List (Primitive α)) (a b : List Nat) (axis : Fin 3) (l r : Tree α) (v : α)
    (hl : ∀ k, l.first ≤ k → k < l.first + l.count → b.getD k 0 = a.getD k 0)
    (hr : ∀ k, r.first ≤ k → k < r.first + r.count → b.getD k 0 = a.getD k 0)
    (h : Separates primitives a axis l r v) : Separates primitives b axis l r v := by
  obtain ⟨h1, h2, k, h3, h4, h5⟩ := h
  refine ⟨fun j hj1 hj2 => ?_, fun j hj1 hj2 => ?_, ⟨k, h3, h4, ?_⟩⟩
  · rw [hl j hj1 hj2]
    exact h1 j hj1 hj2
  · rw [hr j hj1 hj2]
    exact h2 j hj1 hj2
  · rw [hr k h3 h4]
    exact h5

/-- In a range sorted along an axis, the centre of the entry at the split index
separates the entries before it from the entries from it on. -/
theorem sorted_split {α : Type} [LinearOrder α] [BoundedOrder α]
    (primitives : List (Primitive α)) (axis : Fin 3) (x : List Nat) (f c s : Nat)
    (h1 : f < s) (h2 : s < f + c) (hlen : f + c ≤ x.length)
    (hsorted : SortedAlong primitives axis (slice x f c)) :
    (∀ a ∈ slice x f (s - f),
      center_along primitives axis a ≤ center_along primitives axis (x.getD s 0)) ∧
    (∀ b ∈ slice x s (f + c - s),
      center_along primitives axis (x.getD s 0) ≤ center_along primitives axis b) ∧
    x.getD s 0 ∈ slice x s (f + c - s) := by
  have hc : c = (s - f) + (1 + (f + c - s - 1)) := by omega
  have hfs : f + (s - f) = s := by omega
  have hk : f + c - s = 1 + (f + c - s - 1) := by omega
  have hR : slice x s (f + c - s) = x.getD s 0 :: slice x (s + 1) (f + c - s - 1) := by
    rw [hk, slice_add, slice_one x s (by omega)]
    simp
  unfold SortedAlong at hsorted
  rw [hc, slice_add, hfs, ← hk, hR, List.pairwise_append] at hsorted
  obtain ⟨-, hp, hcross⟩ := hsorted
  rw [List.pairwise_cons] at hp
  refine ⟨fun a ha => hcross a ha _ (List.mem_cons_self _ _), ?_, ?_⟩
  · intro b hb
    rw [hR, List.mem_cons] at hb
    rcases hb with rfl | hb
    · exact le_refl _
    · exact hp.1 b hb
  · rw [hR]
    exact List.mem_cons_self _ _

/-- The split order of a run: for every interior node of the tree, the split value
read at line 50 separates, along the recorded axis, the primitives that the final
x-axis index array holds in the range of the left child from those in the range
of the right child. -/
theorem builds_separated {α : Type} [LinearOrder α] [BoundedOrder α] {ext : Collaborators α}
    {primitives : List (Primitive α)} {m : Nat} (hpart : PartitionInRange ext)
    (hsplit : SplitPermutes ext) (hstable : SplitStable ext)
    {t : Tree α} {i i' : Indices} {n n' : Nat} {g g' : List Event}
    (h : Builds ext primitives m t i n g i' n' g') (hpos : 1 ≤ t.count)
    (hcons : Consistent primitives i t.first t.count) :
    ∀ (slot first count : Nat) (aabb : AABB α) (axis : Fin 3) (split : α) (l r : Tree α),
      Tree.interior slot first count aabb axis split l r ∈ t.subtrees →
      Separates primitives (i' 0) axis l r split := by
  induction h with
  | leaf node first_index indices node_index log =>
    intro slot first count aabb axis split l r hmem
    simp [Tree.subtrees] at hmem
  | sah_leaf node first_index index_count indices node_index log hcount hstop =>
    intro slot first count aabb axis split l r hmem
    simp [Tree.subtrees] at hmem
  | interior node first_index index_count indices node_index log l r il ir nl nr gl gr hcount hgo
      hl hr hls hrs hlf hlc hrf hrc ihl ihr =>
    have hpos : 1 ≤ index_count := hpos
    have hcons : Consistent primitives indices first_index index_count := hcons
    have hs := hpart primitives indices first_index index_count (by omega)
    have hfs : first_index +
        ((ext.partition_sah primitives indices first_index index_count).split_index -
          first_index) =
        (ext.partition_sah primitives indices first_index index_count).split_index := by omega
    obtain ⟨hcl', hcr'⟩ := split_pass_consistent hsplit hstable primitives indices first_index
      index_count hcons hs.1 hs.2
    have hcl : Consistent primitives (split_pass ext primitives indices first_index index_count)
        l.first l.count := by
      rw [hlf, hlc]
      exact hcl'
    have hcr0 : Consistent primitives (split_pass ext primitives indices first_index index_count)
        r.first r.count := by
      rw [hrf, hrc, hfs]
      exact hcr'
    have h1 := builds_rearranged hpart hsplit hl (by omega) hcl.1
    have hcr : Consistent primitives il r.first r.count :=
      consistent_of_slices primitives _ il r.first r.count hcr0
        (fun e => rearranged_length (h1 e))
        (fun e => rearranged_slice_outside (h1 e) r.first r.count (Or.inr (by omega)))
    have h2 := builds_rearranged hpart hsplit hr (by omega) hcr.1
    have hst := hstable primitives indices first_index index_count
      (ext.partition_sah primitives indices first_index index_count).split_dimension
      (ext.partition_sah primitives indices first_index index_count).split_index 0 hcons hs.1 hs.2
    obtain ⟨hlow, hhigh, hmid⟩ := sorted_split primitives
      (ext.partition_sah primitives indices first_index index_count).split_dimension
      (indices (ext.partition_sah primitives indices first_index index_count).split_dimension)
      first_index index_count
      (ext.partition_sah primitives indices first_index index_count).split_index hs.1 hs.2
      (hcons.1 _) (hcons.2.1 _)
    intro slot first count aabb axis split l0 r0 hmem
    simp only [Tree.subtrees, List.mem_cons, List.mem_append] at hmem
    rcases hmem with hroot | hleft | hright
    · simp only [Tree.interior.injEq] at hroot
      obtain ⟨-, -, -, -, h5, h5s, h6, h7⟩ := hroot
      subst h5 h5s h6 h7
      have hright_slice : (slice (ir 0) r0.first r0.count).Perm
          (slice (indices (ext.partition_sah primitives indices first_index
            index_count).split_dimension)
            (ext.partition_sah primitives indices first_index index_count).split_index
            (first_index + index_count -
              (ext.partition_sah primitives indices first_index index_count).split_index)) := by
        refine (h2 0).2.2.trans ?_
        rw [rearranged_slice_outside (h1 0) r0.first r0.count (Or.inr (by omega)), hrf, hfs, hrc]
        exact hst.2.2.2
      refine ⟨?_, ?_, ?_⟩
      · intro k hk1 hk2
        rw [rearranged_getD_outside (h2 0) k (Or.inl (by omega))]
        have hin := rearranged_getD_mem (h1 0) (hcl.1 0) k hk1 hk2
        rw [hlf, hlc] at hin
        exact hlow _ (hst.2.2.1.subset hin)
      · intro k hk1 hk2
        have hin := getD_mem_slice (ir 0) r0.first r0.count k hk1 hk2 (by
          have := rearranged_length (h2 0)
          have := hcr.1 0
          omega)
        exact hhigh _ (hright_slice.subset hin)
      · obtain ⟨j, hj1, hj2, hj3⟩ := mem_slice_getD (ir 0) r0.first r0.count _
          (hright_slice.symm.subset hmid)
        exact ⟨j, hj1, hj2, by rw [hj3]; rfl⟩
    · have hv := ihl (by omega) hcl slot first count aabb axis split l0 r0 hleft
      obtain ⟨hl0, hr0⟩ := subtrees_children l slot first count aabb axis split l0 r0 hleft
      have hranged := builds_ranged hpart hl (by omega)
      obtain ⟨-, hl1, hl2⟩ := ranged_subtrees l hranged l0 hl0
      obtain ⟨-, hr1, hr2⟩ := ranged_subtrees l hranged r0 hr0
      refine separates_congr primitives (il 0) (ir 0) axis l0 r0 split ?_ ?_ hv
      · intro k hk1 hk2
        exact rearranged_getD_outside (h2 0) k (Or.inl (by omega))
      · intro k hk1 hk2
        exact rearranged_getD_outside (h2 0) k (Or.inl (by omega))
    · exact ihr (by omega) hcr slot first count aabb axis split l0 r0 hright

theorem init_sorted_consistent {α : Type} [LinearOrder α] [BoundedOrder α]
    (ext : Collaborators α) (hsort : SortPermutes ext) (hsorts : SortSorts ext)
    (primitives : List (Primitive α)) (c1 c2 : Nat) (fresh : Nat → BVHNode α) :
    Consistent primitives
      (sort_indices ext primitives primitives.length (init c1 c2 fresh primitives.length).indices)
      0 primitives.length := by
  have hperm : ∀ d : Fin 3, (sort_indices ext primitives primitives.length
      (init c1 c2 fresh primitives.length).indices d).Perm (List.range primitives.length) :=
    fun d => sort_indices_perm ext hsort primitives _ _ d
  have hlen : ∀ d : Fin 3, (sort_indices ext primitives primitives.length
      (init c1 c2 fresh primitives.length).indices d).length = primitives.length :=
    fun d => by rw [(hperm d).length_eq, List.length_range]
  have hwhole : ∀ d : Fin 3, slice (sort_indices ext primitives primitives.length
      (init c1 c2 fresh primitives.length).indices d) 0 primitives.length =
      sort_indices ext primitives primitives.length
        (init c1 c2 fresh primitives.length).indices d := fun d => by
    have := slice_whole (sort_indices ext primitives primitives.length
      (init c1 c2 fresh primitives.length).indices d)
    rwa [hlen d] at this
  have hshape : ∀ d : Fin 3, sort_indices ext primitives primitives.length
      (init c1 c2 fresh primitives.length).indices d =
      ext.sort (center_less primitives d) (List.range primitives.length) := fun d => by
    simp only [sort_indices, init]
    rw [List.take_of_length_le (by rw [List.length_range]),
      List.drop_of_length_le (by rw [List.length_range]), List.append_nil]
  refine ⟨fun e => by rw [hlen e]; omega, fun e => ?_, fun e e' => ?_, ?_⟩
  · rw [hwhole e, hshape e]
    exact hsorts primitives e _
  · rw [hwhole e, hwhole e']
    exact (hperm e).trans (hperm e').symm
  · rw [hwhole 0]
    exact (hperm 0).nodup_iff.mpr (List.nodup_range _)

theorem leaf_covering {α : Type} (s : Tree α) (hr : s.Ranged) (k : Nat) (h1 : s.first ≤ k)
    (h2 : k < s.first + s.count) : ∃ lf ∈ s.leaves, lf.1 ≤ k ∧ k < lf.1 + lf.2 := by
  have hcount := tiles_count _ _ _ (tiles_of_ranged s hr) k
  rw [if_pos ⟨h1, h2⟩] at hcount
  have hpos : 0 < s.leaves.countP (fun lf => decide (lf.1 ≤ k ∧ k < lf.1 + lf.2)) := by omega
  obtain ⟨lf, hlf, hp⟩ := List.countP_pos_iff.mp hpos
  exact ⟨lf, hlf, of_decide_eq_true hp⟩

/-- C8: for every interior node that the build produces, with recorded axis `a`
and split value `s` - the centre along `a` of `primitives[indices[a][split_index]]`,
read at line 50 and carried by the tree - every primitive in the left child's
subtree has `center[a] ≤ s`, every primitive in the right child's subtree has
`center[a] ≥ s`, and `s` is attained in the right subtree. The primitives of a
subtree are those whose indices `bvh.indices` holds in the leaf ranges of the
subtree. `std::sort` sorts each index array by centre along its own axis,
`split_indices` partitions stably into the left and right sets of the chosen axis,
and `partition_sah` splits strictly inside its range. -/
theorem split_order {α : Type} [LinearOrder α] [BoundedOrder α]
    (ext : Collaborators α) (primitives : List (Primitive α))
    (max_primitives_in_leaf fuel c1 c2 : Nat) (fresh : Nat → BVHNode α)
    (hpart : PartitionInRange ext) (hsplit : SplitPermutes ext) (hstable : SplitStable ext)
    (hsort : SortPermutes ext) (hsorts : SortSorts ext)
    (hN : 1 ≤ primitives.length) (hfuel : primitives.length ≤ fuel) :
    ∃ (st : BuildState α) (t : Tree α),
      build_bvh_impl ext primitives primitives.length max_primitives_in_leaf fuel
        (init c1 c2 fresh primitives.length) = .ok st ∧
      Layout ext primitives max_primitives_in_leaf (init c1 c2 fresh primitives.length) st t ∧
      ∀ (slot first count : Nat) (aabb : AABB α) (axis : Fin 3) (split : α) (l r : Tree α),
        Tree.interior slot first count aabb axis split l r ∈ t.subtrees →
        (∃ nd, st.nodes[slot]? = some nd ∧ nd.split_axis = (axis.val : Int)) ∧
        (∀ lf ∈ l.leaves, ∀ k, lf.1 ≤ k → k < lf.1 + lf.2 →
          center_along primitives axis ((st.indices 0).getD k 0) ≤ split) ∧
        (∀ lf ∈ r.leaves, ∀ k, lf.1 ≤ k → k < lf.1 + lf.2 →
          split ≤ center_along primitives axis ((st.indices 0).getD k 0)) ∧
        (∃ lf ∈ r.leaves, ∃ k, lf.1 ≤ k ∧ k < lf.1 + lf.2 ∧
          center_along primitives axis ((st.indices 0).getD k 0) = split) := by
  obtain ⟨st, t, hrun, hlay, -, -, -, -⟩ := impl_layout ext hpart primitives
    max_primitives_in_leaf fuel (init c1 c2 fresh primitives.length) hN hfuel
    (init_nodes_length c1 c2 fresh primitives.length)
  obtain ⟨hb, hstored, hslot, hfirst, hcount⟩ := hlay
  have hcons := init_sorted_consistent ext hsort hsorts primitives c1 c2 fresh
  have hsep := builds_separated hpart hsplit hstable hb (by omega)
    (by rw [hfirst, hcount]; exact hcons)
  have hranged := builds_ranged hpart hb (by omega)
  refine ⟨st, t, hrun, ⟨hb, hstored, hslot, hfirst, hcount⟩, ?_⟩
  intro slot first count aabb axis split l r hmem
  obtain ⟨hv1, hv2, k, hk1, hk2, hk3⟩ := hsep slot first count aabb axis split l r hmem
  obtain ⟨hl, hr⟩ := subtrees_children t slot first count aabb axis split l r hmem
  obtain ⟨hlr, -, -⟩ := ranged_subtrees t hranged l hl
  obtain ⟨hrr, -, -⟩ := ranged_subtrees t hranged r hr
  have hst := stored_subtrees st.nodes t hstored _ hmem
  simp only [Tree.Stored] at hst
  refine ⟨⟨_, hst.1, split_axis_of_encoded _ axis rfl⟩, ?_, ?_, ?_⟩
  · intro lf hlf j hj1 hj2
    have := (tiles_bounds _ _ _ (tiles_of_ranged l hlr)).2 lf hlf
    exact hv1 j (by omega) (by omega)
  · intro lf hlf j hj1 hj2
    have := (tiles_bounds _ _ _ (tiles_of_ranged r hrr)).2 lf hlf
    exact hv2 j (by omega) (by omega)
  · obtain ⟨lf, hlf, h1, h2⟩ := leaf_covering r hrr k hk1 hk2
    exact ⟨lf, hlf, k, h1, h2, hk3⟩

theorem slice_of_parts (a fl fr d : List Nat) :
    slice (a ++ (fl ++ fr) ++ d) a.length fl.length = fl ∧
    slice (a ++ (fl ++ fr) ++ d) (a.length + fl.length) fr.length = fr := by
  constructor
  · simp only [slice]
    rw [List.append_assoc, List.drop_left, List.append_assoc, List.take_left]
  · simp only [slice]
    have h : a ++ (fl ++ fr) ++ d = (a ++ fl) ++ (fr ++ d) := by simp
    rw [h, List.drop_left' (by rw [List.length_append]), List.take_left]

theorem filter_members (xs left right : List Nat) (hperm : xs.Perm (left ++ right))
    (hnodup : (left ++ right).Nodup) :
    (xs.filter (fun i => decide (i ∈ left))).Perm left ∧
    (xs.filter (fun i => !decide (i ∈ left))).Perm right := by
  have hdisj := (List.nodup_append.mp hnodup).2.2
  constructor
  · refine (hperm.filter _).trans ?_
    rw [List.filter_append]
    have h1 : left.filter (fun i => decide (i ∈ left)) = left :=
      List.filter_eq_self.mpr (fun a ha => by simpa using ha)
    have h2 : right.filter (fun i => decide (i ∈ left)) = [] :=
      List.filter_eq_nil_iff.mpr (fun a ha => by
        simp only [decide_eq_true_eq]
        exact fun hl => hdisj hl ha)
    rw [h1, h2, List.append_nil]
  · refine (hperm.filter _).trans ?_
    rw [List.filter_append]
    have h1 : left.filter (fun i => !decide (i ∈ left)) = [] :=
      List.filter_eq_nil_iff.mpr (fun a ha => by simpa using ha)
    have h2 : right.filter (fun i => !decide (i ∈ left)) = right :=
      List.filter_eq_self.mpr (fun a ha => by
        simp only [Bool.not_eq_true', decide_eq_false_iff_not]
        exact fun hl => hdisj hl ha)
    rw [h1, h2, List.nil_append]

theorem stable_split_stable (α : Type) [LinearOrder α] [BoundedOrder α] :
    SplitStable (reference_collaborators α) := by
  intro primitives indices f c ax s d hcons h1 h2
  obtain ⟨hlen, hsorted, hperm, hnodup⟩ := hcons
  have hc : c = (s - f) + (f + c - s) := by omega
  have hfs : f + (s - f) = s := by omega
  have hparts : ∀ e : Fin 3, slice (indices e) f c =
      slice (indices e) f (s - f) ++ slice (indices e) s (f + c - s) := fun e => by
    conv_lhs => rw [hc]
    rw [slice_add, hfs]
  simp only [reference_collaborators, stable_split_indices]
  by_cases hd : d = ax
  · subst hd
    simp only [if_true]
    refine ⟨?_, ?_, List.Perm.refl _, List.Perm.refl _⟩
    · rw [hparts d]
      exact List.sublist_append_left _ _
    · rw [hparts d]
      exact List.sublist_append_right _ _
  · simp only [if_neg hd]
    have hnd : (slice (indices ax) f (s - f) ++ slice (indices ax) s (f + c - s)).Nodup := by
      rw [← hparts ax]
      exact (hperm ax 0).nodup_iff.mpr hnodup
    have hp : (slice (indices d) f c).Perm
        (slice (indices ax) f (s - f) ++ slice (indices ax) s (f + c - s)) := by
      rw [← hparts ax]
      exact hperm d ax
    obtain ⟨hfl, hfr⟩ := filter_members _ _ _ hp hnd
    have hla : ((indices d).take f).length = f := by
      rw [List.length_take]
      have := hlen d
      omega
    have hll : ((slice (indices d) f c).filter
        (fun i => decide (i ∈ slice (indices ax) f (s - f)))).length = s - f := by
      rw [hfl.length_eq, slice_length _ _ _ (by have := hlen ax; omega)]
    have hlr : ((slice (indices d) f c).filter
        (fun i => !decide (i ∈ slice (indices ax) f (s - f)))).length = f + c - s := by
      rw [hfr.length_eq, slice_length _ _ _ (by have := hlen ax; omega)]
    obtain ⟨e1, e2⟩ := slice_of_parts ((indices d).take f)
      ((slice (indices d) f c).filter (fun i => decide (i ∈ slice (indices ax) f (s - f))))
      ((slice (indices d) f c).filter (fun i => !decide (i ∈ slice (indices ax) f (s - f))))
      ((indices d).drop (f + c))
    rw [hla, hll] at e1
    rw [hla, hll, hfs, hlr] at e2
    rw [e1, e2]
    exact ⟨List.filter_sublist _, List.filter_sublist _, hfl, hfr⟩

theorem insertion_sort_sorts (α : Type) [LinearOrder α] [BoundedOrder α] :
    SortSorts (reference_collaborators α) := by
  intro primitives d xs
  haveI : IsTotal Nat (fun a b => center_less primitives d b a = false) :=
    ⟨fun a b => by
      simp only [center_less, decide_eq_false_iff_not, not_lt]
      exact le_total _ _⟩
  haveI : IsTrans Nat (fun a b => center_less primitives d b a = false) :=
    ⟨fun a b c => by
      simp only [center_less, decide_eq_false_iff_not, not_lt]
      exact le_trans⟩
  have h := List.sorted_insertionSort (fun a b => center_less primitives d b a = false) xs
  refine List.Pairwise.imp ?_ h
  intro a b hab
  simpa [center_less, center_along] using hab

theorem split_order_witness :
    PartitionInRange (reference_collaborators ExtRat) ∧
    SplitPermutes (reference_collaborators ExtRat) ∧
    SplitStable (reference_collaborators ExtRat) ∧
    SortPermutes (reference_collaborators ExtRat) ∧
    SortSorts (reference_collaborators ExtRat) ∧
    1 ≤ three_boxes.length ∧ three_boxes.length ≤ 3 ∧
    ∃ (st : BuildState ExtRat) (t : Tree ExtRat),
      build_bvh_impl (reference_collaborators ExtRat) three_boxes three_boxes.length INT_MAX 3
        (init 0 0 (fun _ => stale_node) three_boxes.length) = .ok st ∧
      Layout (reference_collaborators ExtRat) three_boxes INT_MAX
        (init 0 0 (fun _ => stale_node) three_boxes.length) st t ∧
      ∀ (slot first count : Nat) (aabb : AABB ExtRat) (axis : Fin 3) (split : ExtRat)
        (l r : Tree ExtRat),
        Tree.interior slot first count aabb axis split l r ∈ t.subtrees →
        (∃ nd, st.nodes[slot]? = some nd ∧ nd.split_axis = (axis.val : Int)) ∧
        (∀ lf ∈ l.leaves, ∀ k, lf.1 ≤ k → k < lf.1 + lf.2 →
          center_along three_boxes axis ((st.indices 0).getD k 0) ≤ split) ∧
        (∀ lf ∈ r.leaves, ∀ k, lf.1 ≤ k → k < lf.1 + lf.2 →
          split ≤ center_along three_boxes axis ((st.indices 0).getD k 0)) ∧
        (∃ lf ∈ r.leaves, ∃ k, lf.1 ≤ k ∧ k < lf.1 + lf.2 ∧
          center_along three_boxes axis ((st.indices 0).getD k 0) = split) :=
  ⟨middle_split_in_range ExtRat, stable_split_permutes ExtRat, stable_split_stable ExtRat,
    insertion_sort_permutes ExtRat, insertion_sort_sorts ExtRat, by decide, by decide,
    split_order (reference_collaborators ExtRat) three_boxes INT_MAX 3 0 0
      (fun _ => stale_node) (middle_split_in_range ExtRat) (stable_split_permutes ExtRat)
      (stable_split_stable ExtRat) (insertion_sort_permutes ExtRat) (insertion_sort_sorts ExtRat)
      (by decide) (by decide)⟩

/-! ## The assertion and the arena -/

/-- Every reservation that a run logs hands out a pair of slots between the
allocator values before and after the run, to the node of the run or to a node
the run allocated. -/
theorem builds_reserve_events {α : Type} [LinearOrder α] [BoundedOrder α]
    {ext : Collaborators α} {primitives : List (Primitive α)} {m : Nat}
    (hpart : PartitionInRange ext)
    {t : Tree α} {i i' : Indices} {n n' : Nat} {g g' : List Event}
    (h : Builds ext primitives m t i n g i' n' g') (hpos : 1 ≤ t.count) :
    ∀ node left, Event.reserve node left ∈ g' → Event.reserve node left ∈ g ∨
      (n ≤ left ∧ left + 2 ≤ n' ∧ (node = t.slot ∨ (n ≤ node ∧ node < n'))) := by
  induction h with
  | leaf node first_index indices node_index log =>
    intro nd left hmem
    exact Or.inl hmem
  | sah_leaf node first_index index_count indices node_index log hcount hstop =>
    intro nd left hmem
    simp only [List.append_assoc, List.mem_append, List.mem_cons, List.mem_singleton,
      Event.reserve.injEq, List.not_mem_nil, or_false] at hmem
    rcases hmem with hmem | hmem | hmem
    · exact Or.inl hmem
    · right
      obtain ⟨h1, h2⟩ := hmem
      subst h1 h2
      exact ⟨Nat.le_refl _, Nat.le_refl _, Or.inl rfl⟩
    · cases hmem
  | interior node first_index index_count indices node_index log l r il ir nl nr gl gr hcount hgo
      hl hr hls hrs hlf hlc hrf hrc ihl ihr =>
    have hpos : 1 ≤ index_count := hpos
    have hs := hpart primitives indices first_index index_count (by omega)
    have hnl := builds_node_index hpart hl (by omega)
    have hnr := builds_node_index hpart hr (by omega)
    intro nd left hmem
    rcases ihr (by omega) nd left hmem with hin | ⟨h1, h2, h3⟩
    · rcases ihl (by omega) nd left hin with hin' | ⟨h1, h2, h3⟩
      · simp only [List.mem_append, List.mem_singleton, Event.reserve.injEq] at hin'
        rcases hin' with hin' | ⟨e1, e2⟩
        · exact Or.inl hin'
        · right
          subst e1 e2
          exact ⟨Nat.le_refl _, by omega, Or.inl rfl⟩
      · right
        refine ⟨by omega, by omega, Or.inr ?_⟩
        rcases h3 with h3 | h3 <;> omega
    · right
      refine ⟨by omega, h2, Or.inr ?_⟩
      rcases h3 with h3 | h3 <;> omega

/-- C11: for every `N ≥ 1`, every `max_primitives_in_leaf` and every
`partition_sah` that splits strictly inside its range, the build returns, so the
assertion `node_index <= 2 * primitive_count` at the end of `build_bvh_impl` holds
and no store left the arena - also when SAH termination turns nodes into leaves
after their two child slots were reserved: every node the recursion writes sits in
a slot of the `2N`-slot arena, and every pair `left`, `left + 1` that was reserved,
for an interior node or for a late leaf, lies below `node_index`, hence inside the
arena. -/
theorem assertion_holds {α : Type} [LinearOrder α] [BoundedOrder α]
    (ext : Collaborators α) (primitives : List (Primitive α))
    (max_primitives_in_leaf fuel c1 c2 : Nat) (fresh : Nat → BVHNode α)
    (hpart : PartitionInRange ext) (hN : 1 ≤ primitives.length)
    (hfuel : primitives.length ≤ fuel) :
    ∃ (st : BuildState α) (t : Tree α),
      build_bvh_impl ext primitives primitives.length max_primitives_in_leaf fuel
        (init c1 c2 fresh primitives.length) = .ok st ∧
      Layout ext primitives max_primitives_in_leaf (init c1 c2 fresh primitives.length) st t ∧
      st.node_index ≤ 2 * primitives.length ∧ st.nodes.length = 2 * primitives.length ∧
      (∀ s ∈ t.subtrees, s.slot < st.nodes.length) ∧
      (∀ node left, Event.reserve node left ∈ st.log →
        node < st.nodes.length ∧ 2 ≤ left ∧ left + 1 < st.node_index ∧
        left + 1 < st.nodes.length) := by
  obtain ⟨st, t, hrun, hlay, -, -, hlen, -⟩ := impl_layout ext hpart primitives
    max_primitives_in_leaf fuel (init c1 c2 fresh primitives.length) hN hfuel
    (init_nodes_length c1 c2 fresh primitives.length)
  obtain ⟨hb, hstored, hslot, hfirst, hcount⟩ := hlay
  rw [init_nodes_length] at hlen
  have hni := builds_node_index hpart hb (by omega)
  have hslots := builds_slots hpart hb (by omega)
  have hevents := builds_reserve_events hpart hb (by omega)
  refine ⟨st, t, hrun, ⟨hb, hstored, hslot, hfirst, hcount⟩, by omega, hlen, ?_, ?_⟩
  · intro s hs
    rcases hslots s hs with h | h <;> omega
  · intro node left hmem
    rcases hevents node left hmem with h | ⟨h1, h2, h3⟩
    · simp [init] at h
    · refine ⟨?_, h1, by omega, by omega⟩
      rcases h3 with h3 | h3 <;> omega

theorem stopping_split_in_range (α : Type) : PartitionInRange (stopping_collaborators α) := by
  intro primitives indices first_index index_count h
  simp only [stopping_collaborators, middle_split]
  omega

theorem assertion_holds_witness :
    PartitionInRange (stopping_collaborators ExtRat) ∧ 1 ≤ three_boxes.length ∧
    three_boxes.length ≤ 3 ∧
    ∃ (st : BuildState ExtRat) (t : Tree ExtRat),
      build_bvh_impl (stopping_collaborators ExtRat) three_boxes three_boxes.length 2 3
        (init 0 0 (fun _ => stale_node) three_boxes.length) = .ok st ∧
      Layout (stopping_collaborators ExtRat) three_boxes 2
        (init 0 0 (fun _ => stale_node) three_boxes.length) st t ∧
      st.node_index ≤ 2 * three_boxes.length ∧ st.nodes.length = 2 * three_boxes.length ∧
      (∀ s ∈ t.subtrees, s.slot < st.nodes.length) ∧
      (∀ node left, Event.reserve node left ∈ st.log →
        node < st.nodes.length ∧ 2 ≤ left ∧ left + 1 < st.node_index ∧
        left + 1 < st.nodes.length) :=
  ⟨stopping_split_in_range ExtRat, by decide, by decide,
    assertion_holds (stopping_collaborators ExtRat) three_boxes 2 3 0 0
      (fun _ => stale_node) (stopping_split_in_range ExtRat) (by decide) (by decide)⟩

/-! ## Termination -/

/-- A run that returns with some recursion depth returns the same state with any
larger depth. -/
theorem recursive_fuel_mono {α : Type} [LinearOrder α] [BoundedOrder α] (ext : Collaborators α)
    (primitives : List (Primitive α)) (m : Nat) :
    ∀ (fuel fuel' node first_index index_count : Nat) (st st' : BuildState α),
      fuel ≤ fuel' →
      build_bvh_recursive ext primitives m fuel node first_index index_count st = .ok st' →
      build_bvh_recursive ext primitives m fuel' node first_index index_count st = .ok st' := by
  intro fuel
  induction fuel with
  | zero =>
    intro fuel' node first_index index_count st st' _ h
    simp [build_bvh_recursive] at h
  | succ fuel ih =>
    intro fuel' node first_index index_count st st' hle h
    obtain ⟨k, rfl⟩ : ∃ k, fuel' = k + 1 := ⟨fuel' - 1, by omega⟩
    cases hnd : st.nodes[node]? with
    | none => simp [build_bvh_recursive, hnd] at h
    | some nd =>
      by_cases hone : index_count = 1
      · subst hone
        rw [recursive_leaf ext primitives m fuel node first_index st nd hnd] at h
        rw [recursive_leaf ext primitives m k node first_index st nd hnd]
        exact h
      · by_cases hstop : sah_terminates m index_count
            (ext.partition_sah primitives st.indices first_index index_count).split_cost
            (ext.surface_area (calculate_bounds primitives (st.indices 0) first_index
              (first_index + index_count)) * (index_count : ℚ)) = true
        · rw [recursive_sah_leaf ext primitives m fuel node first_index index_count st nd hnd
            hone hstop] at h
          rw [recursive_sah_leaf ext primitives m k node first_index index_count st nd hnd
            hone hstop]
          exact h
        · have hgo := Bool.eq_false_iff.mpr hstop
          rw [recursive_interior ext primitives m fuel node first_index index_count st nd hnd
            hone hgo] at h
          rw [recursive_interior ext primitives m k node first_index index_count st nd hnd
            hone hgo]
          cases h1 : build_bvh_recursive ext primitives m fuel st.node_index first_index
              ((ext.partition_sah primitives st.indices first_index index_count).split_index -
                first_index)
              (split_state ext primitives st node first_index index_count) with
          | error e => simp [h1] at h
          | ok st1 =>
            rw [h1] at h
            rw [ih k _ _ _ _ _ (by omega) h1]
            simp only [] at h ⊢
            cases h2 : st1.nodes[node]? with
            | none => simp [h2] at h
            | some nd1 =>
              rw [h2] at h
              simp only [] at h ⊢
              exact ih k _ _ _ _ _ (by omega) h

/-- Both recursive calls of every interior node of a run receive a range that is
not empty and strictly shorter than the range of the node. -/
theorem builds_shrinks {α : Type} [LinearOrder α] [BoundedOrder α] {ext : Collaborators α}
    {primitives : List (Primitive α)} {m : Nat} (hpart : PartitionInRange ext)
    {t : Tree α} {i i' : Indices} {n n' : Nat} {g g' : List Event}
    (h : Builds ext primitives m t i n g i' n' g') (hpos : 1 ≤ t.count) :
    ∀ (slot first count : Nat) (aabb : AABB α) (axis : Fin 3) (split : α) (l r : Tree α),
      Tree.interior slot first count aabb axis split l r ∈ t.subtrees →
      1 ≤ l.count ∧ l.count < count ∧ 1 ≤ r.count ∧ r.count < count ∧
      l.count + r.count = count := by
  have hranged := builds_ranged hpart h hpos
  intro slot first count aabb axis split l r hmem
  obtain ⟨hr, -, -⟩ := ranged_subtrees t hranged _ hmem
  simp only [Tree.Ranged] at hr
  obtain ⟨-, -, h3, h4, h5⟩ := hr
  have hl := ranged_count_pos l h4
  have hr := ranged_count_pos r h5
  omega

/-- A run during which the SAH termination branch is not taken emits leaves of
one primitive only. -/
theorem builds_without_sah {α : Type} [LinearOrder α] [BoundedOrder α] {ext : Collaborators α}
    {primitives : List (Primitive α)} {m : Nat}
    {t : Tree α} {i i' : Indices} {n n' : Nat} {g g' : List Event}
    (h : Builds ext primitives m t i n g i' n' g') (hnone : sah_leaves g' = sah_leaves g) :
    ∀ s ∈ t.subtrees, s.is_leaf = true → s.count = 1 := by
  induction h with
  | leaf node first_index indices node_index log =>
    intro s hs _
    simp only [Tree.subtrees, List.mem_singleton] at hs
    subst hs
    rfl
  | sah_leaf node first_index index_count indices node_index log hcount hstop =>
    rw [sah_leaves_append, sah_leaves_append] at hnone
    simp only [sah_leaves] at hnone
    omega
  | interior node first_index index_count indices node_index log l r il ir nl nr gl gr hcount hgo
      hl hr hls hrs hlf hlc hrf hrc ihl ihr =>
    obtain ⟨k1, a1, -, hg1, -⟩ := builds_reserved hl
    obtain ⟨k2, a2, -, hg2, -⟩ := builds_reserved hr
    have e1 : sah_leaves gl = sah_leaves log + sah_leaves a1 := by
      rw [hg1, sah_leaves_append, sah_leaves_append]
      simp only [sah_leaves]
      omega
    have e2 : sah_leaves gr = sah_leaves gl + sah_leaves a2 := by
      rw [hg2, sah_leaves_append]
    have e3 : sah_leaves (log ++ [Event.reserve node node_index]) = sah_leaves log := by
      rw [sah_leaves_append]
      simp only [sah_leaves]
      omega
    intro s hmem hleaf
    simp only [Tree.subtrees, List.mem_cons, List.mem_append] at hmem
    rcases hmem with hroot | hleft | hright
    · subst hroot
      simp [Tree.is_leaf] at hleaf
    · exact ihl (by omega) s hleft hleaf
    · exact ihr (by omega) s hright hleaf

/-- C13: for every range of `N ≥ 1` entries and every `max_primitives_in_leaf`,
`build_bvh_recursive` terminates, provided `partition_sah` splits strictly inside
its range: called on an arena with room for the range, it returns with a recursion
depth of `index_count`, and with every larger depth it returns the same state.
Both recursive calls of every interior node receive a range size
`n_left`, `n_right` with `1 ≤ size < index_count` (and `n_left + n_right =
index_count`), which is why the depth `index_count` suffices; and when the SAH
termination branch is never taken the recursion ends at ranges of size 1. -/
theorem recursion_terminates {α : Type} [LinearOrder α] [BoundedOrder α]
    (ext : Collaborators α) (primitives : List (Primitive α))
    (max_primitives_in_leaf node first_index index_count : Nat) (st : BuildState α)
    (hpart : PartitionInRange ext) (hN : 1 ≤ index_count)
    (hnode : node < st.nodes.length) (hbelow : node < st.node_index)
    (hroom : st.node_index + 2 * index_count ≤ st.nodes.length + 2) :
    ∃ (st' : BuildState α) (t : Tree α),
      (∀ fuel, index_count ≤ fuel →
        build_bvh_recursive ext primitives max_primitives_in_leaf fuel node first_index
          index_count st = .ok st') ∧
      Builds ext primitives max_primitives_in_leaf t st.indices st.node_index st.log
        st'.indices st'.node_index st'.log ∧
      t.slot = node ∧ t.first = first_index ∧ t.count = index_count ∧ t.Stored st'.nodes ∧
      (∀ (slot first count : Nat) (aabb : AABB α) (axis : Fin 3) (split : α) (l r : Tree α),
        Tree.interior slot first count aabb axis split l r ∈ t.subtrees →
        1 ≤ l.count ∧ l.count < count ∧ 1 ≤ r.count ∧ r.count < count ∧
        l.count + r.count = count) ∧
      (sah_leaves st'.log = sah_leaves st.log →
        ∀ s ∈ t.subtrees, s.is_leaf = true → s.count = 1) := by
  obtain ⟨st', t, hrun, hb, hslot, hfirst, hcount, hstored, -, -, -, -⟩ :=
    run_builds ext primitives max_primitives_in_leaf hpart index_count node first_index
      index_count st hN (Nat.le_refl _) hnode hbelow hroom
  refine ⟨st', t, ?_, hb, hslot, hfirst, hcount, hstored, ?_, ?_⟩
  · intro fuel hfuel
    exact recursive_fuel_mono ext primitives max_primitives_in_leaf index_count fuel node
      first_index index_count st st' hfuel hrun
  · exact builds_shrinks hpart hb (by omega)
  · exact builds_without_sah hb

theorem recursion_terminates_witness :
    PartitionInRange (reference_collaborators ExtRat) ∧ 1 ≤ 3 ∧
    0 < root_call_state.nodes.length ∧ 0 < root_call_state.node_index ∧
    root_call_state.node_index + 2 * 3 ≤ root_call_state.nodes.length + 2 ∧
    ∃ (st' : BuildState ExtRat) (t : Tree ExtRat),
      (∀ fuel, 3 ≤ fuel →
        build_bvh_recursive (reference_collaborators ExtRat) coincident_boxes INT_MAX fuel 0 0
          3 root_call_state = .ok st') ∧
      Builds (reference_collaborators ExtRat) coincident_boxes INT_MAX t
        root_call_state.indices root_call_state.node_index root_call_state.log
        st'.indices st'.node_index st'.log ∧
      t.slot = 0 ∧ t.first = 0 ∧ t.count = 3 ∧ t.Stored st'.nodes ∧
      (∀ (slot first count : Nat) (aabb : AABB ExtRat) (axis : Fin 3) (split : ExtRat)
        (l r : Tree ExtRat),
        Tree.interior slot first count aabb axis split l r ∈ t.subtrees →
        1 ≤ l.count ∧ l.count < count ∧ 1 ≤ r.count ∧ r.count < count ∧
        l.count + r.count = count) ∧
      (sah_leaves st'.log = sah_leaves root_call_state.log →
        ∀ s ∈ t.subtrees, s.is_leaf = true → s.count = 1) :=
  ⟨middle_split_in_range ExtRat, by decide, by decide, by decide, by decide,
    recursion_terminates (reference_collaborators ExtRat) coincident_boxes INT_MAX 0 0 3
      root_call_state (middle_split_in_range ExtRat) (by decide) (by decide) (by decide)
      (by decide)⟩

/-! ## Mesh mode: the arena is exactly filled -/

/-- In mesh mode the allocator advances by exactly two slots per primitive beyond
the first, and every slot it hands out becomes a node of the tree. -/
theorem builds_mesh_exact {α : Type} [LinearOrder α] [BoundedOrder α] {ext : Collaborators α}
    {primitives : List (Primitive α)} {m : Nat} (hpart : PartitionInRange ext) (hm : m ≤ 1)
    {t : Tree α} {i i' : Indices} {n n' : Nat} {g g' : List Event}
    (h : Builds ext primitives m t i n g i' n' g') (hpos : 1 ≤ t.count) :
    n' + 2 = n + 2 * t.count ∧ (∀ j, n ≤ j → j < n' → ∃ s ∈ t.subtrees, s.slot = j) ∧
    t.subtrees.countP (fun s => !s.is_leaf) + 1 = t.count := by
  induction h with
  | leaf node first_index indices node_index log =>
    refine ⟨by simp only [Tree.count], fun j h1 h2 => by omega, ?_⟩
    simp [Tree.subtrees, Tree.is_leaf, Tree.count]
  | sah_leaf node first_index index_count indices node_index log hcount hstop =>
    have := sah_terminates_fits _ _ _ _ hstop
    have hpos : 1 ≤ index_count := hpos
    omega
  | interior node first_index index_count indices node_index log l r il ir nl nr gl gr hcount hgo
      hl hr hls hrs hlf hlc hrf hrc ihl ihr =>
    have hpos : 1 ≤ index_count := hpos
    have hs := hpart primitives indices first_index index_count (by omega)
    obtain ⟨h1, h2, h3⟩ := ihl (by omega)
    obtain ⟨h4, h5, h6⟩ := ihr (by omega)
    refine ⟨?_, ?_, ?_⟩
    · show nr + 2 = node_index + 2 * index_count
      omega
    · intro j hj1 hj2
      by_cases e1 : j = node_index
      · exact ⟨l, by simp [Tree.subtrees, subtree_self], by omega⟩
      · by_cases e2 : j = node_index + 1
        · exact ⟨r, by simp [Tree.subtrees, subtree_self], by omega⟩
        · by_cases e3 : j < nl
          · obtain ⟨s, hs1, hs2⟩ := h2 j (by omega) e3
            exact ⟨s, by simp [Tree.subtrees, hs1], hs2⟩
          · obtain ⟨s, hs1, hs2⟩ := h5 j (by omega) hj2
            exact ⟨s, by simp [Tree.subtrees, hs1], hs2⟩
    · have e : ∀ (a : AABB α) (d : Fin 3) (v : α),
          (Tree.subtrees (Tree.interior node first_index index_count a d v l r)).countP
            (fun s => !s.is_leaf) =
          l.subtrees.countP (fun s => !s.is_leaf) + r.subtrees.countP (fun s => !s.is_leaf) +
            1 := by
        intro a d v
        rw [Tree.subtrees, List.countP_cons, List.countP_append]
        rfl
      rw [e]
      show _ = index_count
      omega

/-- C15: in mesh mode (`max_primitives_in_leaf = 1`), for every `N ≥ 1` (and
`partition_sah` splitting strictly inside its range) the `node_count` stored by the
build is exactly `2N`, the size of the arena: the allocator starts at 2 and
advances by 2 once for each of the `N - 1` interior nodes. Arena slot 1 is never
used - it holds what it held after `init` and is the slot of no node - and every
other slot of the arena is the slot of a node of the tree. -/
theorem mesh_arena_filled {α : Type} [LinearOrder α] [BoundedOrder α]
    (ext : Collaborators α) (meshes : List (Primitive α))
    (fuel c1 c2 : Nat) (fresh : Nat → BVHNode α)
    (hpart : PartitionInRange ext) (hN : 1 ≤ meshes.length) (hfuel : meshes.length ≤ fuel) :
    ∃ (st : BuildState α) (t : Tree α),
      build_meshes ext meshes meshes.length fuel (init c1 c2 fresh meshes.length) = .ok st ∧
      Layout ext meshes 1 (init c1 c2 fresh meshes.length) st t ∧
      st.node_count = 2 * meshes.length ∧ st.nodes.length = 2 * meshes.length ∧
      (reserved st.log).length + 1 = meshes.length ∧
      t.subtrees.countP (fun s => !s.is_leaf) + 1 = meshes.length ∧
      st.nodes[1]? = (init c1 c2 fresh meshes.length).nodes[1]? ∧
      (∀ s ∈ t.subtrees, s.slot ≠ 1) ∧
      (∀ j, j < 2 * meshes.length → j ≠ 1 → ∃ s ∈ t.subtrees, s.slot = j) := by
  obtain ⟨st, t, hrun, hlay, hnc, -, hlen, hframe⟩ := impl_layout ext hpart meshes
    1 fuel (init c1 c2 fresh meshes.length) hN hfuel
    (init_nodes_length c1 c2 fresh meshes.length)
  obtain ⟨hb, hstored, hslot, hfirst, hcount⟩ := hlay
  rw [init_nodes_length] at hlen
  obtain ⟨h1, h2, h3⟩ := builds_mesh_exact hpart (Nat.le_refl 1) hb (by omega)
  obtain ⟨k, added, hk, hg, hres⟩ := builds_reserved hb
  have hslots := builds_slots hpart hb (by omega)
  refine ⟨st, t, hrun, ⟨hb, hstored, hslot, hfirst, hcount⟩, by omega, hlen, ?_, by omega,
    hframe 1 (by omega) (Or.inl (by omega)), ?_, ?_⟩
  · rw [hg, reserved_append, hres]
    simp only [init, reserved, List.nil_append, List.length_map, List.length_range]
    omega
  · intro s hs
    rcases hslots s hs with h | h <;> omega
  · intro j hj1 hj2
    by_cases hj0 : j = 0
    · exact ⟨t, subtree_self t, by omega⟩
    · exact h2 j (by omega) (by omega)

theorem mesh_arena_filled_witness :
    PartitionInRange (reference_collaborators ExtRat) ∧ 1 ≤ three_boxes.length ∧
    three_boxes.length ≤ 3 ∧
    ∃ (st : BuildState ExtRat) (t : Tree ExtRat),
      build_meshes (reference_collaborators ExtRat) three_boxes three_boxes.length 3
        (init 0 0 (fun _ => stale_node) three_boxes.length) = .ok st ∧
      Layout (reference_collaborators ExtRat) three_boxes 1
        (init 0 0 (fun _ => stale_node) three_boxes.length) st t ∧
      st.node_count = 2 * three_boxes.length ∧ st.nodes.length = 2 * three_boxes.length ∧
      (reserved st.log).length + 1 = three_boxes.length ∧
      t.subtrees.countP (fun s => !s.is_leaf) + 1 = three_boxes.length ∧
      st.nodes[1]? = (init 0 0 (fun _ => stale_node) three_boxes.length).nodes[1]? ∧
      (∀ s ∈ t.subtrees, s.slot ≠ 1) ∧
      (∀ j, j < 2 * three_boxes.length → j ≠ 1 → ∃ s ∈ t.subtrees, s.slot = j) :=
  ⟨middle_split_in_range ExtRat, by decide, by decide,
    mesh_arena_filled (reference_collaborators ExtRat) three_boxes 3 0 0
      (fun _ => stale_node) (middle_split_in_range ExtRat) (by decide) (by decide)⟩

end BVHBuilder

/-! ## Triangles -/

namespace Renderer

open BVHBuilder

theorem mean_between (a b c : ℚ) :
    min (min a b) c ≤ (a + b + c) / 3 ∧ (a + b + c) / 3 ≤ max (max a b) c := by
  have h1 : min (min a b) c ≤ a := le_trans (min_le_left _ _) (min_le_left _ _)
  have h2 : min (min a b) c ≤ b := le_trans (min_le_left _ _) (min_le_right _ _)
  have h3 : min (min a b) c ≤ c := min_le_right _ _
  have h4 : a ≤ max (max a b) c := le_trans (le_max_left _ _) (le_max_left _ _)
  have h5 : b ≤ max (max a b) c := le_trans (le_max_right _ _) (le_max_left _ _)
  have h6 : c ≤ max (max a b) c := le_max_right _ _
  constructor <;> linarith

theorem lift_min3 (a b c : ℚ) :
    min (min (min (⊤ : ExtRat) (a : ℚ)) (b : ℚ)) (c : ℚ) = ((min (min a b) c : ℚ) : ExtRat) := by
  rw [min_eq_right (le_top : ((a : ℚ) : ExtRat) ≤ ⊤)]
  simp only [WithBot.coe_min, WithTop.coe_min]

theorem lift_max3 (a b c : ℚ) :
    max (max (max (⊥ : ExtRat) (a : ℚ)) (b : ℚ)) (c : ℚ) = ((max (max a b) c : ℚ) : ExtRat) := by
  rw [max_eq_right (bot_le : (⊥ : ExtRat) ≤ ((a : ℚ) : ExtRat))]
  simp only [WithBot.coe_max, WithTop.coe_max]

theorem get_aabb_eq (t : Triangle) :
    t.get_aabb =
      { min := lift ⟨min (min t.position_0.x t.position_1.x) t.position_2.x,
                     min (min t.position_0.y t.position_1.y) t.position_2.y,
                     min (min t.position_0.z t.position_1.z) t.position_2.z⟩,
        max := lift ⟨max (max t.position_0.x t.position_1.x) t.position_2.x,
                     max (max t.position_0.y t.position_1.y) t.position_2.y,
                     max (max t.position_0.z t.position_1.z) t.position_2.z⟩ } := by
  simp only [Triangle.get_aabb, from_points, List.foldl_cons, List.foldl_nil, enclose,
    AABB.empty, lift, lift_min3, lift_max3]

theorem lift_le_lift (a b : ℚ) : ((a : ℚ) : ExtRat) ≤ ((b : ℚ) : ExtRat) ↔ a ≤ b := by
  simp only [WithBot.coe_le_coe, WithTop.coe_le_coe]

/-- C12: for every triangle, in exact rational arithmetic,
`get_center() = (position_0 + position_1 + position_2) / 3` lies inside
`get_aabb()`, which is the componentwise min/max box of the three vertices: on each
axis `min(p0, p1, p2) ≤ center ≤ max(p0, p1, p2)`. -/
theorem center_in_aabb (t : Triangle) :
    t.get_center = ⟨(t.position_0.x + t.position_1.x + t.position_2.x) / 3,
                    (t.position_0.y + t.position_1.y + t.position_2.y) / 3,
                    (t.position_0.z + t.position_1.z + t.position_2.z) / 3⟩ ∧
    t.get_aabb =
      { min := lift ⟨min (min t.position_0.x t.position_1.x) t.position_2.x,
                     min (min t.position_0.y t.position_1.y) t.position_2.y,
                     min (min t.position_0.z t.position_1.z) t.position_2.z⟩,
        max := lift ⟨max (max t.position_0.x t.position_1.x) t.position_2.x,
                     max (max t.position_0.y t.position_1.y) t.position_2.y,
                     max (max t.position_0.z t.position_1.z) t.position_2.z⟩ } ∧
    contains t.get_aabb (lift t.get_center) ∧
    (min (min t.position_0.x t.position_1.x) t.position_2.x ≤ t.get_center.x ∧
      t.get_center.x ≤ max (max t.position_0.x t.position_1.x) t.position_2.x) ∧
    (min (min t.position_0.y t.position_1.y) t.position_2.y ≤ t.get_center.y ∧
      t.get_center.y ≤ max (max t.position_0.y t.position_1.y) t.position_2.y) ∧
    (min (min t.position_0.z t.position_1.z) t.position_2.z ≤ t.get_center.z ∧
      t.get_center.z ≤ max (max t.position_0.z t.position_1.z) t.position_2.z) := by
  have hx := mean_between t.position_0.x t.position_1.x t.position_2.x
  have hy := mean_between t.position_0.y t.position_1.y t.position_2.y
  have hz := mean_between t.position_0.z t.position_1.z t.position_2.z
  refine ⟨rfl, get_aabb_eq t, ?_, hx, hy, hz⟩
  rw [get_aabb_eq]
  simp only [contains, lift, lift_le_lift]
  exact ⟨hx, hy, hz⟩

/-- C14: for every triangle, whatever its positions and normals and whatever the
vector functions compute, in `fix_winding_order_if_needed` the flag
`some_normals_have_wrong_orientation` has the same value as
`all_normals_have_wrong_orientation`: both are the conjunction of the three
per-vertex tests `dot(geometric_normal, normal_i) < 0`. So the `ASSERT` of the else
branch never fails: the method always returns a triangle, and it returns the
triangle unchanged whenever the three tests do not all hold, also when exactly one
or two shading normals oppose the geometric normal. -/
theorem some_flag_is_all_flag (ops : VectorOps) (t : Triangle) :
    some_normals_have_wrong_orientation ops t = all_normals_have_wrong_orientation ops t ∧
    all_normals_have_wrong_orientation ops t =
      (opposes ops t t.normal_0 && opposes ops t t.normal_1 && opposes ops t t.normal_2) ∧
    (∃ t', t.fix_winding_order_if_needed ops = .ok t') ∧
    t.fix_winding_order_if_needed ops ≠ .error .some_normals_have_wrong_orientation ∧
    ((opposes ops t t.normal_0 && opposes ops t t.normal_1 && opposes ops t t.normal_2) = false →
      some_normals_have_wrong_orientation ops t = false ∧
      t.fix_winding_order_if_needed ops = .ok t) := by
  refine ⟨rfl, rfl, ?_, ?_, ?_⟩
  · unfold Triangle.fix_winding_order_if_needed
    by_cases h : all_normals_have_wrong_orientation ops t = true
    · rw [if_pos h]
      exact ⟨_, rfl⟩
    · have h2 : ¬ some_normals_have_wrong_orientation ops t = true := h
      rw [if_neg h, if_neg h2]
      exact ⟨_, rfl⟩
  · unfold Triangle.fix_winding_order_if_needed
    by_cases h : all_normals_have_wrong_orientation ops t = true
    · rw [if_pos h]
      intro hc
      cases hc
    · have h2 : ¬ some_normals_have_wrong_orientation ops t = true := h
      rw [if_neg h, if_neg h2]
      intro hc
      cases hc
  · intro h
    have h1 : ¬ all_normals_have_wrong_orientation ops t = true := by
      unfold all_normals_have_wrong_orientation
      rw [h]
      simp
    have h2 : ¬ some_normals_have_wrong_orientation ops t = true := h1
    refine ⟨h, ?_⟩
    unfold Triangle.fix_winding_order_if_needed
    rw [if_neg h1, if_neg h2]

/-- The triangle with one opposing shading normal passes through
`fix_winding_order_if_needed` unchanged and without a failed assertion, although
one of its normals has the wrong orientation. -/
theorem some_flag_is_all_flag_witness :
    opposes plain_ops mixed_triangle mixed_triangle.normal_0 = true ∧
    opposes plain_ops mixed_triangle mixed_triangle.normal_1 = false ∧
    opposes plain_ops mixed_triangle mixed_triangle.normal_2 = false ∧
    some_normals_have_wrong_orientation plain_ops mixed_triangle = false ∧
    mixed_triangle.fix_winding_order_if_needed plain_ops = .ok mixed_triangle := by
  have h0 : opposes plain_ops mixed_triangle mixed_triangle.normal_0 = true := by
    simp only [opposes, geometric_normal, plain_ops, mixed_triangle, sub]
    norm_num
  have h1 : opposes plain_ops mixed_triangle mixed_triangle.normal_1 = false := by
    simp only [opposes, geometric_normal, plain_ops, mixed_triangle, sub]
    norm_num
  have h2 : opposes plain_ops mixed_triangle mixed_triangle.normal_2 = false := h1
  exact ⟨h0, h1, h2, (some_flag_is_all_flag plain_ops mixed_triangle).2.2.2.2
    (by rw [h0, h1, h2]; rfl)⟩

end Renderer

/-! ## Strings: memory, pointers and the copy loop -/

namespace Util

theorem decode_encode (n : Nat) : ∀ p, p < 256 ^ n →
    ((List.range n).map fun i => p / 256 ^ i % 256).foldr (fun b acc => b + 256 * acc) 0 = p := by
  induction n with
  | zero => intro p h; simp at h; simp [h]
  | succ n ih =>
    intro p h
    have hdiv : p / 256 < 256 ^ n := by
      apply Nat.div_lt_of_lt_mul
      rw [pow_succ] at h
      omega
    have hfun : ((fun i => p / 256 ^ i % 256) ∘ Nat.succ) = fun i => p / 256 / 256 ^ i % 256 := by
      funext i
      simp only [Function.comp, Nat.succ_eq_add_one, pow_succ, Nat.div_div_eq_div_mul]
      rw [Nat.mul_comm]
    rw [List.range_succ_eq_map, List.map_cons, List.map_map, List.foldr_cons, hfun, ih _ hdiv]
    simp only [pow_zero, Nat.div_one]
    exact Nat.mod_add_div p 256

theorem pointer_bytes_length (p : Nat) : (pointer_bytes p).length = 8 := by
  simp [pointer_bytes]

/-- Reading `ptr` after a store to `ptr` gives the stored address. -/
theorem bytes_pointer_pointer_bytes (p : Nat) (rest : List Nat) (h : p < 2 ^ 64) :
    bytes_pointer (pointer_bytes p ++ rest) = p := by
  have h8 : (pointer_bytes p ++ rest).take 8 = pointer_bytes p := by
    rw [List.take_append_of_le_length (by rw [pointer_bytes_length])]
    exact List.take_of_length_le (by rw [pointer_bytes_length])
  rw [bytes_pointer, h8]
  exact decode_encode 8 p (by norm_num at h ⊢; exact h)

theorem content_store (m : Memory) (p q : Pointer) (bytes : List Nat) :
    content (store m p bytes) q = if q = p then some bytes else content m q := by
  cases p with
  | buf object =>
    cases q with
    | buf other =>
      simp only [content, store, Pointer.buf.injEq]
      split <;> simp_all
    | heap address => simp [content, store]
  | heap address =>
    cases q with
    | buf other => simp [content, store]
    | heap other => simp [content, store]

theorem store_store (m : Memory) (p : Pointer) (xs ys : List Nat) :
    store (store m p xs) p ys = store m p ys := by
  cases p <;>
    (simp only [store, Memory.mk.injEq, and_true, true_and]; funext o; split <;> simp_all)

theorem store_content_self (m : Memory) (p : Pointer) (bytes : List Nat)
    (h : content m p = some bytes) : store m p bytes = m := by
  cases p with
  | buf object =>
    simp only [content, Option.some.injEq] at h
    cases m with
    | mk objects heap next stale =>
      simp only [store, Memory.mk.injEq, and_true]
      funext o
      by_cases ho : o = object
      · subst ho; simp only [if_true]; simp only at h; rw [← h]
      · simp [ho]
  | heap address =>
    simp only [content] at h
    cases m with
    | mk objects heap next stale =>
      simp only [store, Memory.mk.injEq, true_and, and_true]
      funext a
      by_cases ha : a = address
      · subst ha; simp only [if_true]; exact h.symm
      · simp [ha]

theorem set_getElem_same (xs : List Nat) (i : Nat) (h : i < xs.length) : xs.set i xs[i] = xs := by
  apply List.ext_getElem?
  intro j
  rw [List.getElem?_set]
  split
  · next e => subst e; simp [h]
  · rfl

theorem read_of_content (m : Memory) (p : Pointer) (bytes : List Nat) (i : Nat)
    (h : content m p = some bytes) : read m p i = bytes[i]? := by
  simp [read, h]

theorem write_of_content (m : Memory) (p : Pointer) (bytes : List Nat) (i c : Nat)
    (h : content m p = some bytes) (hi : i < bytes.length) :
    write m p i c = some (store m p (bytes.set i c)) := by
  simp [write, h, hi]

/-- The copy loop, started at index `i` with `k` iterations to go, replaces the
characters `i .. i + k` of the destination by those of the source; the two
pointers may be the same. -/
theorem memcpy_loop_spec (dst src : Pointer) (S : List Nat) :
    ∀ (k i : Nat) (m : Memory) (E : List Nat), content m src = some S → content m dst = some E →
      i + k ≤ S.length → i + k ≤ E.length →
      memcpy_loop dst src k i m
        = some (store m dst (E.take i ++ (S.drop i).take k ++ E.drop (i + k))) := by
  intro k
  induction k with
  | zero =>
    intro i m E _ hE _ _
    simp only [memcpy_loop, List.take_zero, List.append_nil, Nat.add_zero, List.take_append_drop]
    rw [store_content_self m dst E hE]
  | succ k ih =>
    intro i m E hS hE hiS hiE
    have hi : i < S.length := by omega
    have hi' : i < E.length := by omega
    have hread : read m src i = some S[i] := by
      rw [read_of_content m src S i hS]; exact List.getElem?_eq_getElem hi
    have hS' : content (store m dst (E.set i S[i])) src = some S := by
      rw [content_store]
      split
      · next h =>
        subst h
        rw [hS] at hE
        cases hE
        rw [set_getElem_same S i hi]
      · exact hS
    have hE' : content (store m dst (E.set i S[i])) dst = some (E.set i S[i]) := by
      rw [content_store, if_pos rfl]
    rw [memcpy_loop, hread]
    simp only
    rw [write_of_content m dst E i S[i] hE hi']
    simp only
    rw [ih (i + 1) _ (E.set i S[i]) hS' hE' (by omega) (by rw [List.length_set]; omega),
      store_store]
    congr 2
    have e1 : (E.set i S[i]).take (i + 1) = E.take i ++ [S[i]] := by
      rw [List.set_eq_take_append_cons_drop, if_pos hi', List.take_append_eq_append_take,
        List.take_take, List.length_take]
      simp [Nat.min_eq_left (Nat.le_of_lt hi')]
    have e2 : (E.set i S[i]).drop (i + 1 + k) = E.drop (i + (k + 1)) := by
      rw [List.drop_set_of_lt _ _ (by omega)]
      congr 1; omega
    have e3 : (S.drop i).take (k + 1) = S[i] :: (S.drop (i + 1)).take k := by
      rw [List.drop_eq_getElem_cons hi, List.take_succ_cons]
    rw [e1, e2, e3]
    simp

/-- The function `memcpy`: the first `len` characters of the destination become
those of the source. -/
theorem memcpy_spec (m : Memory) (dst src : Pointer) (S E : List Nat) (len : Nat)
    (hS : content m src = some S) (hE : content m dst = some E)
    (hlS : len ≤ S.length) (hlE : len ≤ E.length) :
    memcpy m dst src len = some (store m dst (S.take len ++ E.drop len)) := by
  rw [memcpy, memcpy_loop_spec dst src S len 0 m E hS hE (by omega) (by omega)]
  simp

/-! ## Strings: what a well-formed object reads as -/

theorem store_length (m : Memory) (p : Pointer) (bytes : List Nat) (o : Nat) :
    ((store m p bytes).objects o).length = (m.objects o).length := by
  cases p with
  | buf object =>
    simp only [store]
    split
    · next h => rw [h]
    · rfl
  | heap address => rfl

theorem data_inline (m : Memory) (o : Nat) (h : (m.objects o).length < SSO_SIZE) :
    data m o = .buf o := by
  simp [data, h]

theorem data_heap (m : Memory) (o : Nat) (h : SSO_SIZE ≤ (m.objects o).length) :
    data m o = .heap (m.objects o).ptr := by
  simp [data, Nat.not_lt.mpr h]

/-- A well-formed object reads as its characters followed by a NUL. -/
theorem represents_index (m : Memory) (o : Nat) (chars : List Nat) (h : Represents m o chars)
    (i : Nat) (hi : i ≤ chars.length) : index m o i = (chars ++ [0])[i]? := by
  obtain ⟨hlen, _, hinline, hheap⟩ := h
  by_cases hc : chars.length < SSO_SIZE
  · rw [index, data_inline m o (by rw [hlen]; exact hc),
      read_of_content m (.buf o) (m.objects o).buf i rfl, ← hinline hc, List.getElem?_take]
    rw [if_pos (by omega)]
  · rw [index, data_heap m o (by rw [hlen]; omega)]
    exact read_of_content m _ _ i (hheap (by omega))

theorem represents_index_char (m : Memory) (o : Nat) (chars : List Nat)
    (h : Represents m o chars) (i : Nat) (hi : i < chars.length) :
    index m o i = some chars[i] := by
  rw [represents_index m o chars h i (by omega), List.getElem?_append_left hi,
    List.getElem?_eq_getElem hi]

theorem represents_index_nul (m : Memory) (o : Nat) (chars : List Nat)
    (h : Represents m o chars) : index m o chars.length = some 0 := by
  rw [represents_index m o chars h chars.length (by omega)]
  simp

theorem equals_loop_same (m : Memory) (a b : Nat) (chars : List Nat) (ha : Represents m a chars)
    (hb : Represents m b chars) :
    ∀ k i, i + k ≤ chars.length → equals_loop m a b k i = some true := by
  intro k
  induction k with
  | zero => intro i _; rfl
  | succ k ih =>
    intro i hi
    rw [equals_loop, represents_index_char m a chars ha i (by omega),
      represents_index_char m b chars hb i (by omega)]
    simp only [ne_eq, not_true_eq_false, if_false]
    exact ih (i + 1) (by omega)

/-- Two well-formed objects holding the same characters compare equal. -/
theorem equals_same (m : Memory) (a b : Nat) (chars : List Nat) (ha : Represents m a chars)
    (hb : Represents m b chars) : equals m a b = some true := by
  have hsa : size m a = chars.length := ha.1
  have hsb : size m b = chars.length := hb.1
  rw [equals, hsa, hsb]
  simp only [ne_eq, not_true_eq_false, if_false]
  exact equals_loop_same m a b chars ha hb chars.length 0 (by omega)

/-- The copy of `length + 1` characters into `data()`, last step of the
constructors and of `operator=`: once the object has the length of `chars` and,
when that is 16 or more, a live block of `length + 1` bytes at `ptr`, copying from
a pointer at `chars` followed by a NUL makes the object hold `chars`. -/
theorem copy_in (m : Memory) (this : Nat) (src : Pointer) (S chars : List Nat)
    (hlen : (m.objects this).length = chars.length) (hbuf : (m.objects this).buf.length = 16)
    (hS : content m src = some S) (htake : S.take (chars.length + 1) = chars ++ [0])
    (hblock : SSO_SIZE ≤ chars.length →
      ∃ E, m.heap (m.objects this).ptr = some E ∧ E.length = chars.length + 1) :
    ∃ X, memcpy m (data m this) src (size m this + 1) = some (store m (data m this) X) ∧
      Represents (store m (data m this) X) this chars := by
  have hSlen : chars.length + 1 ≤ S.length := by
    have := congrArg List.length htake
    rw [List.length_take, List.length_append, List.length_singleton] at this
    omega
  have hsize : size m this = chars.length := hlen
  by_cases hc : chars.length < SSO_SIZE
  · have hc16 : chars.length < 16 := hc
    have hd : data m this = .buf this := data_inline m this (by rw [hlen]; exact hc)
    rw [hd, hsize, memcpy_spec m (.buf this) src S (m.objects this).buf (chars.length + 1) hS rfl
      hSlen (by omega), htake]
    refine ⟨_, rfl, ?_, ?_, ?_, ?_⟩
    · rw [store_length]; exact hlen
    · simp only [store, if_true, List.length_append, List.length_singleton, List.length_drop]
      omega
    · intro _
      simp only [store, if_true]
      rw [List.take_append_of_le_length (by simp), List.take_of_length_le (by simp)]
    · intro h; exact absurd h (Nat.not_le.mpr hc)
  · have hc16 : SSO_SIZE ≤ chars.length := Nat.le_of_not_lt hc
    obtain ⟨E, hE, hElen⟩ := hblock hc16
    have hd : data m this = .heap (m.objects this).ptr := data_heap m this (by rw [hlen]; exact hc16)
    rw [hd, hsize, memcpy_spec m (.heap (m.objects this).ptr) src S E (chars.length + 1) hS hE
      hSlen (by omega), htake, List.drop_of_length_le (by omega), List.append_nil]
    refine ⟨_, rfl, ?_, ?_, ?_, ?_⟩
    · rw [store_length]; exact hlen
    · exact hbuf
    · intro h; exact absurd h hc
    · intro _
      simp [store]

/-! ## Strings: allocation and the constructors -/

/-- What lines 18-20 (and 25-27, 64-66) leave behind: the object keeps its length,
the other objects and the live blocks are untouched, and for `n` of 16 or more
`ptr` is a fresh block of `n + 1` bytes. -/
theorem allocate_spec (m : Memory) (this n : Nat) (hsound : m.Sound)
    (hbuf : (m.objects this).buf.length = 16) :
    ((allocate_if_long m this n).objects this).length = (m.objects this).length ∧
    ((allocate_if_long m this n).objects this).buf.length = 16 ∧
    (∀ o, o ≠ this → (allocate_if_long m this n).objects o = m.objects o) ∧
    (∀ a block, m.heap a = some block → (allocate_if_long m this n).heap a = some block) ∧
    (n < SSO_SIZE → allocate_if_long m this n = m) ∧
    (SSO_SIZE ≤ n →
      m.heap ((allocate_if_long m this n).objects this).ptr = none ∧
      ∃ E, (allocate_if_long m this n).heap ((allocate_if_long m this n).objects this).ptr = some E ∧
        E.length = n + 1) := by
  by_cases hn : SSO_SIZE ≤ n
  · have hptr : ((allocate_if_long m this n).objects this).ptr = m.next := by
      simp only [allocate_if_long, if_pos hn, set_ptr, store, new_array, if_true, String.ptr]
      exact bytes_pointer_pointer_bytes _ _ hsound.1
    rw [hptr]
    refine ⟨?_, ?_, ?_, ?_, ?_, ?_⟩
    · simp [allocate_if_long, hn, set_ptr, store, new_array]
    · simp [allocate_if_long, hn, set_ptr, store, new_array, pointer_bytes_length, hbuf]
    · intro o ho
      simp [allocate_if_long, hn, set_ptr, store, new_array, ho]
    · intro a block ha
      have hne : a ≠ m.next := by
        intro e
        rw [e, hsound.2 m.next (Nat.le_refl _)] at ha
        cases ha
      simp [allocate_if_long, hn, set_ptr, store, new_array, hne, ha]
    · intro h; exact absurd hn (Nat.not_le.mpr h)
    · intro _
      refine ⟨hsound.2 m.next (Nat.le_refl _), (List.range (n + 1)).map m.stale, ?_, ?_⟩
      · simp [allocate_if_long, hn, set_ptr, store, new_array]
      · simp
  · have e : allocate_if_long m this n = m := by simp [allocate_if_long, hn]
    rw [e]
    exact ⟨rfl, hbuf, fun _ _ => rfl, fun _ _ h => h, fun _ => rfl, fun h => absurd h hn⟩

theorem set_length_facts (m : Memory) (this n : Nat) :
    ((set_length m this n).objects this).length = n ∧
    ((set_length m this n).objects this).buf = (m.objects this).buf ∧
    (set_length m this n).heap = m.heap ∧
    (∀ o, o ≠ this → (set_length m this n).objects o = m.objects o) := by
  refine ⟨by simp [set_length], by simp [set_length], rfl, ?_⟩
  intro o ho
  simp [set_length, ho]

/-- Lines 64-71 of `operator=`, run in a memory where the source holds `chars` and,
when it is the destination itself, is inline: the destination and the source hold
`chars` afterwards. -/
theorem assign_copy_spec (m : Memory) (this str : Nat) (chars : List Nat) (hsound : m.Sound)
    (hbuf : (m.objects this).buf.length = 16) (hstr : Represents m str chars)
    (hsame : this = str → chars.length < SSO_SIZE) :
    ∃ m', assign_copy m this str = some m' ∧ Represents m' this chars ∧
      Represents m' str chars := by
  obtain ⟨hlen1, hbuf1, hobj1, hheap1, hid1, hblock1⟩ :=
    allocate_spec m this (size m str) hsound hbuf
  have hsize : size m str = chars.length := hstr.1
  have hsize1 : size (allocate_if_long m this (size m str)) str = chars.length := by
    by_cases e : str = this
    · have hc := hsame e.symm
      rw [hid1 (by rw [hsize]; exact hc)]
      exact hsize
    · show ((allocate_if_long m this (size m str)).objects str).length = chars.length
      rw [hobj1 str e]
      exact hsize
  obtain ⟨hlen2, hbuf2, hheap2, hobj2⟩ :=
    set_length_facts (allocate_if_long m this (size m str)) this chars.length
  have hunfold : assign_copy m this str
      = memcpy (set_length (allocate_if_long m this (size m str)) this chars.length)
          (data (set_length (allocate_if_long m this (size m str)) this chars.length) this)
          (data (set_length (allocate_if_long m this (size m str)) this chars.length) str)
          (size (set_length (allocate_if_long m this (size m str)) this chars.length) this + 1) := by
    simp only [assign_copy, hsize1]
  rw [hunfold]
  by_cases hc : chars.length < SSO_SIZE
  · have hm1 : allocate_if_long m this (size m str) = m := hid1 (by rw [hsize]; exact hc)
    rw [hm1] at hlen2 hbuf2 hheap2 hobj2 ⊢
    have hstrlen : ((set_length m this chars.length).objects str).length = chars.length := by
      by_cases e : str = this
      · rw [e]; exact hlen2
      · rw [hobj2 str e]; exact hstr.1
    have hstrbuf : ((set_length m this chars.length).objects str).buf = (m.objects str).buf := by
      by_cases e : str = this
      · rw [e]; exact hbuf2
      · rw [hobj2 str e]
    obtain ⟨X, hcopy, hrep⟩ := copy_in (set_length m this chars.length) this
      (data (set_length m this chars.length) str) (m.objects str).buf chars hlen2
      (by rw [hbuf2]; exact hbuf)
      (by rw [data_inline _ str (by rw [hstrlen]; exact hc)]
          simp only [content, hstrbuf])
      (hstr.2.2.1 hc) (fun h => absurd h (Nat.not_le.mpr hc))
    refine ⟨_, hcopy, hrep, ?_⟩
    by_cases e : str = this
    · rw [e]; exact hrep
    · rw [data_inline _ this (by rw [hlen2]; exact hc)]
      refine ⟨?_, ?_, ?_, fun h => absurd h (Nat.not_le.mpr hc)⟩
      · rw [store_length, hstrlen]
      · simp only [store, if_neg e, hobj2 str e]
        exact hstr.2.1
      · intro _
        simp only [store, if_neg e, hobj2 str e]
        exact hstr.2.2.1 hc
  · have hc16 : SSO_SIZE ≤ chars.length := Nat.le_of_not_lt hc
    have hne : str ≠ this := fun e => hc (hsame e.symm)
    obtain ⟨hfresh, E, hE, hElen⟩ := hblock1 (by rw [hsize]; exact hc16)
    rw [hsize] at hElen
    have hptr2 : ((set_length (allocate_if_long m this (size m str)) this chars.length).objects
        this).ptr = ((allocate_if_long m this (size m str)).objects this).ptr := by
      simp only [String.ptr, hbuf2]
    have hstr2 : (set_length (allocate_if_long m this (size m str)) this chars.length).objects str
        = m.objects str := by
      rw [hobj2 str hne, hobj1 str hne]
    have hlive := hheap1 _ _ (hstr.2.2.2 hc16)
    obtain ⟨X, hcopy, hrep⟩ := copy_in
      (set_length (allocate_if_long m this (size m str)) this chars.length) this
      (data (set_length (allocate_if_long m this (size m str)) this chars.length) str)
      (chars ++ [0]) chars hlen2 (by rw [hbuf2]; exact hbuf1)
      (by rw [data_heap _ str (by rw [hstr2, hstr.1]; exact hc16), hstr2]
          exact hlive)
      (by simp)
      (fun _ => ⟨E, by rw [hptr2]; exact hE, hElen⟩)
    refine ⟨_, hcopy, hrep, ?_⟩
    rw [data_heap _ this (by rw [hlen2]; exact hc16), hptr2]
    have hother : (m.objects str).ptr ≠ ((allocate_if_long m this (size m str)).objects this).ptr := by
      intro e
      rw [← e, hstr.2.2.2 hc16] at hfresh
      cases hfresh
    refine ⟨?_, ?_, fun h => absurd h hc, ?_⟩
    · rw [store_length, hstr2]; exact hstr.1
    · show ((set_length (allocate_if_long m this (size m str)) this chars.length).objects
          str).buf.length = 16
      rw [hstr2]; exact hstr.2.1
    · intro _
      show (if ((set_length (allocate_if_long m this (size m str)) this chars.length).objects
          str).ptr = ((allocate_if_long m this (size m str)).objects this).ptr then some X
        else (allocate_if_long m this (size m str)).heap
          ((set_length (allocate_if_long m this (size m str)) this chars.length).objects str).ptr)
        = some (chars ++ [0])
      rw [hstr2, if_neg hother]
      exact hlive

/-- What `delete [] ptr` on line 61 leaves behind when the lengths differ: the
source still holds its characters. -/
theorem delete_spec (m : Memory) (a b : Nat) (ca cb : List Nat) (hsound : m.Sound)
    (ha : Represents m a ca) (hb : Represents m b cb) (hlong : SSO_SIZE ≤ ca.length)
    (hdiff : ca.length ≠ cb.length)
    (hown : a ≠ b → SSO_SIZE ≤ ca.length → SSO_SIZE ≤ cb.length →
      (m.objects a).ptr ≠ (m.objects b).ptr) :
    ∃ m1, delete_array m (m.objects a).ptr = some m1 ∧ m1.Sound ∧ m1.objects = m.objects ∧
      Represents m1 b cb := by
  have hab : a ≠ b := by
    intro e
    apply hdiff
    rw [← ha.1, ← hb.1, e]
  by_cases h0 : (m.objects a).ptr = 0
  · exact ⟨m, by simp [delete_array, h0], hsound, rfl, hb⟩
  · refine ⟨{ m with heap := fun x => if x = (m.objects a).ptr then none else m.heap x },
      by simp only [delete_array, if_neg h0, ha.2.2.2 hlong], ?_, rfl, ?_⟩
    · refine ⟨hsound.1, fun x hx => ?_⟩
      show (if x = (m.objects a).ptr then none else m.heap x) = none
      split
      · rfl
      · exact hsound.2 x hx
    · refine ⟨hb.1, hb.2.1, hb.2.2.1, fun hc => ?_⟩
      show (if (m.objects b).ptr = (m.objects a).ptr then none else m.heap (m.objects b).ptr)
        = some (cb ++ [0])
      rw [if_neg (fun e => hown hab hlong hc e.symm)]
      exact hb.2.2.2 hc

/-- The copy assignment leaves both objects holding the characters of the
source. -/
theorem assign_spec (m : Memory) (a b : Nat) (ca cb : List Nat) (hsound : m.Sound)
    (ha : Represents m a ca) (hb : Represents m b cb)
    (hown : a ≠ b → SSO_SIZE ≤ ca.length → SSO_SIZE ≤ cb.length →
      (m.objects a).ptr ≠ (m.objects b).ptr) :
    ∃ m', assign m a b = some m' ∧ Represents m' a cb ∧ Represents m' b cb := by
  have hsa : size m a = ca.length := ha.1
  have hsb : size m b = cb.length := hb.1
  unfold assign
  by_cases hlong : SSO_SIZE ≤ ca.length
  · rw [if_pos (by rw [hsa]; exact hlong)]
    by_cases hsame : ca.length = cb.length
    · rw [if_pos (by rw [hsa, hsb]; exact hsame)]
      have hlongb : SSO_SIZE ≤ cb.length := by rw [← hsame]; exact hlong
      rw [data_heap m a (by rw [ha.1]; exact hlong), data_heap m b (by rw [hb.1]; exact hlongb),
        hsa, memcpy_spec m (.heap (m.objects a).ptr) (.heap (m.objects b).ptr) (cb ++ [0]) (ca ++ [0]) (ca.length + 1) (hb.2.2.2 hlongb)
          (ha.2.2.2 hlong) (by simp [hsame]) (by simp)]
      have hcontent : (cb ++ [0]).take (ca.length + 1) ++ (ca ++ [0]).drop (ca.length + 1)
          = cb ++ [0] := by
        rw [List.take_of_length_le (by simp [hsame]), List.drop_of_length_le (by simp)]
        simp
      rw [hcontent]
      refine ⟨_, rfl, ⟨?_, ha.2.1, fun h => absurd h (Nat.not_lt.mpr hlongb), fun _ => ?_⟩,
        ⟨hb.1, hb.2.1, fun h => absurd h (Nat.not_lt.mpr hlongb), fun _ => ?_⟩⟩
      · show (m.objects a).length = cb.length
        rw [ha.1, hsame]
      · simp [store]
      · show (if (m.objects b).ptr = (m.objects a).ptr then some (cb ++ [0])
          else m.heap (m.objects b).ptr) = some (cb ++ [0])
        split
        · rfl
        · exact hb.2.2.2 hlongb
    · rw [if_neg (by rw [hsa, hsb]; exact hsame)]
      obtain ⟨m1, hdel, hsound1, hobj1, hb1⟩ := delete_spec m a b ca cb hsound ha hb hlong hsame hown
      rw [hdel]
      have hab : a ≠ b := by
        intro e
        apply hsame
        rw [← ha.1, ← hb.1, e]
      exact assign_copy_spec m1 a b cb hsound1 (by rw [hobj1]; exact ha.2.1) hb1
        (fun e => absurd e hab)
  · rw [if_neg (by rw [hsa]; exact hlong)]
    refine assign_copy_spec m a b cb hsound ha.2.1 hb (fun e => ?_)
    rw [← hb.1, ← e, ha.1]
    exact Nat.lt_of_not_le hlong

/-- Copy assignment between well-formed strings: for `a` and `b` holding their
characters, inline or on the heap in any combination, possibly the same object,
distinct objects owning distinct heap blocks, `a = b` succeeds; afterwards
`a.size() == b.size()`, `a[i] == b[i]` for every `i < size`, `a` has a NUL at index
`size`, `operator==(a, b)` is true, and the length and the characters of `b` are
the ones it had before. A moved-from destination is not well-formed. -/
theorem copy_assignment (m : Memory) (a b : Nat) (ca cb : List Nat) (hsound : m.Sound)
    (ha : Represents m a ca) (hb : Represents m b cb)
    (hown : a ≠ b → SSO_SIZE ≤ ca.length → SSO_SIZE ≤ cb.length →
      (m.objects a).ptr ≠ (m.objects b).ptr) :
    ∃ m', assign m a b = some m' ∧
      size m' a = size m' b ∧
      (∀ i, i < size m' b → ∃ c, index m' a i = some c ∧ index m' b i = some c) ∧
      index m' a (size m' b) = some 0 ∧
      equals m' a b = some true ∧
      size m' b = size m b ∧
      (∀ i, i ≤ size m b → index m' b i = index m b i) ∧
      Represents m' a cb ∧ Represents m' b cb := by
  obtain ⟨m', hassign, ha', hb'⟩ := assign_spec m a b ca cb hsound ha hb hown
  have hsa : size m' a = cb.length := ha'.1
  have hsb : size m' b = cb.length := hb'.1
  have hsb0 : size m b = cb.length := hb.1
  refine ⟨m', hassign, by rw [hsa, hsb], ?_, ?_, equals_same m' a b cb ha' hb',
    by rw [hsb, hsb0], ?_, ha', hb'⟩
  · intro i hi
    rw [hsb] at hi
    exact ⟨cb[i], represents_index_char m' a cb ha' i hi, represents_index_char m' b cb hb' i hi⟩
  · rw [hsb]
    exact represents_index_nul m' a cb ha'
  · intro i hi
    rw [hsb0] at hi
    rw [represents_index m' b cb hb' i hi, represents_index m b cb hb i hi]

theorem copy_assignment_witness :
    ∃ m', assign two_strings 0 1 = some m' ∧
      size m' 0 = size m' 1 ∧
      (∀ i, i < size m' 1 → ∃ c, index m' 0 i = some c ∧ index m' 1 i = some c) ∧
      index m' 0 (size m' 1) = some 0 ∧
      equals m' 0 1 = some true ∧
      size m' 1 = size two_strings 1 ∧
      (∀ i, i ≤ size two_strings 1 → index m' 1 i = index two_strings 1 i) ∧
      Represents m' 0 [104, 105] ∧ Represents m' 1 [104, 105] :=
  copy_assignment two_strings 0 1 sixteen_letters [104, 105]
    ⟨by decide, fun a ha => by
      have h2 : 2 ≤ a := ha
      have h1 : a ≠ 1 := by omega
      simp [two_strings, h1]⟩
    ⟨rfl, rfl, fun h => absurd h (by decide), fun _ => by decide⟩
    ⟨rfl, rfl, fun _ => rfl, fun h => absurd h (by decide)⟩
    (fun _ _ h => absurd h (by decide))

/-- C16: the copy assignment fails on a moved-from destination of the same length
as the source. Moving object 0, which holds 16 characters on the heap, into
object 2 leaves object 0 with `length == 16` and `ptr == nullptr`; the assignment
`object 0 = object 2` then takes the branch of lines 56-59 and copies through the
null pointer, so it does not make object 0 equal to object 2. The assignment
`object 0 = object 1` from a string of another length takes lines 61-69 instead
and succeeds. -/
theorem assign_to_moved_from :
    ∃ m', String_move two_strings 2 0 = some m' ∧
      Represents m' 2 sixteen_letters ∧
      size m' 0 = 16 ∧ (m'.objects 0).ptr = 0 ∧ data m' 0 = .heap 0 ∧ m'.heap 0 = none ∧
      size m' 2 = size m' 0 ∧
      assign m' 0 2 = none ∧
      ∃ m'', assign m' 0 1 = some m'' ∧ Represents m'' 0 [104, 105] ∧
        equals m'' 0 1 = some true := by
  refine ⟨_, rfl, ⟨rfl, rfl, fun h => absurd h (by decide), fun _ => by decide⟩, rfl, by decide,
    by decide, rfl, rfl, rfl, _, rfl,
    ⟨rfl, rfl, fun _ => by decide, fun h => absurd h (by decide)⟩, by decide⟩

/-! ## Strings: the hash -/

theorem hash_loop_bounded (char_is_signed : Bool) (m : Memory) (str : Nat) (chars : List Nat)
    (hstr : Represents m str chars) :
    ∀ k i hash pow_p, i + k = chars.length → hash < M →
      ∃ h, hash_loop char_is_signed m str k i hash pow_p = some h ∧ h < M := by
  intro k
  induction k with
  | zero => intro i hash pow_p _ hh; exact ⟨hash, rfl, hh⟩
  | succ k ih =>
    intro i hash pow_p hi _
    rw [hash_loop, represents_index_char m str chars hstr i (by omega)]
    exact ih (i + 1) _ _ (by omega) (Nat.mod_lt _ (by decide))

theorem polynomial_sum_succ (codes : List Int) (n : Nat) :
    polynomial_sum codes (n + 1) = polynomial_sum codes n + (codes.getD n 0 - 97 + 1) * 31 ^ n := by
  simp [polynomial_sum, List.range_succ]

theorem promote_le (char_is_signed : Bool) (c : Nat) : promote char_is_signed c ≤ (c : Int) := by
  unfold promote
  split <;> omega

/-- One round of the loop without wraparound: for a character of promoted code 96
or more and a byte below 256, the sum and the products stay below `2^64`. -/
theorem hash_step (char_is_signed : Bool) (c hash pow_p : Nat) (hc : c < 256)
    (hcode : 96 ≤ promote char_is_signed c) (hh : hash < M) (hp : pow_p < M) :
    (((hash + to_size_t (promote char_is_signed c - 97 + 1) * pow_p % 2 ^ 64) % 2 ^ 64 % M
        : Nat) : Int)
      = ((hash : Int) + (promote char_is_signed c - 97 + 1) * (pow_p : Int)) % 1000000009 ∧
    pow_p * P % 2 ^ 64 % M = pow_p * 31 % 1000000009 := by
  have hle := promote_le char_is_signed c
  obtain ⟨T, hT⟩ := Int.eq_ofNat_of_zero_le
    (show (0 : Int) ≤ promote char_is_signed c - 97 + 1 by omega)
  have hT160 : T < 160 := by omega
  have hM : M = 1000000009 := rfl
  rw [hM] at hh hp
  have hsize : to_size_t (promote char_is_signed c - 97 + 1) = T := by
    rw [hT, to_size_t, Int.emod_eq_of_lt (by omega) (by omega)]
    exact Int.toNat_ofNat T
  have hprod : T * pow_p < 160 * 1000000009 :=
    Nat.mul_lt_mul_of_lt_of_le hT160 (Nat.le_of_lt hp) (by omega)
  have hprod31 : pow_p * 31 < 1000000009 * 31 := by omega
  rw [hsize, hT, hM, P, Nat.mod_eq_of_lt (show T * pow_p < 2 ^ 64 by omega),
    Nat.mod_eq_of_lt (show hash + T * pow_p < 2 ^ 64 by omega),
    Nat.mod_eq_of_lt (show pow_p * 31 < 2 ^ 64 by omega)]
  refine ⟨?_, rfl⟩
  push_cast
  rfl

theorem hash_loop_exact (char_is_signed : Bool) (m : Memory) (str : Nat) (chars : List Nat)
    (hstr : Represents m str chars)
    (hchars : ∀ c ∈ chars, c < 256 ∧ 96 ≤ promote char_is_signed c) :
    ∀ k i hash pow_p, i + k = chars.length → hash < M → pow_p < M →
      (hash : Int) = polynomial_sum (chars.map (promote char_is_signed)) i % 1000000009 →
      (pow_p : Int) = 31 ^ i % 1000000009 →
      ∃ h, hash_loop char_is_signed m str k i hash pow_p = some h ∧
        (h : Int) = polynomial_hash (chars.map (promote char_is_signed)) := by
  intro k
  induction k with
  | zero =>
    intro i hash pow_p hi _ _ hhash _
    refine ⟨hash, rfl, ?_⟩
    rw [hhash, polynomial_hash, List.length_map]
    congr 2
  | succ k ih =>
    intro i hash pow_p hi hh hp hhash hpow
    have hlt : i < chars.length := by omega
    obtain ⟨hc, hcode⟩ := hchars chars[i] (List.getElem_mem hlt)
    obtain ⟨hstep, hstep_pow⟩ := hash_step char_is_signed chars[i] hash pow_p hc hcode hh hp
    rw [hash_loop, represents_index_char m str chars hstr i hlt]
    refine ih (i + 1) _ _ (by omega) (Nat.mod_lt _ (by decide)) (Nat.mod_lt _ (by decide)) ?_ ?_
    · rw [hstep, polynomial_sum_succ, hhash, hpow]
      have hget : (chars.map (promote char_is_signed)).getD i 0
          = promote char_is_signed chars[i] := by
        rw [List.getD_eq_getElem _ _ (by rw [List.length_map]; exact hlt), List.getElem_map]
      rw [hget]
      exact Int.ModEq.add (Int.mod_modEq _ _) (Int.ModEq.mul_left _ (Int.mod_modEq _ _))
    · rw [hstep_pow]
      push_cast
      rw [hpow, pow_succ]
      exact Int.ModEq.mul_right _ (Int.mod_modEq _ _)

/-- C18, as amended: for every well-formed string `StringHash` returns a value
below 1000000009; when every character is a byte whose promoted code is at least
96 (the code of `a` minus one), that value is the polynomial rolling hash, the
non-negative residue modulo 1000000009 of the integer sum of
`(code(s[i]) - code('a') + 1) * 31^i`, the 64-bit arithmetic never wrapping. -/
theorem hash_is_polynomial (char_is_signed : Bool) (m : Memory) (str : Nat) (chars : List Nat)
    (hstr : Represents m str chars) :
    ∃ h, StringHash char_is_signed m str = some h ∧ h < 1000000009 ∧
      ((∀ c ∈ chars, c < 256 ∧ 96 ≤ promote char_is_signed c) →
        (h : Int) = polynomial_hash (chars.map (promote char_is_signed))) := by
  have hsize : size m str = chars.length := hstr.1
  obtain ⟨h, hrun, hlt⟩ := hash_loop_bounded char_is_signed m str chars hstr chars.length 0 0 1
    (by omega) (by decide)
  refine ⟨h, by rw [StringHash, hsize]; exact hrun, hlt, fun hchars => ?_⟩
  obtain ⟨h', hrun', hexact⟩ := hash_loop_exact char_is_signed m str chars hstr hchars
    chars.length 0 0 1 (by omega) (by decide) (by decide) (by simp [polynomial_sum]) (by simp)
  rw [hrun] at hrun'
  cases hrun'
  exact hexact

theorem hash_is_polynomial_witness :
    Represents two_strings 1 [104, 105] ∧
    ∃ h, StringHash false two_strings 1 = some h ∧ h < 1000000009 ∧
      (h : Int) = polynomial_hash ([104, 105].map (promote false)) :=
  ⟨⟨rfl, rfl, fun _ => rfl, fun h => absurd h (by decide)⟩,
    (hash_is_polynomial false two_strings 1 [104, 105]
      ⟨rfl, rfl, fun _ => rfl, fun h => absurd h (by decide)⟩).imp
      fun _ hh => ⟨hh.1, hh.2.1, hh.2.2 (by decide)⟩⟩

/-- C18, counterexample: on the string `A`, whose code 65 is below 96, the term
`str[i] - 'a' + 1` is `-31` and becomes `2^64 - 31` as a `size_t`; `StringHash`
returns `688856422`, the residue of `2^64 - 31`, while the polynomial rolling
hash, the residue of `-31`, is `999999978`. -/
theorem hash_of_capital_wraps :
    Represents capital_A 0 [65] ∧
    StringHash false capital_A 0 = some 688856422 ∧
    StringHash true capital_A 0 = some 688856422 ∧
    polynomial_hash ([65].map (promote false)) = 999999978 ∧
    polynomial_hash ([65].map (promote true)) = 999999978 ∧
    ¬ ∃ h, StringHash false capital_A 0 = some h ∧
      (h : Int) = polynomial_hash ([65].map (promote false)) := by
  have hrun : StringHash false capital_A 0 = some 688856422 := by decide
  have hspec : polynomial_hash ([65].map (promote false)) = 999999978 := by decide
  refine ⟨⟨rfl, rfl, fun _ => rfl, fun h => absurd h (by decide)⟩, hrun, by decide, hspec,
    by decide, ?_⟩
  rintro ⟨h, hh, he⟩
  rw [hrun] at hh
  cases hh
  rw [hspec] at he
  exact absurd he (by decide)

end Util
